import Mathlib

/-! Compile-time nested loops: `for_constexpr` (src/for_constexpr.cpp).

A shallow embedding of the loop generator of `src/for_constexpr.cpp`.

* The generator is embedded twice.  `for_constexpr_64` is the source on a platform with a
  64-bit `size_t`: template arguments of type `size_t` are natural numbers read modulo
  `2^64`, `static_cast<ssize_t>(x)` is the two's complement reading `to_ssize_t x`, a signed
  operation that leaves the range of `ssize_t` is not a constant expression (`ssize_t_sub`,
  `ssize_t_add`), and `upper - lower` and `Is + Lower` wrap around `2^64`.  `for_constexpr`
  is the same overloads in the integers: `static_cast<ssize_t>(x)` is the coercion
  `((x : Nat) : Int)` and `static_cast<size_t>(d)` of a non-negative `d` is `Int.toNat d`.
  The two are the same instantiation for every configuration that keeps its bounds and
  indices below `2^63` and has no symmetric descriptor deeper than level 2
  (`for_constexpr_64_eq_lift`); the properties of the generator are proved in the integers
  and stated for `for_constexpr_64` under these conditions.
* A pack expansion `(body)...` over `std::index_sequence<Is...>` with `Is = 0, ..., size - 1`
  is `List.range size` traversed from left to right (the elements of a braced initializer
  list are evaluated in order).
* The callback `f` is abstract: an expansion records the argument lists `f` is called with,
  in call order, whatever their length.
* A `static_assert` that fails is recorded as a diagnostic; instantiation goes on after it
  (this is what the size-1 safeguard of the source is for), so an expansion records every
  diagnostic and the calls of the code that would have been generated.  A program is
  accepted when no diagnostic was recorded, and only then does it run.
* The embedding in the integers follows the values of the index constants.  Value
  categories of the forwarded constants are not part of it; `for_constexpr_deduced` and
  `for_constexpr_64` follow the deduced types as well, which changes nothing up to three
  levels (`deduced_three_levels`).
-/

namespace ForConstexpr

/-- Bound descriptors `for_bounds<Lower, Upper>`, `for_symm_lower<Index, Lower, Offset>` and
`for_symm_upper<Index, Upper>` (src/for_constexpr.cpp:60-85). -/
inductive Bounds where
  | for_bounds (lower upper : Nat)
  | for_symm_lower (index lower : Nat) (offset : Int)
  | for_symm_upper (index upper : Nat)
  deriving DecidableEq, Repr

/-- Diagnostics of a rejected instantiation.  The first three are the messages of the three
`static_assert`s; `no_bounds_member` is the failed lookup of `Bounds0::lower`/`Bounds0::upper`
in a descriptor without these members; `tuple_index` is `std::get<Index>` applied to a tuple
with no element `Index`. -/
inductive Diag where
  | upper_smaller_than_lower
  | symm_upper_below_index
  | symm_lower_above_upper
  | no_bounds_member
  | tuple_index
  deriving DecidableEq, Repr

/-- What instantiating (and then running) a piece of the generator produces: the diagnostics,
and the argument lists of the callback invocations in call order. -/
structure Expansion where
  diags : List Diag
  calls : List (List Nat)
  deriving DecidableEq, Repr

/-- Sequencing of two pieces of generated code. -/
def Expansion.append (a b : Expansion) : Expansion :=
  ⟨a.diags ++ b.diags, a.calls ++ b.calls⟩

/-- The pack expansion `(body)...` over `std::index_sequence<0, ..., size - 1>`. -/
def pack (size : Nat) (body : Nat → Expansion) : Expansion :=
  ⟨(List.range size).flatMap (fun is => (body is).diags),
   (List.range size).flatMap (fun is => (body is).calls)⟩

/-- A `static_assert(cond, msg)`. -/
def static_assert (cond : Bool) (msg : Diag) : Expansion :=
  ⟨if cond then [] else [msg], []⟩

/-- The alias `all_true<Bs...>` over a pack indexed by `Is = 0, ..., size - 1`. -/
def all_true (size : Nat) (b : Nat → Bool) : Bool :=
  (List.range size).all b

/-- The argument of `std::make_index_sequence` in every overload:
`diff < 0 ? 1 : size`. -/
def index_sequence_size (diff : Int) (size : Nat) : Nat :=
  if diff < 0 then 1 else size

/-- The expression `std::get<Index>(std::make_tuple(IntegralConstants::value..., Is + Lower))`;
`none` when the tuple has no element `Index`. -/
def std_get (index : Nat) (tuple : List Nat) : Option Nat :=
  tuple.get? index

/-- Base case (src/for_constexpr.cpp:95-100): calls `f(v..., Is + Lower)` for every `Is`. -/
def for_constexpr_impl_base (lower size : Nat) (v : List Nat) : Expansion :=
  pack size fun is => ⟨[], [v ++ [is + lower]]⟩

/-- The three overloads "second last loop" (src/for_constexpr.cpp:103-193), selected by the
type of the descriptor `next` passed as second function argument when no further descriptor
is given as template argument.  Each one asserts its guard and calls the base case once per
`Is`. -/
def for_constexpr_impl_second_last (lower : Nat) (next : Bounds) (size : Nat)
    (v : List Nat) : Expansion :=
  match next with
  | .for_bounds nl nu =>
    (static_assert (decide ((nu : Int) - (nl : Int) ≥ 0)) .upper_smaller_than_lower).append
      (pack size fun is =>
        for_constexpr_impl_base nl
          (index_sequence_size ((nu : Int) - (nl : Int)) (nu - nl)) (v ++ [is + lower]))
  | .for_symm_upper index nu =>
    (static_assert
        (all_true size fun is =>
          match std_get index (v ++ [is + lower]) with
          | none => true
          | some r => decide ((nu : Int) - (r : Int) ≥ 0))
        .symm_upper_below_index).append
      (pack size fun is =>
        match std_get index (v ++ [is + lower]) with
        | none => ⟨[.tuple_index], []⟩
        | some r =>
          for_constexpr_impl_base r
            (index_sequence_size ((nu : Int) - (r : Int)) (nu - r)) (v ++ [is + lower]))
  | .for_symm_lower index nl off =>
    (static_assert
        (all_true size fun is =>
          match std_get index (v ++ [is + lower]) with
          | none => true
          | some r => decide ((r : Int) + off - (nl : Int) ≥ 0))
        .symm_lower_above_upper).append
      (pack size fun is =>
        match std_get index (v ++ [is + lower]) with
        | none => ⟨[.tuple_index], []⟩
        | some r =>
          for_constexpr_impl_base nl
            (index_sequence_size ((r : Int) + off - (nl : Int))
              ((r : Int) + off - (nl : Int)).toNat) (v ++ [is + lower]))

/-- The call `for_constexpr_impl<Lower, Bounds...>(f, next, index_sequence<Is...>, v...)`.
With an empty `Bounds...` overload resolution takes the "second last loop" overload of
`next`; with `Bounds... = bounds1, rest...` it takes the overload "more than two nested
loops" of `next` (src/for_constexpr.cpp:196-289), whose template parameters `Bounds1` and
`Bounds...` are `bounds1` and `rest`.  The overload for `for_bounds` calls
`for_constexpr_impl<BoundsNextLower, Bounds...>(f, Bounds1{}, ...)`; the overloads for
`for_symm_upper` and `for_symm_lower` call `for_constexpr_impl<...>(f, Bounds1{}, ...)`
with no `Bounds...`, which is the "second last loop" overload of `Bounds1`. -/
def for_constexpr_impl (lower : Nat) (next : Bounds) (bounds : List Bounds) (size : Nat)
    (v : List Nat) : Expansion :=
  match bounds with
  | [] => for_constexpr_impl_second_last lower next size v
  | bounds1 :: rest =>
    match next with
    | .for_bounds nl nu =>
      (static_assert (decide ((nu : Int) - (nl : Int) ≥ 0)) .upper_smaller_than_lower).append
        (pack size fun is =>
          for_constexpr_impl nl bounds1 rest
            (index_sequence_size ((nu : Int) - (nl : Int)) (nu - nl)) (v ++ [is + lower]))
    | .for_symm_upper index nu =>
      (static_assert
          (all_true size fun is =>
            match std_get index (v ++ [is + lower]) with
            | none => true
            | some r => decide ((nu : Int) - (r : Int) ≥ 0))
          .symm_upper_below_index).append
        (pack size fun is =>
          match std_get index (v ++ [is + lower]) with
          | none => ⟨[.tuple_index], []⟩
          | some r =>
            for_constexpr_impl_second_last r bounds1
              (index_sequence_size ((nu : Int) - (r : Int)) (nu - r)) (v ++ [is + lower]))
    | .for_symm_lower index nl off =>
      (static_assert
          (all_true size fun is =>
            match std_get index (v ++ [is + lower]) with
            | none => true
            | some r => decide ((r : Int) + off - (nl : Int) ≥ 0))
          .symm_lower_above_upper).append
        (pack size fun is =>
          match std_get index (v ++ [is + lower]) with
          | none => ⟨[.tuple_index], []⟩
          | some r =>
            for_constexpr_impl_second_last nl bounds1
              (index_sequence_size ((r : Int) + off - (nl : Int))
                ((r : Int) + off - (nl : Int)).toNat) (v ++ [is + lower]))

/-- The two overloads of `for_constexpr` (src/for_constexpr.cpp:293-307 and 369-384):
`for_constexpr<Bounds0>(f)` and `for_constexpr<Bounds0, Bounds1, Bounds...>(f)`, the list
`more` being `Bounds1, Bounds...`.  Both read `Bounds0::lower` and `Bounds0::upper`, which
only `for_bounds` has. -/
def for_constexpr (bounds0 : Bounds) (more : List Bounds) : Expansion :=
  match bounds0 with
  | .for_bounds l u =>
    (static_assert (decide ((u : Int) - (l : Int) ≥ 0)) .upper_smaller_than_lower).append
      (match more with
       | [] =>
         for_constexpr_impl_base l (index_sequence_size ((u : Int) - (l : Int)) (u - l)) []
       | bounds1 :: bounds =>
         for_constexpr_impl l bounds1 bounds
           (index_sequence_size ((u : Int) - (l : Int)) (u - l)) [])
  | _ => ⟨[.no_bounds_member], []⟩

/-- A configuration is accepted when its instantiation raises no diagnostic. -/
def accepted (bounds0 : Bounds) (more : List Bounds) : Prop :=
  (for_constexpr bounds0 more).diags = []

instance (bounds0 : Bounds) (more : List Bounds) : Decidable (accepted bounds0 more) :=
  inferInstanceAs (Decidable (_ = _))

/-- Running the program: the callback invocations of an accepted configuration; a rejected
configuration does not compile and nothing runs. -/
def run (bounds0 : Bounds) (more : List Bounds) : Option (List (List Nat)) :=
  if (for_constexpr bounds0 more).diags = [] then some (for_constexpr bounds0 more).calls
  else none

/-- The callback of the test `single_loop`: `values[i]++`. -/
def increment (values : List Nat) (i : Nat) : List Nat :=
  values.set i (values.getD i 0 + 1)

/-- The test `single_loop` (src/for_constexpr.cpp:388-397): the array `values` after
`for_constexpr<for_bounds<0, 3>>([&values](auto i) { values[i]++; })`, starting from zeros. -/
def single_loop : List Nat :=
  (for_constexpr (.for_bounds 0 3) []).calls.foldl
    (fun values args =>
      match args with
      | [i] => increment values i
      | _ => values)
    [0, 0, 0]

/-- The descriptor list `for_bounds<L_1, U_1>, ..., for_bounds<L_k, U_k>` of a list of
ranges. -/
def plain (ranges : List (Nat × Nat)) : List Bounds :=
  ranges.map fun r => .for_bounds r.1 r.2

/-! ### A uniform view of the six overloads

The overloads of `for_constexpr_impl` that take a descriptor repeat the same three
expressions: the signed difference that the guard compares with zero, the template argument
`Lower` of the call they make, and the size of the index sequence they pass on.  The
definitions below name these expressions; `second_last_eq_level` and `impl_cons_eq_level`
prove that the overloads are instances of `level`. -/

/-- The message of the `static_assert` in the overloads for a descriptor. -/
def Bounds.message : Bounds → Diag
  | .for_bounds _ _ => .upper_smaller_than_lower
  | .for_symm_upper _ _ => .symm_upper_below_index
  | .for_symm_lower _ _ _ => .symm_lower_above_upper

/-- For the descriptor `next` and the tuple of the indices fixed so far: the signed difference
tested by the guard and by the safeguard, the template argument `Lower` of the next call and
the size of the index sequence passed on; `none` when `std::get` has no such element. -/
def Bounds.resolve (next : Bounds) (tuple : List Nat) : Option (Int × Nat × Nat) :=
  match next with
  | .for_bounds nl nu =>
    some ((nu : Int) - (nl : Int), nl, index_sequence_size ((nu : Int) - (nl : Int)) (nu - nl))
  | .for_symm_upper index nu =>
    match std_get index tuple with
    | none => none
    | some r =>
      some ((nu : Int) - (r : Int), r, index_sequence_size ((nu : Int) - (r : Int)) (nu - r))
  | .for_symm_lower index nl off =>
    match std_get index tuple with
    | none => none
    | some r =>
      some ((r : Int) + off - (nl : Int), nl,
        index_sequence_size ((r : Int) + off - (nl : Int)) ((r : Int) + off - (nl : Int)).toNat)

/-- The condition of the `static_assert` in the overloads for `next`, instantiated with the
index sequence `0, ..., size - 1`, the template argument `lower` and the indices `v`. -/
def Bounds.guard (next : Bounds) (lower size : Nat) (v : List Nat) : Bool :=
  match next with
  | .for_bounds nl nu => decide ((nu : Int) - (nl : Int) ≥ 0)
  | _ =>
    all_true size fun is =>
      match next.resolve (v ++ [is + lower]) with
      | none => true
      | some (d, _, _) => decide (d ≥ 0)

/-- The common shape of the overloads that take a descriptor: the guard, then for every `Is`
the call `cont` of the next overload. -/
def level (lower : Nat) (next : Bounds) (size : Nat) (v : List Nat)
    (cont : Nat → Nat → List Nat → Expansion) : Expansion :=
  (static_assert (next.guard lower size v) next.message).append
    (pack size fun is =>
      match next.resolve (v ++ [is + lower]) with
      | none => ⟨[.tuple_index], []⟩
      | some (_, lo, sz) => cont lo sz (v ++ [is + lower]))

/-- The descriptors that the "more than two loops" overload of `next` passes on, out of its
template parameters `Bounds1, Bounds...` (the list `rest`): the overload for `for_bounds`
passes `Bounds1` and `Bounds...`, the overloads for `for_symm_upper` and `for_symm_lower` pass
`Bounds1` only. -/
def Bounds.forwarded (next : Bounds) (rest : List Bounds) : List Bounds :=
  match next with
  | .for_bounds _ _ => rest
  | _ => rest.take 1

/-- The call `for_constexpr_impl<lower, ...>(f, ..., index_sequence<0, ..., size - 1>, v...)`
for the descriptors that are still to be expanded: the base case when none is left, else the
overload for the first of them with the others as `Bounds...`. -/
def expand (lower : Nat) (bounds : List Bounds) (size : Nat) (v : List Nat) : Expansion :=
  match bounds with
  | [] => for_constexpr_impl_base lower size v
  | next :: rest => for_constexpr_impl lower next rest size v

/-- A descriptor at a level with `k` enclosing levels refers to one of them: a symmetric
descriptor names an index below `k`; a plain descriptor refers to none. -/
def Bounds.refers_below (b : Bounds) (k : Nat) : Prop :=
  match b with
  | .for_bounds _ _ => True
  | .for_symm_upper index _ => index < k
  | .for_symm_lower index _ _ => index < k

instance (b : Bounds) (k : Nat) : Decidable (b.refers_below k) :=
  match b with
  | .for_bounds _ _ => isTrue trivial
  | .for_symm_upper index _ => inferInstanceAs (Decidable (index < k))
  | .for_symm_lower index _ _ => inferInstanceAs (Decidable (index < k))

/-- Every overload passes on all the descriptors that follow it: no descriptor of the list is
left out of the expansion. -/
def forwards_all : List Bounds → Prop
  | [] => True
  | b :: bs => b.forwarded bs = bs ∧ forwards_all bs

/-- The calls of `e` all extend the argument list `v`, and they are delivered in strictly
ascending lexicographic order. -/
def Ascending (v : List Nat) (e : Expansion) : Prop :=
  (∀ c ∈ e.calls, ∃ r, c = v ++ r) ∧ e.calls.Pairwise (fun a b => a < b)

/-! ### The contract of the specification

Definitions that follow the words of the specification, to compare the generator with. -/

/-- Bounds of the specification: the bounds `lower_k ≤ i_k < upper_k` of a level, given the
indices `outer` of the levels above it.  Plain: the fixed bounds; symmetric upper: from the
index of the referenced level to the fixed upper bound; symmetric lower: from the fixed lower
bound to the index of the referenced level plus the offset. -/
def Bounds.range (b : Bounds) (outer : List Nat) : Option (Int × Int) :=
  match b with
  | .for_bounds l u => some ((l : Int), (u : Int))
  | .for_symm_upper r u =>
    match outer.get? r with
    | none => none
    | some i => some ((i : Int), (u : Int))
  | .for_symm_lower r l off =>
    match outer.get? r with
    | none => none
    | some i => some ((l : Int), (i : Int) + off)

/-- Tuples of the specification: the indices `t` of the levels `bounds`, below the indices
`outer` of the levels above them, satisfy `lower_k ≤ i_k < upper_k` at every level. -/
def within : List Bounds → List Nat → List Nat → Prop
  | [], _, t => t = []
  | _ :: _, _, [] => False
  | b :: bs, outer, i :: t =>
    (∃ lo hi, b.range outer = some (lo, hi) ∧ lo ≤ (i : Int) ∧ (i : Int) < hi) ∧
      within bs (outer ++ [i]) t

/-- Ranges of the specification are well formed along an enumeration: the range of every
level is defined with `lower ≤ upper`, for every choice of indices of the levels above it
within their ranges. -/
def guarded : List Bounds → List Nat → Prop
  | [], _ => True
  | b :: bs, outer =>
    ∃ lo hi, b.range outer = some (lo, hi) ∧ lo ≤ hi ∧
      ∀ i : Nat, lo ≤ (i : Int) → (i : Int) < hi → guarded bs (outer ++ [i])

/-- Constraints of the three-level tests (src/for_constexpr.cpp:465-970): what a descriptor
demands of its own index `x`, relative to the index `ref` of the level it refers to.  A plain
descriptor demands nothing, `for_symm_upper` demands `x >= ref`, `for_symm_lower` with offset
`off` demands `x < ref + off` (`x < ref` for offset 0, `x <= ref` for offset 1). -/
def Bounds.constraint (b : Bounds) (ref x : Nat) : Prop :=
  match b with
  | .for_bounds _ _ => True
  | .for_symm_upper _ _ => ref ≤ x
  | .for_symm_lower _ _ off => (x : Int) < (ref : Int) + off

/-! ### The runtime loops of the documentation

The doc comment of `for_constexpr` (src/for_constexpr.cpp:318-343) states which runtime loops
the symmetric descriptors are equivalent to.  The definitions below follow its words. -/

/-- The runtime loop `for (size_t j = start; j < stop; ++j) { body(j) }`, collecting what the
body produces.  The condition is tested before every iteration; `fuel` bounds the number of
iterations, and the result is `none` when the fuel runs out before the condition fails. -/
def for_loop (fuel : Nat) (j : Nat) (stop : Int) (body : Nat → Option (List (List Nat))) :
    Option (List (List Nat)) :=
  match fuel with
  | 0 => if (j : Int) < stop then none else some []
  | fuel + 1 =>
    if (j : Int) < stop then
      match body j, for_loop fuel (j + 1) stop body with
      | some a, some r => some (a ++ r)
      | _, _ => none
    else some []

/-- Loops of the documentation for `for_symm_lower`, recording `(i, j)` in the inner body:
`for (size_t i = 0; i < Dim; ++i) { for (size_t j = param1; j < i + param2; ++j) { } }`. -/
def runtime_symm_lower (fuel Dim param1 : Nat) (param2 : Int) : Option (List (List Nat)) :=
  for_loop fuel 0 (Dim : Int) fun i =>
    for_loop fuel param1 ((i : Int) + param2) fun j => some [[i, j]]

/-- Loops of the documentation for `for_symm_upper`, recording `(i, j)` in the inner body, the
inner loop running from the current value of the outer index to the upper bound:
`for (size_t i = L0; i < U0; ++i) { for (size_t j = i; j < Upper; ++j) { } }`. -/
def runtime_symm_upper (fuel L0 U0 Upper : Nat) : Option (List (List Nat)) :=
  for_loop fuel L0 (U0 : Int) fun i =>
    for_loop fuel i (Upper : Int) fun j => some [[i, j]]

end ForConstexpr

/-! Tuple iteration: `tuple_transform` (src/part-03-iteration.cpp).

The tuple is a list of elements of one type (numbers are rationals, the arithmetic is exact).
The extra arguments `args...` are passed on as lvalues and the callbacks of the examples take
them by reference, so they are a state `σ` that every call of the callback may change. -/

namespace TupleIteration

/-- The two overloads of `tuple_transform<Index>` (src/part-03-iteration.cpp:83-98).  For
`Index == 0` the callback is called with `std::get<0>(tuple)` and the index constant 0; for
`Index != 0` the call `tuple_transform<Index - 1>` comes first, then the callback is called
with `std::get<Index>(tuple)` and the index constant `Index`.  The result is `none` when
`std::get` names an element the tuple does not have. -/
def tuple_transform {α σ : Type} (index : Nat) (tuple : List α) (func : α → Nat → σ → σ)
    (args : σ) : Option σ :=
  match index with
  | 0 =>
    match tuple.get? 0 with
    | none => none
    | some element => some (func element 0 args)
  | index + 1 =>
    match tuple_transform index tuple func args with
    | none => none
    | some args1 =>
      match tuple.get? (index + 1) with
      | none => none
      | some element => some (func element (index + 1) args1)

/-- The callback of the transform (src/part-03-iteration.cpp:122-125):
`std::get<index_v>(out_tuple) = -element`. -/
def negate_into (element : ℚ) (index : Nat) (out_tuple : List ℚ) : List ℚ :=
  out_tuple.set index (-element)

/-- The tuple of the examples: `std::make_tuple(2, 7, -3.8, 20.9)`. -/
def my_tupull : List ℚ := [2, 7, -38 / 10, 209 / 10]

end TupleIteration

/-! Type lists (src/part-02-typelists.cpp).

A C++ type is a named type, the sentinel `no_such_type`, or a class template applied to a
pack of types.  A metafunction is a partial function on types: it has no result where no
specialization of its implementation matches, which is a compile error. -/

namespace TypeLists

/-- The types the metafunctions are applied to: named types such as `double`, the struct
`no_such_type`, and `Seq<Ts...>` for a class template `Seq` that takes a pack of types
(`typelist<Ts...>` is the one of the source). -/
inductive CppType where
  | named (name : String)
  | no_such_type
  | seq (template_name : String) (args : List CppType)

/-- The type `typelist<Ts...>`. -/
def typelist (ts : List CppType) : CppType := .seq "typelist" ts

/-- The value of `size<Seq>` (src/part-02-typelists.cpp:15-26): `sizeof...(Ts)` for
`Seq<Ts...>`, by the only specialization of `detail::size_impl`. -/
def size : CppType → Option Nat
  | .seq _ ts => some ts.length
  | _ => none

/-- The alias `front<Seq>` (src/part-02-typelists.cpp:31-46): `T` for `Seq<T, Ts...>`,
`no_such_type` for `Seq<>`. -/
def front : CppType → Option CppType
  | .seq _ (t :: _) => some t
  | .seq _ [] => some .no_such_type
  | _ => none

/-- The alias `pop_front<Seq>` (src/part-02-typelists.cpp:56-71): `Seq<Ts...>` for
`Seq<T, Ts...>`, `no_such_type` for `Seq<>`. -/
def pop_front : CppType → Option CppType
  | .seq s (_ :: ts) => some (.seq s ts)
  | .seq _ [] => some .no_such_type
  | _ => none

/-- The alias `push_front<Seq, T>` (src/part-02-typelists.cpp:81-92): `Seq<T, Ts...>` for
`Seq<Ts...>`. -/
def push_front : CppType → CppType → Option CppType
  | .seq s ts, t => some (.seq s (t :: ts))
  | _, _ => none

/-- The alias `push_back<Seq, T>` (src/part-02-typelists.cpp:99-110): `Seq<Ts..., T>` for
`Seq<Ts...>`. -/
def push_back : CppType → CppType → Option CppType
  | .seq s ts, t => some (.seq s (ts ++ [t]))
  | _, _ => none

end TypeLists

/-! Overloaded lambdas and local type traits (src/local-type-traits.cpp).

A type `T` is an object type as deduced from an argument passed by value; all the examples
look at is whether the expression `std::declval<T>().func(std::declval<int>())` is well
formed.  A call of an overloader is overload resolution among the call operators of its
lambdas.  In the examples every argument converts by identity to the parameter of every
viable candidate, so what decides is which candidates are viable and, among function
templates, partial ordering: a template whose parameters are a trailing pack is less
specialized than one without a pack. -/

namespace LocalTypeTraits

/-- An object type, as far as the examples can tell types apart. -/
structure CppType where
  name : String
  func_int_well_formed : Bool
  deriving DecidableEq, Repr

/-- The struct `my_type1`, with the member `int func(int a)`. -/
def my_type1 : CppType := ⟨"my_type1", true⟩

/-- The struct `my_type2`, without members. -/
def my_type2 : CppType := ⟨"my_type2", false⟩

/-- The trait `has_func_v<T>` (src/local-type-traits.cpp:127-139): the partial specialization,
a `std::true_type`, is chosen when the expression in `void_t` is well formed, the primary
template, a `std::false_type`, otherwise. -/
def has_func_v (T : CppType) : Bool :=
  match T.func_int_well_formed with
  | true => true
  | false => false

/-- A call operator in the overload set of an overloader, for one call: whether it is
viable (deduction and substitution succeed, the number of arguments fits and every argument
converts), whether its parameters are a trailing pack, and what the call does if it is
chosen. -/
structure Candidate (R : Type) where
  viable : Bool
  pack : Bool
  result : R

/-- Overload resolution for one call among candidates that all take their arguments by
identity conversion: the viable candidates; if one of them has no parameter pack, those with
a pack lose against it; the call is well formed when one candidate is left. -/
def resolve_call {R : Type} (cs : List (Candidate R)) : Option R :=
  match
    (if (cs.filter (·.viable)).any (fun c => !c.pack)
      then (cs.filter (·.viable)).filter (fun c => !c.pack)
      else cs.filter (·.viable)) with
  | [c] => some c.result
  | _ => none

/-- The branches the checks print a message from. -/
inductive Branch where
  | has_func
  | has_no_func
  | no_such_type
  deriving DecidableEq, Repr

/-- The call `my_lambdas(t)` of `check_for_func_member` (src/local-type-traits.cpp:141-151).
The first lambda has the return type `std::enable_if_t<has_func_v<decltype(s)>>`, the second
`std::enable_if_t<not has_func_v<decltype(s)>>`.  The overloader of two lambdas also inherits
the call operator of `overloader<>`, which takes a `no_such_type const*` and is not
`const`: it is not viable on the `constexpr` object `my_lambdas`. -/
def check_for_func_member (T : CppType) : Option Branch :=
  resolve_call
    [⟨has_func_v T, false, Branch.has_func⟩,
     ⟨!has_func_v T, false, Branch.has_no_func⟩,
     ⟨false, false, Branch.no_such_type⟩]

/-- The call `my_lambdas(t, typename has_func<T>::type{})` of
`check_for_func_member_overload` (src/local-type-traits.cpp:153-163).  The second argument is
a `std::true_type` or a `std::false_type`; the first lambda takes a `std::true_type`, the
second a `std::false_type`, and neither type converts to the other. -/
def check_for_func_member_overload (T : CppType) : Option Branch :=
  resolve_call
    [⟨has_func_v T == true, false, Branch.has_func⟩,
     ⟨has_func_v T == false, false, Branch.has_no_func⟩,
     ⟨false, false, Branch.no_such_type⟩]

/-- The value `local_trait_v<has_func_member, T>` of `local_type_trait_example1`
(src/local-type-traits.cpp:165-180): the `value` of the type that the call
`has_func_impl(std::declval<T>(), 0)` returns.  The first lambda, `(auto t, int)`, has a
return type that is well formed when `t.func(int)` is, and returns `std::true_type`; the
second, `(auto...)`, takes anything and returns `std::false_type`.  `none` stands for a call
that is ambiguous or has no viable candidate. -/
def local_trait_v (T : CppType) : Option Bool :=
  resolve_call
    [⟨T.func_int_well_formed, false, true⟩,
     ⟨true, true, false⟩,
     ⟨false, false, false⟩]

end LocalTypeTraits

namespace ForConstexpr

/-! ### Requests for index sequences

Every overload instantiates `std::make_index_sequence` once for every `Is` of its pack
expansion.  The definitions below list these instantiations for a configuration, each as the
pair of the signed difference that the safeguard tests and the size it asks for. -/

/-- The requests of the "second last loop" overload of `next`. -/
def requests_second_last (lower : Nat) (next : Bounds) (size : Nat)
    (v : List Nat) : List (Int × Nat) :=
  (List.range size).flatMap fun is =>
    match next.resolve (v ++ [is + lower]) with
    | none => []
    | some (d, _, sz) => [(d, sz)]

/-- The requests of the call `for_constexpr_impl<Lower, Bounds...>(f, next, ...)`: those of
the overload of `next` itself, each followed by the requests of the call it makes with the
index sequence it asked for. -/
def requests_impl (lower : Nat) (next : Bounds) (bounds : List Bounds) (size : Nat)
    (v : List Nat) : List (Int × Nat) :=
  match bounds with
  | [] => requests_second_last lower next size v
  | bounds1 :: rest =>
    (List.range size).flatMap fun is =>
      match next.resolve (v ++ [is + lower]) with
      | none => []
      | some (d, lo, sz) =>
        (d, sz) ::
          (match next with
           | .for_bounds _ _ => requests_impl lo bounds1 rest sz (v ++ [is + lower])
           | _ => requests_second_last lo bounds1 sz (v ++ [is + lower]))

/-- The requests of `for_constexpr<Bounds0, ...>(f)`: the one for level 0, then those of the
call it makes. -/
def requests (bounds0 : Bounds) (more : List Bounds) : List (Int × Nat) :=
  match bounds0 with
  | .for_bounds l u =>
    ((u : Int) - (l : Int), index_sequence_size ((u : Int) - (l : Int)) (u - l)) ::
      (match more with
       | [] => []
       | bounds1 :: bounds =>
         requests_impl l bounds1 bounds
           (index_sequence_size ((u : Int) - (l : Int)) (u - l)) [])
  | _ => []

/-! ### The guard in 64-bit arithmetic

The casts and the subtractions of a platform with a 64-bit `size_t`, and the guard and the
safeguard of the single-level overload evaluated with them, as the source does.  The
generator as a whole in this arithmetic is `for_constexpr_64` below. -/

/-- The conversion `static_cast<ssize_t>(x)` of a 64-bit `size_t`: two's complement. -/
def to_ssize_t (x : Nat) : Int :=
  if x % 2 ^ 64 < 2 ^ 63 then ((x % 2 ^ 64 : Nat) : Int) else ((x % 2 ^ 64 : Nat) : Int) - 2 ^ 64

/-- The subtraction of two `ssize_t` in a constant expression: `none` when the result does
not fit, which makes the expression not a constant expression. -/
def ssize_t_sub (a b : Int) : Option Int :=
  if -(2 ^ 63) ≤ a - b ∧ a - b < 2 ^ 63 then some (a - b) else none

/-- The subtraction `a - b` of two 64-bit `size_t`, which wraps around. -/
def size_t_sub (a b : Nat) : Nat :=
  (a % 2 ^ 64 + 2 ^ 64 - b % 2 ^ 64) % 2 ^ 64

/-- The guard of `for_constexpr<for_bounds<lower, upper>>` (src/for_constexpr.cpp:293-307) in
64-bit arithmetic: whether the `static_assert` holds, and the size
`diff < 0 ? 1 : upper - lower` of the index sequence; `none` when the signed subtraction
overflows. -/
def single_loop_guard_64 (lower upper : Nat) : Option (Bool × Nat) :=
  match ssize_t_sub (to_ssize_t upper) (to_ssize_t lower) with
  | none => none
  | some diff => some (decide (diff ≥ 0), if diff < 0 then 1 else size_t_sub upper lower)

/-- The single-level overload in 64-bit arithmetic: the indices `Is + Lower` that the base
case delivers when the `static_assert` holds; `none` when the configuration does not
compile. -/
def single_loop_64 (lower upper : Nat) : Option (List Nat) :=
  match single_loop_guard_64 lower upper with
  | some (true, size) => some ((List.range size).map fun is => (is + lower) % 2 ^ 64)
  | _ => none

/-- What deduction finds for one element of the pack `IntegralConstants` of the parameter
`IntegralConstants&&... v`: the class type `std::integral_constant<size_t, value>` when the
argument is a prvalue, the reference type `std::integral_constant<size_t, value>&` when the
argument is an lvalue. -/
inductive Deduced where
  | class_type (value : Nat)
  | lvalue_reference (value : Nat)
  deriving DecidableEq, Repr

/-- The index that an argument of the deduced type carries. -/
def Deduced.constant : Deduced → Nat
  | .class_type value => value
  | .lvalue_reference value => value

/-- The expression `IntegralConstants::value`: the constant of a class type; ill formed,
`none`, for a reference type, which has no members and cannot stand before `::`. -/
def Deduced.value : Deduced → Option Nat
  | .class_type value => some value
  | .lvalue_reference _ => none

/-- The pack expansion `IntegralConstants::value...`: ill formed when one of its elements
is. -/
def values : List Deduced → Option (List Nat)
  | [] => some []
  | c :: cs =>
    match c.value, values cs with
    | some x, some xs => some (x :: xs)
    | _, _ => none

/-- Deduction for the arguments `v..., std::integral_constant<size_t, Is + Lower>{}` of the
call that every overload makes: the parameters `v` are named, hence lvalues, whatever their
own types; the new constant is a prvalue. -/
def pass_on (v : List Deduced) (i : Nat) : List Deduced :=
  v.map (fun c => .lvalue_reference c.constant) ++ [.class_type i]

/-- Diagnostics of an instantiation with the deduced types followed: those of `Diag`, and
the use of a reference type in the qualified name `IntegralConstants::value`. -/
inductive DeducedDiag where
  | diag (d : Diag)
  | member_of_reference
  deriving DecidableEq, Repr

/-- What an instantiation produces, with the deduced types followed. -/
structure DeducedExpansion where
  diags : List DeducedDiag
  calls : List (List Nat)
  deriving DecidableEq, Repr

/-- An expansion of the value-only embedding, read as one with deduced types. -/
def Expansion.lift (e : Expansion) : DeducedExpansion :=
  ⟨e.diags.map .diag, e.calls⟩

/-- The three expressions of `Bounds.resolve` for the overload of `next` with the pack
`IntegralConstants...` deduced as `v` and with `i` for `Is + Lower`.  The overloads for
`for_bounds` do not read the indices; the overloads for the symmetric descriptors evaluate
`std::get<Index>(std::make_tuple(IntegralConstants::value..., Is + Lower))`. -/
def Bounds.resolve_deduced (next : Bounds) (v : List Deduced) (i : Nat) :
    Except DeducedDiag (Int × Nat × Nat) :=
  match next with
  | .for_bounds nl nu =>
    .ok ((nu : Int) - (nl : Int), nl,
      index_sequence_size ((nu : Int) - (nl : Int)) (nu - nl))
  | _ =>
    match values v with
    | none => .error .member_of_reference
    | some tuple =>
      match next.resolve (tuple ++ [i]) with
      | none => .error (.diag .tuple_index)
      | some x => .ok x

/-- The condition of the `static_assert` of the overloads for `next`, over the `Is` at which
its expressions are well formed. -/
def Bounds.guard_deduced (next : Bounds) (lower size : Nat) (v : List Deduced) : Bool :=
  match next with
  | .for_bounds nl nu => decide ((nu : Int) - (nl : Int) ≥ 0)
  | _ =>
    all_true size fun is =>
      match next.resolve_deduced v (is + lower) with
      | .error _ => true
      | .ok (d, _, _) => decide (d ≥ 0)

/-- The base case (src/for_constexpr.cpp:95-100): `f(v..., Is + Lower)` for every `Is`. -/
def deduced_base (lower size : Nat) (v : List Deduced) : DeducedExpansion :=
  ⟨[], (List.range size).map fun is => v.map Deduced.constant ++ [is + lower]⟩

/-- The common shape of the six overloads that take a descriptor, as in `level`: the
`static_assert`, then for every `Is` the call `cont` of the next overload with the arguments
`v..., std::integral_constant<size_t, Is + Lower>{}`. -/
def deduced_level (lower : Nat) (next : Bounds) (size : Nat) (v : List Deduced)
    (cont : Nat → Nat → List Deduced → DeducedExpansion) : DeducedExpansion :=
  ⟨(if next.guard_deduced lower size v then [] else [.diag next.message]) ++
      (List.range size).flatMap (fun is =>
        match next.resolve_deduced v (is + lower) with
        | .error e => [e]
        | .ok (_, lo, sz) => (cont lo sz (pass_on v (is + lower))).diags),
    (List.range size).flatMap (fun is =>
        match next.resolve_deduced v (is + lower) with
        | .error _ => []
        | .ok (_, lo, sz) => (cont lo sz (pass_on v (is + lower))).calls)⟩

/-- The call `for_constexpr_impl<Lower, Bounds...>(f, next, index_sequence<Is...>, v...)`
as in `for_constexpr_impl`: the "second last loop" overload of `next` when `Bounds...` is
empty; else its "more than two loops" overload, which passes `Bounds...` on when `next` is
a `for_bounds` and calls the "second last loop" overload of `Bounds1` otherwise. -/
def deduced_impl (lower : Nat) (next : Bounds) (bounds : List Bounds) (size : Nat)
    (v : List Deduced) : DeducedExpansion :=
  match bounds with
  | [] => deduced_level lower next size v deduced_base
  | bounds1 :: rest =>
    match next with
    | .for_bounds _ _ =>
      deduced_level lower next size v fun lo sz w => deduced_impl lo bounds1 rest sz w
    | _ =>
      deduced_level lower next size v fun lo sz w =>
        deduced_level lo bounds1 sz w deduced_base

/-- The two overloads of `for_constexpr` as in `for_constexpr`; they call
`for_constexpr_impl` with no `v`. -/
def for_constexpr_deduced (bounds0 : Bounds) (more : List Bounds) : DeducedExpansion :=
  match bounds0 with
  | .for_bounds l u =>
    ⟨(if decide ((u : Int) - (l : Int) ≥ 0) then []
        else [.diag .upper_smaller_than_lower]) ++
        (match more with
         | [] => []
         | bounds1 :: bounds =>
           (deduced_impl l bounds1 bounds
             (index_sequence_size ((u : Int) - (l : Int)) (u - l)) []).diags),
      match more with
      | [] =>
        (deduced_base l (index_sequence_size ((u : Int) - (l : Int)) (u - l)) []).calls
      | bounds1 :: bounds =>
        (deduced_impl l bounds1 bounds
          (index_sequence_size ((u : Int) - (l : Int)) (u - l)) []).calls⟩
  | _ => ⟨[.diag .no_bounds_member], []⟩

/-! ### The generator in 64-bit arithmetic

The definitions of `for_constexpr` above evaluate guards, sizes and indices in the integers
and follow the values of the indices only; this is what the source computes as long as every
bound and every index stays below `2^63` and no symmetric descriptor stands deeper than
level 2.  The definitions below are the same overloads with the arithmetic of a platform
with a 64-bit `size_t`: `static_cast<ssize_t>` is the two's complement reading, a signed
operation that leaves the range of `ssize_t` is not a constant expression, a subtraction of
two `size_t` and the sum `Is + Lower` wrap around `2^64`; and with the deduced types of the
forwarded indices. -/

/-- The addition of two `ssize_t` in a constant expression: `none` when the result does not
fit. -/
def ssize_t_add (a b : Int) : Option Int :=
  if -(2 ^ 63) ≤ a + b ∧ a + b < 2 ^ 63 then some (a + b) else none

/-- Diagnostics of an instantiation in 64-bit arithmetic: those of `Diag`, the use of a
reference type before `::`, and a static assertion or template argument that is not a
constant expression because a signed operation overflows. -/
inductive Diag64 where
  | diag (d : Diag)
  | member_of_reference
  | not_constant
  deriving DecidableEq, Repr

/-- What an instantiation in 64-bit arithmetic produces. -/
structure Expansion64 where
  diags : List Diag64
  calls : List (List Nat)
  deriving DecidableEq, Repr

/-- An expansion of the embedding in the integers, read as one in 64-bit arithmetic. -/
def Expansion.lift_64 (e : Expansion) : Expansion64 :=
  ⟨e.diags.map .diag, e.calls⟩

/-- The three expressions that every overload for `next` evaluates, for the pack
`IntegralConstants...` deduced as `v` and with `i` for `Is + Lower`: the signed difference
of the guard and of the safeguard, the template argument `Lower` of the call it makes, and
the size `difference < 0 ? 1 : ...` of the index sequence it passes on
(src/for_constexpr.cpp:108-122, 132-154, 166-190, and the same expressions at 202-217,
228-250, 262-286). -/
def Bounds.resolve_64 (next : Bounds) (v : List Deduced) (i : Nat) :
    Except Diag64 (Int × Nat × Nat) :=
  match next with
  | .for_bounds nl nu =>
    match ssize_t_sub (to_ssize_t nu) (to_ssize_t nl) with
    | none => .error .not_constant
    | some d => .ok (d, nl, if d < 0 then 1 else size_t_sub nu nl)
  | .for_symm_upper index nu =>
    match values v with
    | none => .error .member_of_reference
    | some tuple =>
      match std_get index (tuple ++ [i]) with
      | none => .error (.diag .tuple_index)
      | some r =>
        match ssize_t_sub (to_ssize_t nu) (to_ssize_t r) with
        | none => .error .not_constant
        | some d => .ok (d, r, if d < 0 then 1 else size_t_sub nu r)
  | .for_symm_lower index nl off =>
    match values v with
    | none => .error .member_of_reference
    | some tuple =>
      match std_get index (tuple ++ [i]) with
      | none => .error (.diag .tuple_index)
      | some r =>
        match (ssize_t_add (to_ssize_t r) off).bind fun s => ssize_t_sub s (to_ssize_t nl) with
        | none => .error .not_constant
        | some d => .ok (d, nl, if d < 0 then 1 else d.toNat)

/-- The `static_assert` of the overloads for `next`.  The condition for `for_bounds` does
not depend on `Is`; the condition for a symmetric descriptor is `all_true` over the `Is`,
and what is ill formed at one `Is` is reported where the pack is expanded. -/
def Bounds.assert_64 (next : Bounds) (lower size : Nat) (v : List Deduced) : List Diag64 :=
  match next with
  | .for_bounds nl nu =>
    match ssize_t_sub (to_ssize_t nu) (to_ssize_t nl) with
    | none => [.not_constant]
    | some d => if d ≥ 0 then [] else [.diag .upper_smaller_than_lower]
  | _ =>
    if (all_true size fun is =>
        match next.resolve_64 v ((is + lower) % 2 ^ 64) with
        | .error _ => true
        | .ok (d, _, _) => decide (d ≥ 0))
    then [] else [.diag next.message]

/-- The base case (src/for_constexpr.cpp:95-100): `f(v..., Is + Lower)` for every `Is`, the
sum being one of two `size_t`. -/
def for_constexpr_impl_base_64 (lower size : Nat) (v : List Deduced) : Expansion64 :=
  ⟨[], (List.range size).map fun is => v.map Deduced.constant ++ [(is + lower) % 2 ^ 64]⟩

/-- The common shape of the six overloads that take a descriptor: the `static_assert`, then
for every `Is` the call `cont` of the next overload with the template argument `Lower`, the
index sequence and the arguments `v..., std::integral_constant<size_t, Is + Lower>{}`. -/
def level_64 (lower : Nat) (next : Bounds) (size : Nat) (v : List Deduced)
    (cont : Nat → Nat → List Deduced → Expansion64) : Expansion64 :=
  ⟨next.assert_64 lower size v ++
      (List.range size).flatMap (fun is =>
        match next.resolve_64 v ((is + lower) % 2 ^ 64) with
        | .error e => [e]
        | .ok (_, lo, sz) => (cont lo sz (pass_on v ((is + lower) % 2 ^ 64))).diags),
    (List.range size).flatMap (fun is =>
        match next.resolve_64 v ((is + lower) % 2 ^ 64) with
        | .error _ => []
        | .ok (_, lo, sz) => (cont lo sz (pass_on v ((is + lower) % 2 ^ 64))).calls)⟩

/-- The call `for_constexpr_impl<Lower, Bounds...>(f, next, index_sequence<Is...>, v...)`:
the "second last loop" overload of `next` when `Bounds...` is empty; else its "more than
two loops" overload, which passes `Bounds...` on when `next` is a `for_bounds`
(src/for_constexpr.cpp:209) and calls the "second last loop" overload of `Bounds1`
otherwise (src/for_constexpr.cpp:237-239, 271-272). -/
def for_constexpr_impl_64 (lower : Nat) (next : Bounds) (bounds : List Bounds) (size : Nat)
    (v : List Deduced) : Expansion64 :=
  match bounds with
  | [] => level_64 lower next size v for_constexpr_impl_base_64
  | bounds1 :: rest =>
    match next with
    | .for_bounds _ _ =>
      level_64 lower next size v fun lo sz w => for_constexpr_impl_64 lo bounds1 rest sz w
    | _ =>
      level_64 lower next size v fun lo sz w =>
        level_64 lo bounds1 sz w for_constexpr_impl_base_64

/-- The two overloads of `for_constexpr` (src/for_constexpr.cpp:293-307 and 369-384) in
64-bit arithmetic.  Their guard and their safeguard are the same expressions, those of
`single_loop_guard_64`. -/
def for_constexpr_64 (bounds0 : Bounds) (more : List Bounds) : Expansion64 :=
  match bounds0 with
  | .for_bounds l u =>
    match single_loop_guard_64 l u with
    | none => ⟨[.not_constant], []⟩
    | some (holds, size) =>
      ⟨(if holds then [] else [.diag .upper_smaller_than_lower]) ++
          (match more with
           | [] => []
           | bounds1 :: bounds => (for_constexpr_impl_64 l bounds1 bounds size []).diags),
        match more with
        | [] => (for_constexpr_impl_base_64 l size []).calls
        | bounds1 :: bounds => (for_constexpr_impl_64 l bounds1 bounds size []).calls⟩
  | _ => ⟨[.diag .no_bounds_member], []⟩

/-- A configuration is accepted when its instantiation in 64-bit arithmetic raises no
diagnostic. -/
def accepted_64 (bounds0 : Bounds) (more : List Bounds) : Prop :=
  (for_constexpr_64 bounds0 more).diags = []

instance (bounds0 : Bounds) (more : List Bounds) : Decidable (accepted_64 bounds0 more) :=
  inferInstanceAs (Decidable (_ = _))

/-- Running the program in 64-bit arithmetic: the invocations of an accepted configuration;
a rejected configuration does not compile. -/
def run_64 (bounds0 : Bounds) (more : List Bounds) : Option (List (List Nat)) :=
  if (for_constexpr_64 bounds0 more).diags = [] then some (for_constexpr_64 bounds0 more).calls
  else none

/-! ### Configurations whose arithmetic stays below `2^63`

Below `2^63` the casts to `ssize_t` are the identity and nothing wraps.  The definitions
below state, for a list of descriptors, that every bound and every index that a level can
reach stay in this range. -/

/-- The arithmetic of the overloads for `b` stays in the range of `ssize_t` when the indices
of the levels above are below `K`: the bounds are below `2^63`, and for a `for_symm_lower`
neither the sum of a referenced index and the offset nor its difference with the lower bound
leaves the range. -/
def Bounds.fits (b : Bounds) (K : Nat) : Prop :=
  match b with
  | .for_bounds l u => l < 2 ^ 63 ∧ u < 2 ^ 63
  | .for_symm_upper _ u => u < 2 ^ 63
  | .for_symm_lower _ l off =>
    l < 2 ^ 63 ∧ -(2 ^ 63) ≤ off - (l : Int) ∧ (K : Int) + off ≤ 2 ^ 63

instance (b : Bounds) (K : Nat) : Decidable (b.fits K) :=
  match b with
  | .for_bounds l u => inferInstanceAs (Decidable (l < 2 ^ 63 ∧ u < 2 ^ 63))
  | .for_symm_upper _ u => inferInstanceAs (Decidable (u < 2 ^ 63))
  | .for_symm_lower _ l off =>
    inferInstanceAs
      (Decidable (l < 2 ^ 63 ∧ -(2 ^ 63) ≤ off - (l : Int) ∧ (K : Int) + off ≤ 2 ^ 63))

/-- A strict bound on the indices of the levels up to that of `b`, given the strict bound `K`
on the indices of the levels above: the indices of `b` are below its upper bound, which is
`i_r + off` with `i_r < K` for a `for_symm_lower`; the single index of a placeholder range is
the lower bound of the range. -/
def Bounds.limit (b : Bounds) (K : Nat) : Nat :=
  match b with
  | .for_bounds l u => max K (max (l + 1) u)
  | .for_symm_upper _ u => max K u
  | .for_symm_lower _ l off => max K (max (l + 1) ((K : Int) - 1 + off).toNat)

/-- The descriptors `bounds`, below levels whose indices are below `K`, keep every bound and
every index below `2^63`. -/
def fits : List Bounds → Nat → Prop
  | [], K => K ≤ 2 ^ 63
  | b :: bs, K => K ≤ 2 ^ 63 ∧ b.fits K ∧ fits bs (b.limit K)

instance fits_decidable : (bounds : List Bounds) → (K : Nat) → Decidable (fits bounds K)
  | [], K => inferInstanceAs (Decidable (K ≤ 2 ^ 63))
  | b :: bs, K =>
    have := fits_decidable bs (b.limit K)
    inferInstanceAs (Decidable (K ≤ 2 ^ 63 ∧ b.fits K ∧ fits bs (b.limit K)))

/-- The configuration `for_constexpr<bounds0, more...>` keeps every bound and every index
below `2^63`. -/
def fits_64 (bounds0 : Bounds) (more : List Bounds) : Prop :=
  match bounds0 with
  | .for_bounds l u => l < 2 ^ 63 ∧ u < 2 ^ 63 ∧ fits more (max (l + 1) u)
  | _ => True

instance (bounds0 : Bounds) (more : List Bounds) : Decidable (fits_64 bounds0 more) :=
  match bounds0 with
  | .for_bounds l u =>
    inferInstanceAs (Decidable (l < 2 ^ 63 ∧ u < 2 ^ 63 ∧ fits more (max (l + 1) u)))
  | .for_symm_upper _ _ => isTrue trivial
  | .for_symm_lower _ _ _ => isTrue trivial

/-- No symmetric descriptor of `bounds` stands deeper than level 2, the first of them being
at level `depth + 1`: those are the descriptors whose overloads read the indices while all of
them still have a class type. -/
def shallow : List Bounds → Nat → Prop
  | [], _ => True
  | .for_bounds _ _ :: bs, depth => shallow bs (depth + 1)
  | .for_symm_upper _ _ :: bs, depth => depth ≤ 1 ∧ shallow bs (depth + 1)
  | .for_symm_lower _ _ _ :: bs, depth => depth ≤ 1 ∧ shallow bs (depth + 1)

instance shallow_decidable : (bounds : List Bounds) → (depth : Nat) →
    Decidable (shallow bounds depth)
  | [], _ => isTrue trivial
  | .for_bounds _ _ :: bs, depth =>
    have := shallow_decidable bs (depth + 1)
    inferInstanceAs (Decidable (shallow bs (depth + 1)))
  | .for_symm_upper _ _ :: bs, depth =>
    have := shallow_decidable bs (depth + 1)
    inferInstanceAs (Decidable (depth ≤ 1 ∧ shallow bs (depth + 1)))
  | .for_symm_lower _ _ _ :: bs, depth =>
    have := shallow_decidable bs (depth + 1)
    inferInstanceAs (Decidable (depth ≤ 1 ∧ shallow bs (depth + 1)))

/-! ### Requests for index sequences in 64-bit arithmetic -/

@[simp]
theorem append_calls (a b : Expansion) : (a.append b).calls = a.calls ++ b.calls := rfl
@[simp]
theorem append_diags (a b : Expansion) : (a.append b).diags = a.diags ++ b.diags := rfl
@[simp]
theorem pack_calls (size : Nat) (body : Nat → Expansion) :
    (pack size body).calls = (List.range size).flatMap (fun is => (body is).calls) := rfl
@[simp]
theorem pack_diags (size : Nat) (body : Nat → Expansion) :
    (pack size body).diags = (List.range size).flatMap (fun is => (body is).diags) := rfl
@[simp]
theorem static_assert_calls (c : Bool) (m : Diag) : (static_assert c m).calls = [] := rfl
@[simp]
theorem static_assert_diags (c : Bool) (m : Diag) :
    (static_assert c m).diags = if c then [] else [m] := rfl

theorem lt_of_append_cons (v : List Nat) {a b : Nat} (h : a < b) (r s : List Nat) :
    v ++ a :: r < v ++ b :: s := by
  exact List.Lex.append_left _ (List.Lex.rel h) v

/-- Calls of a pack whose bodies extend `v ++ [is + lower]` extend `v` and are ascending. -/
theorem pack_ascending (size lower : Nat) (v : List Nat) (body : Nat → Expansion)
    (h : ∀ is, Ascending (v ++ [is + lower]) (body is)) : Ascending v (pack size body) := by
  constructor
  · intro c hc
    simp only [pack_calls, List.mem_flatMap] at hc
    obtain ⟨is, -, hc⟩ := hc
    obtain ⟨r, rfl⟩ := (h is).1 c hc
    exact ⟨[is + lower] ++ r, by simp⟩
  · simp only [pack_calls, List.pairwise_flatMap]
    refine ⟨fun is _ => (h is).2, ?_⟩
    refine (List.pairwise_lt_range size).imp ?_
    intro a b hab x hx y hy
    obtain ⟨r, rfl⟩ := (h a).1 x hx
    obtain ⟨s, rfl⟩ := (h b).1 y hy
    have := lt_of_append_cons v (Nat.add_lt_add_right hab lower) r s
    simpa using this

theorem ascending_of_no_calls (v : List Nat) (e : Expansion) (h : e.calls = []) :
    Ascending v e := by
  constructor
  · intro c hc; rw [h] at hc; cases hc
  · rw [h]; exact List.Pairwise.nil

theorem ascending_append (v : List Nat) (a b : Expansion) (ha : a.calls = [])
    (hb : Ascending v b) : Ascending v (a.append b) := by
  unfold Ascending at *
  simpa [ha] using hb

theorem base_ascending (lower size : Nat) (v : List Nat) :
    Ascending v (for_constexpr_impl_base lower size v) := by
  refine pack_ascending size lower v _ fun is => ⟨?_, ?_⟩
  · intro c hc
    simp only [List.mem_singleton] at hc
    exact ⟨[], by simp [hc]⟩
  · exact List.pairwise_singleton _ _

theorem second_last_ascending (lower : Nat) (next : Bounds) (size : Nat) (v : List Nat) :
    Ascending v (for_constexpr_impl_second_last lower next size v) := by
  cases next with
  | for_bounds nl nu =>
    exact ascending_append _ _ _ rfl (pack_ascending size lower v _ fun is => base_ascending _ _ _)
  | for_symm_upper index nu =>
    refine ascending_append _ _ _ rfl (pack_ascending size lower v _ fun is => ?_)
    cases std_get index (v ++ [is + lower]) with
    | none => exact ascending_of_no_calls _ _ rfl
    | some r => exact base_ascending _ _ _
  | for_symm_lower index nl off =>
    refine ascending_append _ _ _ rfl (pack_ascending size lower v _ fun is => ?_)
    cases std_get index (v ++ [is + lower]) with
    | none => exact ascending_of_no_calls _ _ rfl
    | some r => exact base_ascending _ _ _

theorem impl_ascending (bounds : List Bounds) :
    ∀ (lower : Nat) (next : Bounds) (size : Nat) (v : List Nat),
      Ascending v (for_constexpr_impl lower next bounds size v) := by
  induction bounds with
  | nil => intro lower next size v; exact second_last_ascending lower next size v
  | cons bounds1 rest ih =>
    intro lower next size v
    cases next with
    | for_bounds nl nu =>
      exact ascending_append _ _ _ rfl (pack_ascending size lower v _ fun is => ih _ _ _ _)
    | for_symm_upper index nu =>
      refine ascending_append _ _ _ rfl (pack_ascending size lower v _ fun is => ?_)
      cases std_get index (v ++ [is + lower]) with
      | none => exact ascending_of_no_calls _ _ rfl
      | some r => exact second_last_ascending _ _ _ _
    | for_symm_lower index nl off =>
      refine ascending_append _ _ _ rfl (pack_ascending size lower v _ fun is => ?_)
      cases std_get index (v ++ [is + lower]) with
      | none => exact ascending_of_no_calls _ _ rfl
      | some r => exact second_last_ascending _ _ _ _

theorem for_constexpr_ascending (bounds0 : Bounds) (more : List Bounds) :
    Ascending [] (for_constexpr bounds0 more) := by
  cases bounds0 with
  | for_bounds l u =>
    cases more with
    | nil => exact ascending_append _ _ _ rfl (base_ascending _ _ _)
    | cons bounds1 bounds => exact ascending_append _ _ _ rfl (impl_ascending _ _ _ _ _)
  | for_symm_upper index nu => exact ascending_of_no_calls _ _ rfl
  | for_symm_lower index nl off => exact ascending_of_no_calls _ _ rfl

theorem pack_calls_length (size : Nat) (body : Nat → Expansion) (n : Nat)
    (h : ∀ is, ∀ c ∈ (body is).calls, c.length = n) : ∀ c ∈ (pack size body).calls, c.length = n := by
  intro c hc
  simp only [pack_calls, List.mem_flatMap] at hc
  obtain ⟨is, -, hc⟩ := hc
  exact h is c hc

theorem base_calls_length (lower size : Nat) (v : List Nat) :
    ∀ c ∈ (for_constexpr_impl_base lower size v).calls, c.length = v.length + 1 := by
  refine pack_calls_length _ _ _ fun is c hc => ?_
  simp only [List.mem_singleton] at hc
  simp [hc]

theorem second_last_calls_length (lower : Nat) (next : Bounds) (size : Nat) (v : List Nat) :
    ∀ c ∈ (for_constexpr_impl_second_last lower next size v).calls, c.length = v.length + 2 := by
  intro c hc
  cases next <;>
  · simp only [for_constexpr_impl_second_last, append_calls, static_assert_calls,
      List.nil_append] at hc
    refine pack_calls_length _ _ _ (fun is c hc => ?_) c hc
    first
    | simpa using base_calls_length _ _ _ c hc
    | (split at hc
       · cases hc
       · simpa using base_calls_length _ _ _ c hc)

theorem impl_calls_length (bounds : List Bounds) :
    ∀ next : Bounds, ∃ n, ∀ (lower size : Nat) (v : List Nat),
      ∀ c ∈ (for_constexpr_impl lower next bounds size v).calls, c.length = v.length + n := by
  induction bounds with
  | nil => exact fun next => ⟨2, fun lower size v => second_last_calls_length lower next size v⟩
  | cons bounds1 rest ih =>
    intro next
    cases next with
    | for_bounds nl nu =>
      obtain ⟨n, hn⟩ := ih bounds1
      refine ⟨n + 1, fun lower size v c hc => ?_⟩
      simp only [for_constexpr_impl, append_calls, static_assert_calls, List.nil_append] at hc
      refine pack_calls_length _ _ _ (fun is c hc => ?_) c hc
      have := hn _ _ _ c hc
      simp only [List.length_append, List.length_singleton] at this
      omega
    | for_symm_upper index nu =>
      refine ⟨3, fun lower size v c hc => ?_⟩
      simp only [for_constexpr_impl, append_calls, static_assert_calls, List.nil_append] at hc
      refine pack_calls_length _ _ _ (fun is c hc => ?_) c hc
      split at hc
      · cases hc
      · simpa using second_last_calls_length _ _ _ _ c hc
    | for_symm_lower index nl off =>
      refine ⟨3, fun lower size v c hc => ?_⟩
      simp only [for_constexpr_impl, append_calls, static_assert_calls, List.nil_append] at hc
      refine pack_calls_length _ _ _ (fun is c hc => ?_) c hc
      split at hc
      · cases hc
      · simpa using second_last_calls_length _ _ _ _ c hc

theorem for_constexpr_calls_length (bounds0 : Bounds) (more : List Bounds) :
    ∃ n, ∀ c ∈ (for_constexpr bounds0 more).calls, c.length = n := by
  cases bounds0 with
  | for_bounds l u =>
    cases more with
    | nil =>
      refine ⟨1, fun c hc => ?_⟩
      simpa [for_constexpr] using base_calls_length _ _ _ c (by simpa [for_constexpr] using hc)
    | cons bounds1 bounds =>
      obtain ⟨n, hn⟩ := impl_calls_length bounds bounds1
      refine ⟨n, fun c hc => ?_⟩
      have := hn _ _ _ c (by simpa [for_constexpr] using hc)
      simpa using this
  | for_symm_upper index nu => exact ⟨0, fun c hc => by simp [for_constexpr] at hc⟩
  | for_symm_lower index nl off => exact ⟨0, fun c hc => by simp [for_constexpr] at hc⟩

/-- The embedding in the integers, which is the arithmetic of the source below
`2^63`.  In every accepted configuration the argument lists delivered to the callback are
strictly ascending in lexicographic order (outer levels vary slowest, every level counts
upwards), they all have the same number of indices, and none is delivered twice. -/
theorem calls_lexicographically_ascending (bounds0 : Bounds) (more : List Bounds)
    (calls : List (List Nat)) (h : run bounds0 more = some calls) :
    calls.Pairwise (fun a b => a < b) ∧ calls.Nodup ∧ ∃ n, ∀ c ∈ calls, c.length = n := by
  have hc : calls = (for_constexpr bounds0 more).calls := by
    unfold run at h
    split at h
    · exact (Option.some.inj h).symm
    · cases h
  subst hc
  have hasc := (for_constexpr_ascending bounds0 more).2
  exact ⟨hasc, hasc.imp (fun hab => ne_of_lt hab), for_constexpr_calls_length bounds0 more⟩

/-- The ordering theorem at `for_bounds<0,2>, for_symm_lower<0,0,1>`. -/
theorem calls_lexicographically_ascending_witness :
    run (.for_bounds 0 2) [.for_symm_lower 0 0 1] = some [[0, 0], [1, 0], [1, 1]] ∧
      (List.Pairwise (fun a b => a < b) [[0, 0], [1, 0], [1, 1]] ∧
        List.Nodup [[0, 0], [1, 0], [1, 1]] ∧
        ∃ n, ∀ c ∈ [[0, 0], [1, 0], [1, 1]], List.length c = n) :=
  ⟨by decide,
   calls_lexicographically_ascending (.for_bounds 0 2) [.for_symm_lower 0 0 1]
     [[0, 0], [1, 0], [1, 1]] (by decide)⟩

/-- C1: the four-level configuration `for_bounds<0,2>, for_symm_upper<0,2>, for_bounds<0,2>,
for_bounds<0,2>` is accepted, all its guards hold, and the callback is invoked six times,
each time with three indices: the descriptor of level 3 never takes part, so none of the
twelve index tuples `(i0, i1, i2, i3)` within the bounds is delivered. -/
theorem symm_upper_four_levels_calls :
    for_constexpr (.for_bounds 0 2)
        [.for_symm_upper 0 2, .for_bounds 0 2, .for_bounds 0 2] =
      ⟨[], [[0, 0, 0], [0, 0, 1], [0, 1, 0], [0, 1, 1], [1, 1, 0], [1, 1, 1]]⟩ := by
  decide

/-- C2: whatever follows a symmetric descriptor at level 1 and the descriptor at level 2 is
left out of the expansion: the configuration expands like its first three levels alone, and
in `for_bounds<0,2>, for_symm_lower<0,0,1>, for_bounds<0,1>, for_bounds<0,2>` every callback
invocation receives three indices instead of four. -/
theorem symm_second_level_leaves_out_rest :
    (∀ (bounds0 bounds2 : Bounds) (index lower : Nat) (offset : Int) (rest : List Bounds),
        for_constexpr bounds0 (.for_symm_lower index lower offset :: bounds2 :: rest) =
          for_constexpr bounds0 [.for_symm_lower index lower offset, bounds2]) ∧
      (∀ (bounds0 bounds2 : Bounds) (index upper : Nat) (rest : List Bounds),
        for_constexpr bounds0 (.for_symm_upper index upper :: bounds2 :: rest) =
          for_constexpr bounds0 [.for_symm_upper index upper, bounds2]) ∧
      for_constexpr (.for_bounds 0 2)
          [.for_symm_lower 0 0 1, .for_bounds 0 1, .for_bounds 0 2] =
        ⟨[], [[0, 0, 0], [1, 0, 0], [1, 1, 0]]⟩ := by
  refine ⟨?_, ?_, by decide⟩
  · intro bounds0 bounds2 index lower offset rest
    cases bounds0 <;> rfl
  · intro bounds0 bounds2 index upper rest
    cases bounds0 <;> rfl

theorem base_calls (lower size : Nat) (v : List Nat) :
    (for_constexpr_impl_base lower size v).calls =
      (List.range size).map (fun is => v ++ [is + lower]) := by
  simp only [for_constexpr_impl_base, pack_calls]
  induction List.range size with
  | nil => rfl
  | cons a l ih => simp [List.flatMap_cons, ih]

theorem base_diags (lower size : Nat) (v : List Nat) :
    (for_constexpr_impl_base lower size v).diags = [] := by
  simp [for_constexpr_impl_base]

theorem index_sequence_size_of_le {l u : Nat} (h : l ≤ u) :
    index_sequence_size ((u : Int) - (l : Int)) (u - l) = u - l := by
  unfold index_sequence_size
  rw [if_neg]
  omega

/-- The embedding in the integers, which is the arithmetic of the source below
`2^63`.  For `L ≤ U` the single-level call `for_constexpr<for_bounds<L, U>>` is accepted and
invokes the callback `U - L` times, with the arguments `L, L + 1, ..., U - 1` in that order;
in the test `single_loop` each of the three cells ends up incremented exactly once. -/
theorem single_loop_calls (L U : Nat) (h : L ≤ U) :
    for_constexpr (.for_bounds L U) [] =
        ⟨[], (List.range (U - L)).map (fun is => [is + L])⟩ ∧
      (for_constexpr (.for_bounds L U) []).calls.length = U - L ∧
      (∀ k, k < U - L → (for_constexpr (.for_bounds L U) []).calls.get? k = some [L + k]) ∧
      single_loop = [1, 1, 1] := by
  have hL : (L : Int) ≤ (U : Int) := by exact_mod_cast h
  have e : for_constexpr (.for_bounds L U) [] =
      ⟨[], (List.range (U - L)).map (fun is => [is + L])⟩ := by
    have h1 := base_calls L (U - L) []
    have h2 := base_diags L (U - L) []
    simp only [for_constexpr, index_sequence_size_of_le h, Expansion.append, static_assert,
      h1, h2]
    simp [hL]
  refine ⟨e, ?_, ?_, by decide⟩
  · rw [e]; simp
  · intro k hk
    rw [e]
    simp [List.getElem?_range hk, hk, Nat.add_comm]

/-- The single-level theorem at `for_bounds<2,5>`. -/
theorem single_loop_calls_witness :
    (2 : Nat) ≤ 5 ∧
      (for_constexpr (.for_bounds 2 5) [] =
          ⟨[], (List.range (5 - 2)).map (fun is => [is + 2])⟩ ∧
        (for_constexpr (.for_bounds 2 5) []).calls.length = 5 - 2 ∧
        (∀ k, k < 5 - 2 → (for_constexpr (.for_bounds 2 5) []).calls.get? k = some [2 + k]) ∧
        single_loop = [1, 1, 1]) :=
  ⟨by decide, single_loop_calls 2 5 (by decide)⟩

theorem pack_calls_length_const (size : Nat) (body : Nat → Expansion) (n : Nat)
    (h : ∀ is, (body is).calls.length = n) : (pack size body).calls.length = size * n := by
  simp only [pack_calls]
  induction size with
  | zero => simp
  | succ k ih =>
    rw [List.range_succ, List.flatMap_append, List.length_append, ih]
    simp [h, Nat.succ_mul]

theorem pack_diags_nil (size : Nat) (body : Nat → Expansion)
    (h : ∀ is, is < size → (body is).diags = []) : (pack size body).diags = [] := by
  simp only [pack_diags, List.flatMap_eq_nil_iff, List.mem_range]
  exact h

theorem mem_pack_calls (size : Nat) (body : Nat → Expansion) (t : List Nat) :
    t ∈ (pack size body).calls ↔ ∃ is, is < size ∧ t ∈ (body is).calls := by
  simp [List.mem_flatMap]

theorem mem_base_calls (lower size : Nat) (v t : List Nat) :
    t ∈ (for_constexpr_impl_base lower size v).calls ↔ ∃ is, is < size ∧ t = v ++ [is + lower] := by
  simp [base_calls, eq_comm]

/-- The "second last loop" overload for `for_bounds` with a valid range. -/
theorem second_last_for_bounds (lower nl nu size : Nat) (v : List Nat) (h : nl ≤ nu) :
    for_constexpr_impl_second_last lower (.for_bounds nl nu) size v =
      pack size fun is => for_constexpr_impl_base nl (nu - nl) (v ++ [is + lower]) := by
  have hL : (nl : Int) ≤ (nu : Int) := by exact_mod_cast h
  simp [for_constexpr_impl_second_last, index_sequence_size_of_le h, Expansion.append,
    static_assert, hL, pack]

/-- The "more than two loops" overload for `for_bounds` with a valid range. -/
theorem impl_for_bounds_cons (lower nl nu size : Nat) (bounds1 : Bounds) (rest : List Bounds)
    (v : List Nat) (h : nl ≤ nu) :
    for_constexpr_impl lower (.for_bounds nl nu) (bounds1 :: rest) size v =
      pack size fun is => for_constexpr_impl nl bounds1 rest (nu - nl) (v ++ [is + lower]) := by
  have hL : (nl : Int) ≤ (nu : Int) := by exact_mod_cast h
  simp [for_constexpr_impl, index_sequence_size_of_le h, Expansion.append, static_assert, hL,
    pack]

theorem shifted_index_iff (nl nu x : Nat) :
    (∃ is, is < nu - nl ∧ x = is + nl) ↔ nl ≤ x ∧ x < nu := by
  constructor
  · rintro ⟨is, h, rfl⟩; omega
  · rintro ⟨h1, h2⟩; exact ⟨x - nl, by omega, by omega⟩

/-- Expansion of a chain of plain descriptors with valid ranges, below an index sequence of
`size` indices starting at `lower`. -/
theorem impl_plain (ranges : List (Nat × Nat)) :
    ∀ (lower nl nu size : Nat) (v : List Nat), nl ≤ nu → (∀ r ∈ ranges, r.1 ≤ r.2) →
      (for_constexpr_impl lower (.for_bounds nl nu) (plain ranges) size v).diags = [] ∧
      (for_constexpr_impl lower (.for_bounds nl nu) (plain ranges) size v).calls.length =
        size * (((nl, nu) :: ranges).map (fun r => r.2 - r.1)).prod ∧
      ∀ t, t ∈ (for_constexpr_impl lower (.for_bounds nl nu) (plain ranges) size v).calls ↔
        ∃ is s, is < size ∧ t = v ++ (is + lower) :: s ∧
          List.Forall₂ (fun r i => r.1 ≤ i ∧ i < r.2) ((nl, nu) :: ranges) s := by
  induction ranges with
  | nil =>
    intro lower nl nu size v h _
    have e : for_constexpr_impl lower (.for_bounds nl nu) (plain []) size v =
        pack size fun is => for_constexpr_impl_base nl (nu - nl) (v ++ [is + lower]) :=
      second_last_for_bounds lower nl nu size v h
    rw [e]
    refine ⟨pack_diags_nil _ _ fun is _ => base_diags _ _ _, ?_, ?_⟩
    · rw [pack_calls_length_const size _ (nu - nl) (fun is => by simp [base_calls])]
      simp
    · intro t
      simp only [mem_pack_calls, mem_base_calls]
      constructor
      · rintro ⟨is, his, is2, his2, rfl⟩
        refine ⟨is, [is2 + nl], his, by simp, ?_⟩
        exact List.Forall₂.cons ⟨by omega, by omega⟩ List.Forall₂.nil
      · rintro ⟨is, s, his, rfl, hs⟩
        cases hs with
        | cons hx hrest =>
          cases hrest
          obtain ⟨is2, his2, rfl⟩ := (shifted_index_iff nl nu _).2 hx
          exact ⟨is, his, is2, his2, by simp⟩
  | cons r1 rs ih =>
    intro lower nl nu size v h hall
    have h1 : r1.1 ≤ r1.2 := hall r1 (List.mem_cons_self _ _)
    have hrs : ∀ r ∈ rs, r.1 ≤ r.2 := fun r hr => hall r (List.mem_cons_of_mem _ hr)
    have e : for_constexpr_impl lower (.for_bounds nl nu) (plain (r1 :: rs)) size v =
        pack size fun is =>
          for_constexpr_impl nl (.for_bounds r1.1 r1.2) (plain rs) (nu - nl)
            (v ++ [is + lower]) :=
      impl_for_bounds_cons lower nl nu size _ _ v h
    rw [e]
    refine ⟨pack_diags_nil _ _ fun is _ => (ih _ _ _ _ _ h1 hrs).1, ?_, ?_⟩
    · rw [pack_calls_length_const size _ _ (fun is => (ih _ _ _ _ _ h1 hrs).2.1)]
      simp [Nat.mul_assoc]
    · intro t
      simp only [mem_pack_calls, (ih _ _ _ _ _ h1 hrs).2.2]
      constructor
      · rintro ⟨is, his, is2, s, his2, rfl, hs⟩
        refine ⟨is, (is2 + nl) :: s, his, by simp, ?_⟩
        exact List.Forall₂.cons ⟨by omega, by omega⟩ hs
      · rintro ⟨is, s, his, rfl, hs⟩
        cases hs with
        | cons hx hrest =>
          obtain ⟨is2, his2, rfl⟩ := (shifted_index_iff nl nu _).2 hx
          exact ⟨is, his, is2, _, his2, by simp, hrest⟩

/-- The embedding in the integers, which is the arithmetic of the source below
`2^63`.  For `N ≥ 2` plain descriptors `for_bounds<L_k, U_k>` with `L_k ≤ U_k` the
configuration is accepted, the callback is invoked exactly once for each tuple of the
Cartesian product of the ranges and for nothing else, and the number of invocations is the
product of the `U_k - L_k`; it is 9 for `[0,3) x [0,3)` and 27 for `[0,3)^3`. -/
theorem plain_loops_cartesian (L0 U0 : Nat) (r1 : Nat × Nat) (rs : List (Nat × Nat))
    (h0 : L0 ≤ U0) (h1 : r1.1 ≤ r1.2) (hrs : ∀ r ∈ rs, r.1 ≤ r.2) :
    accepted (.for_bounds L0 U0) (plain (r1 :: rs)) ∧
      (for_constexpr (.for_bounds L0 U0) (plain (r1 :: rs))).calls.Nodup ∧
      (∀ t, t ∈ (for_constexpr (.for_bounds L0 U0) (plain (r1 :: rs))).calls ↔
        List.Forall₂ (fun r i => r.1 ≤ i ∧ i < r.2) ((L0, U0) :: r1 :: rs) t) ∧
      (for_constexpr (.for_bounds L0 U0) (plain (r1 :: rs))).calls.length =
        (((L0, U0) :: r1 :: rs).map (fun r => r.2 - r.1)).prod ∧
      (for_constexpr (.for_bounds 0 3) [.for_bounds 0 3]).calls.length = 9 ∧
      (for_constexpr (.for_bounds 0 3) [.for_bounds 0 3, .for_bounds 0 3]).calls.length = 27 := by
  have hL : (L0 : Int) ≤ (U0 : Int) := by exact_mod_cast h0
  have e : for_constexpr (.for_bounds L0 U0) (plain (r1 :: rs)) =
      for_constexpr_impl L0 (.for_bounds r1.1 r1.2) (plain rs) (U0 - L0) [] := by
    simp [for_constexpr, plain, index_sequence_size_of_le h0, Expansion.append, static_assert,
      hL]
  obtain ⟨hd, hlen, hmem⟩ := impl_plain rs L0 r1.1 r1.2 (U0 - L0) [] h1 hrs
  refine ⟨?_, ?_, ?_, ?_, by decide, by decide⟩
  · unfold accepted; rw [e]; exact hd
  · exact (for_constexpr_ascending _ _).2.imp (fun hab => ne_of_lt hab)
  · intro t
    rw [e, hmem]
    constructor
    · rintro ⟨is, s, his, rfl, hs⟩
      exact List.Forall₂.cons ⟨by simp, by simp; omega⟩ hs
    · intro ht
      cases ht with
      | cons hx hrest =>
        obtain ⟨is, his, rfl⟩ := (shifted_index_iff L0 U0 _).2 hx
        exact ⟨is, _, his, by simp, hrest⟩
  · rw [e, hlen]; simp

/-- The Cartesian-product theorem at `[1,3) x [2,4) x [0,2)`. -/
theorem plain_loops_cartesian_witness :
    (1 : Nat) ≤ 3 ∧ ((2, 4) : Nat × Nat).1 ≤ ((2, 4) : Nat × Nat).2 ∧
      (∀ r ∈ [((0, 2) : Nat × Nat)], r.1 ≤ r.2) ∧
      (accepted (.for_bounds 1 3) (plain [(2, 4), (0, 2)]) ∧
        (for_constexpr (.for_bounds 1 3) (plain [(2, 4), (0, 2)])).calls.Nodup ∧
        (∀ t, t ∈ (for_constexpr (.for_bounds 1 3) (plain [(2, 4), (0, 2)])).calls ↔
          List.Forall₂ (fun r i => r.1 ≤ i ∧ i < r.2) [(1, 3), (2, 4), (0, 2)] t) ∧
        (for_constexpr (.for_bounds 1 3) (plain [(2, 4), (0, 2)])).calls.length =
          (([(1, 3), (2, 4), (0, 2)] : List (Nat × Nat)).map (fun r => r.2 - r.1)).prod ∧
        (for_constexpr (.for_bounds 0 3) [.for_bounds 0 3]).calls.length = 9 ∧
        (for_constexpr (.for_bounds 0 3) [.for_bounds 0 3, .for_bounds 0 3]).calls.length =
          27) :=
  ⟨by decide, by decide, by decide,
   plain_loops_cartesian 1 3 (2, 4) [(0, 2)] (by decide) (by decide) (by decide)⟩

theorem second_last_eq_level (lower : Nat) (next : Bounds) (size : Nat) (v : List Nat) :
    for_constexpr_impl_second_last lower next size v =
      level lower next size v for_constexpr_impl_base := by
  cases next with
  | for_bounds nl nu => rfl
  | for_symm_upper index nu =>
    simp only [for_constexpr_impl_second_last, level, Bounds.guard, Bounds.resolve,
      Bounds.message]
    congr 2
    · congr 1; funext is; cases std_get index (v ++ [is + lower]) <;> rfl
    · funext is; cases std_get index (v ++ [is + lower]) <;> rfl
  | for_symm_lower index nl off =>
    simp only [for_constexpr_impl_second_last, level, Bounds.guard, Bounds.resolve,
      Bounds.message]
    congr 2
    · congr 1; funext is; cases std_get index (v ++ [is + lower]) <;> rfl
    · funext is; cases std_get index (v ++ [is + lower]) <;> rfl

theorem impl_nil_eq_level (lower : Nat) (next : Bounds) (size : Nat) (v : List Nat) :
    for_constexpr_impl lower next [] size v =
      level lower next size v for_constexpr_impl_base :=
  second_last_eq_level lower next size v

theorem impl_cons_eq_level (lower : Nat) (next bounds1 : Bounds) (rest : List Bounds)
    (size : Nat) (v : List Nat) :
    for_constexpr_impl lower next (bounds1 :: rest) size v =
      level lower next size v
        (fun lo sz w => expand lo (next.forwarded (bounds1 :: rest)) sz w) := by
  cases next with
  | for_bounds nl nu => rfl
  | for_symm_upper index nu =>
    simp only [for_constexpr_impl, level, Bounds.guard, Bounds.resolve, Bounds.message,
      Bounds.forwarded, expand, List.take]
    congr 2
    · congr 1; funext is; cases std_get index (v ++ [is + lower]) <;> rfl
    · funext is; cases std_get index (v ++ [is + lower]) <;> rfl
  | for_symm_lower index nl off =>
    simp only [for_constexpr_impl, level, Bounds.guard, Bounds.resolve, Bounds.message,
      Bounds.forwarded, expand, List.take]
    congr 2
    · congr 1; funext is; cases std_get index (v ++ [is + lower]) <;> rfl
    · funext is; cases std_get index (v ++ [is + lower]) <;> rfl

/-- The recursion of the generator: the overload for the first descriptor runs its guard and
expands, for every `Is`, the descriptors it passes on. -/
theorem expand_cons (lower : Nat) (next : Bounds) (rest : List Bounds) (size : Nat)
    (v : List Nat) :
    expand lower (next :: rest) size v =
      level lower next size v (fun lo sz w => expand lo (next.forwarded rest) sz w) := by
  cases rest with
  | nil =>
    have h : next.forwarded [] = [] := by cases next <;> rfl
    simp only [expand, h]
    exact impl_nil_eq_level lower next size v
  | cons bounds1 rest => exact impl_cons_eq_level lower next bounds1 rest size v

/-- The two overloads of `for_constexpr` in one: the guard of `Bounds0`, then the expansion of
the other descriptors below the index sequence of `Bounds0`. -/
theorem for_constexpr_eq_expand (l u : Nat) (more : List Bounds) :
    for_constexpr (.for_bounds l u) more =
      (static_assert (decide ((u : Int) - (l : Int) ≥ 0)) .upper_smaller_than_lower).append
        (expand l more (index_sequence_size ((u : Int) - (l : Int)) (u - l)) []) := by
  cases more <;> rfl

theorem level_calls (lower : Nat) (next : Bounds) (size : Nat) (v : List Nat)
    (cont : Nat → Nat → List Nat → Expansion) :
    (level lower next size v cont).calls =
      (List.range size).flatMap fun is =>
        match next.resolve (v ++ [is + lower]) with
        | none => []
        | some (_, lo, sz) => (cont lo sz (v ++ [is + lower])).calls := by
  simp only [level, append_calls, static_assert_calls, List.nil_append, pack_calls]
  congr 1; funext is
  cases next.resolve (v ++ [is + lower]) <;> rfl

theorem level_diags (lower : Nat) (next : Bounds) (size : Nat) (v : List Nat)
    (cont : Nat → Nat → List Nat → Expansion) :
    (level lower next size v cont).diags =
      (if next.guard lower size v then [] else [next.message]) ++
        (List.range size).flatMap fun is =>
          match next.resolve (v ++ [is + lower]) with
          | none => [Diag.tuple_index]
          | some (_, lo, sz) => (cont lo sz (v ++ [is + lower])).diags := by
  simp only [level, append_diags, static_assert_diags, pack_diags]
  congr 2; funext is
  cases next.resolve (v ++ [is + lower]) <;> rfl

theorem mem_level_calls (lower : Nat) (next : Bounds) (size : Nat) (v : List Nat)
    (cont : Nat → Nat → List Nat → Expansion) (t : List Nat) :
    t ∈ (level lower next size v cont).calls ↔
      ∃ is d lo sz, is < size ∧ next.resolve (v ++ [is + lower]) = some (d, lo, sz) ∧
        t ∈ (cont lo sz (v ++ [is + lower])).calls := by
  simp only [level_calls, List.mem_flatMap, List.mem_range]
  constructor
  · rintro ⟨is, his, ht⟩
    cases hr : next.resolve (v ++ [is + lower]) with
    | none => rw [hr] at ht; cases ht
    | some x =>
      obtain ⟨d, lo, sz⟩ := x
      rw [hr] at ht
      exact ⟨is, d, lo, sz, his, hr, ht⟩
  · rintro ⟨is, d, lo, sz, his, hr, ht⟩
    refine ⟨is, his, ?_⟩
    rw [hr]; exact ht

/-- The overloads of `for_constexpr` for a valid `Bounds0`. -/
theorem for_constexpr_single (l u : Nat) (h : l ≤ u) :
    for_constexpr (.for_bounds l u) [] = for_constexpr_impl_base l (u - l) [] := by
  have hL : (l : Int) ≤ (u : Int) := by exact_mod_cast h
  simp [for_constexpr, index_sequence_size_of_le h, Expansion.append, static_assert, hL]

theorem for_constexpr_cons (l u : Nat) (bounds1 : Bounds) (bounds : List Bounds) (h : l ≤ u) :
    for_constexpr (.for_bounds l u) (bounds1 :: bounds) =
      for_constexpr_impl l bounds1 bounds (u - l) [] := by
  have hL : (l : Int) ≤ (u : Int) := by exact_mod_cast h
  simp [for_constexpr, index_sequence_size_of_le h, Expansion.append, static_assert, hL]

theorem flatMap_length_triangle (f : Nat → List (List Nat)) (h : ∀ i, (f i).length = i)
    (n : Nat) : 2 * ((List.range n).flatMap f).length = n * (n - 1) := by
  induction n with
  | zero => simp
  | succ k ih =>
    rw [List.range_succ, List.flatMap_append, List.length_append, Nat.mul_add, ih]
    simp only [List.flatMap_cons, List.flatMap_nil, List.append_nil, h, Nat.add_sub_cancel]
    cases k with
    | zero => simp
    | succ m => simp only [Nat.add_sub_cancel]; ring

theorem resolve_symm_lower_exclusive (is : Nat) :
    (Bounds.for_symm_lower 0 0 0).resolve ([] ++ [is + 0]) = some ((is : Int), 0, is) := by
  simp [Bounds.resolve, std_get, index_sequence_size]

/-- The two-level configuration `for_bounds<0, n>, for_symm_lower<0, 0>`. -/
theorem symm_lower_exclusive_eq (n : Nat) :
    for_constexpr (.for_bounds 0 n) [.for_symm_lower 0 0 0] =
      ⟨[], (List.range n).flatMap fun i => (List.range i).map fun j => [i, j]⟩ := by
  rw [for_constexpr_cons 0 n _ _ (Nat.zero_le n), impl_nil_eq_level]
  have hc := level_calls 0 (.for_symm_lower 0 0 0) (n - 0) [] for_constexpr_impl_base
  have hd := level_diags 0 (.for_symm_lower 0 0 0) (n - 0) [] for_constexpr_impl_base
  simp only [resolve_symm_lower_exclusive, base_calls, base_diags, Bounds.guard, all_true]
    at hc hd
  cases he : level 0 (.for_symm_lower 0 0 0) (n - 0) [] for_constexpr_impl_base with
  | mk d c =>
    rw [he] at hc hd
    simp only at hc hd
    subst hc hd
    simp

/-- The embedding in the integers, which is the arithmetic of the source below
`2^63`.  For every `n` the configuration `for_bounds<0, n>, for_symm_lower<0, 0>` is accepted
and invokes the callback exactly once for each pair `(i, j)` with `j < i < n` and for no
other argument list, `n (n - 1) / 2` invocations in all; these are `0 + 1 + 2 = 3` for
`n = 3`. -/
theorem symm_lower_exclusive_pairs (n : Nat) :
    accepted (.for_bounds 0 n) [.for_symm_lower 0 0 0] ∧
      (for_constexpr (.for_bounds 0 n) [.for_symm_lower 0 0 0]).calls.Nodup ∧
      (∀ t, t ∈ (for_constexpr (.for_bounds 0 n) [.for_symm_lower 0 0 0]).calls ↔
        ∃ i j, t = [i, j] ∧ j < i ∧ i < n) ∧
      (for_constexpr (.for_bounds 0 n) [.for_symm_lower 0 0 0]).calls.length =
        n * (n - 1) / 2 ∧
      (for_constexpr (.for_bounds 0 3) [.for_symm_lower 0 0 0]).calls =
        [[1, 0], [2, 0], [2, 1]] := by
  refine ⟨?_, ?_, ?_, ?_, by decide⟩
  · unfold accepted; rw [symm_lower_exclusive_eq]
  · exact (for_constexpr_ascending _ _).2.imp (fun hab => ne_of_lt hab)
  · intro t
    rw [symm_lower_exclusive_eq]
    simp only [List.mem_flatMap, List.mem_range, List.mem_map]
    constructor
    · rintro ⟨i, hi, j, hj, rfl⟩; exact ⟨i, j, rfl, hj, hi⟩
    · rintro ⟨i, j, rfl, hj, hi⟩; exact ⟨i, hi, j, hj, rfl⟩
  · rw [symm_lower_exclusive_eq]
    have h := flatMap_length_triangle (fun i => (List.range i).map fun j => [i, j])
      (fun i => by simp) n
    simp only at h ⊢
    omega

theorem level_diags_of_guard (lower : Nat) (next : Bounds) (size : Nat) (v : List Nat)
    (cont : Nat → Nat → List Nat → Expansion) (h : next.guard lower size v = false) :
    next.message ∈ (level lower next size v cont).diags := by
  simp [level_diags, h]

theorem level_diags_of_cont (lower : Nat) (next : Bounds) (size : Nat) (v : List Nat)
    (cont : Nat → Nat → List Nat → Expansion) (m : Diag) (is : Nat) (d : Int) (lo sz : Nat)
    (his : is < size) (hr : next.resolve (v ++ [is + lower]) = some (d, lo, sz))
    (hm : m ∈ (cont lo sz (v ++ [is + lower])).diags) :
    m ∈ (level lower next size v cont).diags := by
  rw [level_diags]
  refine List.mem_append_right _ (List.mem_flatMap.2 ⟨is, List.mem_range.2 his, ?_⟩)
  rw [hr]; exact hm

/-- A guard whose difference is negative at one of the tuples it is instantiated with is
false. -/
theorem guard_false_of_resolve (lower : Nat) (next : Bounds) (size : Nat) (v : List Nat)
    (is : Nat) (d : Int) (lo sz : Nat) (his : is < size)
    (hr : next.resolve (v ++ [is + lower]) = some (d, lo, sz)) (hd : d < 0) :
    next.guard lower size v = false := by
  have hall : (all_true size fun is =>
      match next.resolve (v ++ [is + lower]) with
      | none => true
      | some (d, _, _) => decide (d ≥ 0)) = false := by
    rw [Bool.eq_false_iff]
    intro h
    simp only [all_true, List.all_eq_true, List.mem_range] at h
    have := h is his
    rw [hr] at this
    simp only [decide_eq_true_eq] at this
    omega
  cases next with
  | for_bounds nl nu =>
    simp only [Bounds.resolve, Option.some.injEq, Prod.mk.injEq] at hr
    simp only [Bounds.guard, decide_eq_false_iff_not]
    omega
  | for_symm_upper index nu => exact hall
  | for_symm_lower index nl off => exact hall

theorem run_eq_none_of_mem_diags (bounds0 : Bounds) (more : List Bounds) (m : Diag)
    (h : m ∈ (for_constexpr bounds0 more).diags) : run bounds0 more = none := by
  unfold run
  rw [if_neg]
  intro h0
  rw [h0] at h
  cases h

theorem mem_for_constexpr_diags_of_expand (l u : Nat) (more : List Bounds) (m : Diag)
    (h : m ∈ (expand l more (index_sequence_size ((u : Int) - (l : Int)) (u - l)) []).diags) :
    m ∈ (for_constexpr (.for_bounds l u) more).diags := by
  rw [for_constexpr_eq_expand]
  exact List.mem_append_right _ h

theorem mem_expand_of_for_constexpr_calls (l u : Nat) (more : List Bounds) (t : List Nat)
    (h : t ∈ (for_constexpr (.for_bounds l u) more).calls) :
    t ∈ (expand l more (index_sequence_size ((u : Int) - (l : Int)) (u - l)) []).calls := by
  rw [for_constexpr_eq_expand] at h
  simpa using h

/-- The overloads for an inverted `for_bounds` raise its assertion as soon as they are
instantiated. -/
theorem inverted_reported (lower L U : Nat) (rest : List Bounds) (size : Nat) (v : List Nat)
    (h : U < L) :
    Diag.upper_smaller_than_lower ∈ (expand lower (.for_bounds L U :: rest) size v).diags := by
  rw [expand_cons]
  refine level_diags_of_guard _ (.for_bounds L U) _ _ _ ?_
  simp only [Bounds.guard, decide_eq_false_iff_not]
  omega

theorem resolve_of_refers_below (b : Bounds) (t : List Nat) (h : b.refers_below t.length) :
    ∃ x, b.resolve t = some x := by
  cases b with
  | for_bounds nl nu => exact ⟨_, rfl⟩
  | for_symm_upper index nu =>
    have hi : index < t.length := h
    simp [Bounds.resolve, std_get, List.getElem?_eq_getElem hi]
  | for_symm_lower index nl off =>
    have hi : index < t.length := h
    simp [Bounds.resolve, std_get, List.getElem?_eq_getElem hi]

theorem expand_plain_cons (lower l u : Nat) (rest : List Bounds) (size : Nat) (v : List Nat) :
    expand lower (.for_bounds l u :: rest) size v =
      level lower (.for_bounds l u) size v (fun lo sz w => expand lo rest sz w) :=
  expand_cons lower (.for_bounds l u) rest size v

theorem mem_expand_nil_calls (lower size : Nat) (v t : List Nat) :
    t ∈ (expand lower [] size v).calls ↔ ∃ is, is < size ∧ t = v ++ [is + lower] :=
  mem_base_calls lower size v t

/-- An inverted `for_bounds` two levels below a reachable tuple of plain levels is
instantiated, hence reported. -/
theorem inverted_reported_below (ranges : List (Nat × Nat)) :
    ∀ (lower size : Nat) (v t : List Nat) (bk1 : Bounds) (L U : Nat) (rest : List Bounds),
      t ∈ (expand lower (plain ranges) size v).calls → bk1.refers_below t.length → U < L →
      Diag.upper_smaller_than_lower ∈
        (expand lower (plain ranges ++ bk1 :: .for_bounds L U :: rest) size v).diags := by
  induction ranges with
  | nil =>
    intro lower size v t bk1 L U rest ht hb hLU
    obtain ⟨is, his, rfl⟩ := (mem_expand_nil_calls lower size v t).1 ht
    obtain ⟨⟨d, lo, sz⟩, hr⟩ := resolve_of_refers_below bk1 _ hb
    simp only [plain, List.map_nil, List.nil_append]
    rw [expand_cons]
    refine level_diags_of_cont _ _ _ _ _ _ is d lo sz his hr ?_
    cases bk1 <;> exact inverted_reported _ _ _ _ _ _ hLU
  | cons r rs ih =>
    intro lower size v t bk1 L U rest ht hb hLU
    simp only [plain, List.map_cons, List.cons_append] at ht ⊢
    rw [expand_plain_cons] at ht ⊢
    obtain ⟨is, d, lo, sz, his, hr, ht⟩ := (mem_level_calls _ _ _ _ _ _).1 ht
    exact level_diags_of_cont _ _ _ _ _ _ is d lo sz his hr (ih _ _ _ t bk1 L U rest ht hb hLU)

/-- C4 (the claim as stated fails): the configuration `for_bounds<0,0>, for_bounds<0,2>,
for_bounds<5,1>` contains the inverted plain descriptor `for_bounds<5,1>` and is accepted;
it runs and invokes the callback zero times. -/
theorem inverted_for_bounds_unreached_accepted :
    Bounds.for_bounds 5 1 ∈ [Bounds.for_bounds 0 2, Bounds.for_bounds 5 1] ∧
      run (.for_bounds 0 0) [.for_bounds 0 2, .for_bounds 5 1] = some [] ∧
      accepted_64 (.for_bounds 0 0) [.for_bounds 0 2, .for_bounds 5 1] ∧
      run_64 (.for_bounds 0 0) [.for_bounds 0 2, .for_bounds 5 1] = some [] := by
  decide

/-- The embedding in the integers, which is the arithmetic of the source below
`2^63`.  A plain descriptor `for_bounds<L, U>` with `U < L` makes `for_constexpr`
reject the configuration, and nothing runs, when it stands at level 0, at level 1, or at a
level `k ≥ 2` below plain levels `0, ..., k - 2` that enumerate at least one index tuple `t`
and a level `k - 1` that is plain or refers to one of the levels above it.  At levels 0 and
1, and at level `k` when level `k - 1` is plain as well, the rejection is by the assertion
"the upper bound in for_bounds is smaller than the lower bound". -/
theorem inverted_for_bounds_rejected (L U : Nat) (h : U < L) :
    (∀ more : List Bounds,
        Diag.upper_smaller_than_lower ∈ (for_constexpr (.for_bounds L U) more).diags ∧
          run (.for_bounds L U) more = none) ∧
      (∀ (l0 u0 : Nat) (rest : List Bounds),
        Diag.upper_smaller_than_lower ∈
            (for_constexpr (.for_bounds l0 u0) (.for_bounds L U :: rest)).diags ∧
          run (.for_bounds l0 u0) (.for_bounds L U :: rest) = none) ∧
      (∀ (l0 u0 : Nat) (ranges : List (Nat × Nat)) (lk uk : Nat) (rest : List Bounds)
          (t : List Nat),
        t ∈ (for_constexpr (.for_bounds l0 u0) (plain ranges)).calls →
        Diag.upper_smaller_than_lower ∈
            (for_constexpr (.for_bounds l0 u0)
              (plain ranges ++ .for_bounds lk uk :: .for_bounds L U :: rest)).diags ∧
          run (.for_bounds l0 u0)
            (plain ranges ++ .for_bounds lk uk :: .for_bounds L U :: rest) = none) ∧
      (∀ (l0 u0 : Nat) (ranges : List (Nat × Nat)) (bk1 : Bounds) (rest : List Bounds)
          (t : List Nat),
        t ∈ (for_constexpr (.for_bounds l0 u0) (plain ranges)).calls →
        bk1.refers_below t.length →
        run (.for_bounds l0 u0) (plain ranges ++ bk1 :: .for_bounds L U :: rest) = none) := by
  have key : ∀ (l0 u0 : Nat) (ranges : List (Nat × Nat)) (bk1 : Bounds) (rest : List Bounds)
      (t : List Nat),
      t ∈ (for_constexpr (.for_bounds l0 u0) (plain ranges)).calls →
      bk1.refers_below t.length →
      Diag.upper_smaller_than_lower ∈
        (for_constexpr (.for_bounds l0 u0)
          (plain ranges ++ bk1 :: .for_bounds L U :: rest)).diags :=
    fun l0 u0 ranges bk1 rest t ht hb =>
      mem_for_constexpr_diags_of_expand l0 u0 _ _
        (inverted_reported_below ranges l0 _ [] t bk1 L U rest
          (mem_expand_of_for_constexpr_calls l0 u0 _ t ht) hb h)
  refine ⟨fun more => ?_, fun l0 u0 rest => ?_, fun l0 u0 ranges lk uk rest t ht => ?_,
    fun l0 u0 ranges bk1 rest t ht hb => ?_⟩
  · have hm : Diag.upper_smaller_than_lower ∈ (for_constexpr (.for_bounds L U) more).diags := by
      rw [for_constexpr_eq_expand]
      refine List.mem_append_left _ ?_
      have : ¬ ((U : Int) - (L : Int) ≥ 0) := by omega
      simp [this]
    exact ⟨hm, run_eq_none_of_mem_diags _ _ _ hm⟩
  · have hm := mem_for_constexpr_diags_of_expand l0 u0 _ _
      (inverted_reported l0 L U rest _ [] h)
    exact ⟨hm, run_eq_none_of_mem_diags _ _ _ hm⟩
  · have hm := key l0 u0 ranges (.for_bounds lk uk) rest t ht trivial
    exact ⟨hm, run_eq_none_of_mem_diags _ _ _ hm⟩
  · exact run_eq_none_of_mem_diags _ _ _ (key l0 u0 ranges bk1 rest t ht hb)

/-- The rejection at `for_bounds<0,2>, for_bounds<0,2>, for_bounds<0,0>, for_bounds<5,1>`: the
inverted descriptor stands at level 3, below the tuple `(0, 1)` of levels 0 and 1 and the
plain (empty) level 2. -/
theorem inverted_for_bounds_rejected_witness :
    (1 : Nat) < 5 ∧
      [0, 1] ∈ (for_constexpr (.for_bounds 0 2) (plain [(0, 2)])).calls ∧
      (Diag.upper_smaller_than_lower ∈
          (for_constexpr (.for_bounds 0 2)
            (plain [(0, 2)] ++ .for_bounds 0 0 :: .for_bounds 5 1 :: [])).diags ∧
        run (.for_bounds 0 2) (plain [(0, 2)] ++ .for_bounds 0 0 :: .for_bounds 5 1 :: []) =
          none) :=
  ⟨by decide, by decide,
   (inverted_for_bounds_rejected 5 1 (by decide)).2.2.1 0 2 [(0, 2)] 0 0 []
     [0, 1] (by decide)⟩

/-- A descriptor whose difference is negative at a tuple the base case would call with is
reported when it is expanded in place of the base case. -/
theorem guard_reported_base (lower size : Nat) (v t : List Nat) (next : Bounds) (d : Int)
    (lo sz : Nat) (rest : List Bounds) (ht : t ∈ (expand lower [] size v).calls)
    (hr : next.resolve t = some (d, lo, sz)) (hd : d < 0) :
    next.message ∈ (expand lower (next :: rest) size v).diags := by
  obtain ⟨is, his, rfl⟩ := (mem_expand_nil_calls lower size v t).1 ht
  rw [expand_cons]
  exact level_diags_of_guard _ _ _ _ _ (guard_false_of_resolve _ _ _ _ is d lo sz his hr hd)

theorem forwarded_cons (b next : Bounds) (rest : List Bounds) :
    ∃ rest2, b.forwarded (next :: rest) = next :: rest2 := by
  cases b
  · exact ⟨rest, rfl⟩
  · exact ⟨[], rfl⟩
  · exact ⟨[], rfl⟩

theorem forwarded_nil (b : Bounds) : b.forwarded [] = [] := by
  cases b <;> rfl

/-- A descriptor whose difference is negative at a tuple enumerated by the levels above it,
all of them plain but possibly the last, is reported. -/
theorem guard_reported_of_call (ranges : List (Nat × Nat)) :
    ∀ (lower size : Nat) (v t : List Nat) (last : Option Bounds) (next : Bounds) (d : Int)
      (lo sz : Nat) (rest : List Bounds),
      t ∈ (expand lower (plain ranges ++ last.toList) size v).calls →
      next.resolve t = some (d, lo, sz) → d < 0 →
      next.message ∈
        (expand lower (plain ranges ++ last.toList ++ next :: rest) size v).diags := by
  induction ranges with
  | nil =>
    intro lower size v t last next d lo sz rest ht hr hd
    cases last with
    | none => exact guard_reported_base lower size v t next d lo sz rest ht hr hd
    | some bk1 =>
      simp only [plain, List.map_nil, List.nil_append, Option.toList, List.cons_append] at ht ⊢
      rw [expand_cons] at ht ⊢
      obtain ⟨is, d1, lo1, sz1, his, hr1, ht⟩ := (mem_level_calls _ _ _ _ _ _).1 ht
      rw [forwarded_nil] at ht
      obtain ⟨rest2, h2⟩ := forwarded_cons bk1 next rest
      refine level_diags_of_cont _ _ _ _ _ _ is d1 lo1 sz1 his hr1 ?_
      simp only [h2]
      exact guard_reported_base lo1 sz1 _ t next d lo sz rest2 ht hr hd
  | cons r rs ih =>
    intro lower size v t last next d lo sz rest ht hr hd
    simp only [plain, List.map_cons, List.cons_append] at ht ⊢
    rw [expand_plain_cons] at ht ⊢
    obtain ⟨is, d1, lo1, sz1, his, hr1, ht⟩ := (mem_level_calls _ _ _ _ _ _).1 ht
    exact level_diags_of_cont _ _ _ _ _ _ is d1 lo1 sz1 his hr1
      (ih _ _ _ t last next d lo sz rest ht hr hd)

theorem resolve_symm_upper (index nu : Nat) (t : List Nat) (x : Nat)
    (hx : t.get? index = some x) :
    (Bounds.for_symm_upper index nu).resolve t =
      some ((nu : Int) - (x : Int), x, index_sequence_size ((nu : Int) - (x : Int)) (nu - x)) := by
  simp only [Bounds.resolve, std_get, hx]

theorem resolve_symm_lower (index nl : Nat) (off : Int) (t : List Nat) (x : Nat)
    (hx : t.get? index = some x) :
    (Bounds.for_symm_lower index nl off).resolve t =
      some ((x : Int) + off - (nl : Int), nl,
        index_sequence_size ((x : Int) + off - (nl : Int))
          ((x : Int) + off - (nl : Int)).toNat) := by
  simp only [Bounds.resolve, std_get, hx]

/-- C5 (the claim as stated fails): in `for_bounds<0,3>, for_bounds<0,0>,
for_symm_upper<0,1>` level 0 takes the value 2, which is above the upper bound 1 of the
symmetric descriptor that refers to it, and the configuration is accepted (it runs and
invokes the callback zero times). -/
theorem symm_upper_unreached_accepted :
    [2] ∈ (for_constexpr (.for_bounds 0 3) []).calls ∧
      run (.for_bounds 0 3) [.for_bounds 0 0, .for_symm_upper 0 1] = some [] ∧
      [2] ∈ (for_constexpr_64 (.for_bounds 0 3) []).calls ∧
      accepted_64 (.for_bounds 0 3) [.for_bounds 0 0, .for_symm_upper 0 1] ∧
      run_64 (.for_bounds 0 3) [.for_bounds 0 0, .for_symm_upper 0 1] = some [] := by
  decide

/-- The embedding in the integers, which is the arithmetic of the source below
`2^63`.  Let `for_symm_upper<r, U>` stand at level `k` below the levels
`0, ..., k - 1`, all of them plain but possibly the last.  If one of the index tuples
`t = (i_0, ..., i_{k-1})` that these levels enumerate has `U < i_r`, `for_constexpr` rejects
the configuration and nothing runs; the configuration is accepted only if `i_r ≤ U` in every
such tuple. -/
theorem symm_upper_below_index_rejected (l0 u0 : Nat) (ranges : List (Nat × Nat))
    (last : Option Bounds) (r U : Nat) (rest : List Bounds) :
    (∀ (t : List Nat) (x : Nat),
        t ∈ (for_constexpr (.for_bounds l0 u0) (plain ranges ++ last.toList)).calls →
        t.get? r = some x → U < x →
        run (.for_bounds l0 u0)
          (plain ranges ++ last.toList ++ .for_symm_upper r U :: rest) = none) ∧
      (accepted (.for_bounds l0 u0)
          (plain ranges ++ last.toList ++ .for_symm_upper r U :: rest) →
        ∀ (t : List Nat) (x : Nat),
          t ∈ (for_constexpr (.for_bounds l0 u0) (plain ranges ++ last.toList)).calls →
          t.get? r = some x → x ≤ U) := by
  have key : ∀ (t : List Nat) (x : Nat),
      t ∈ (for_constexpr (.for_bounds l0 u0) (plain ranges ++ last.toList)).calls →
      t.get? r = some x → U < x →
      Diag.symm_upper_below_index ∈
        (for_constexpr (.for_bounds l0 u0)
          (plain ranges ++ last.toList ++ .for_symm_upper r U :: rest)).diags := by
    intro t x ht hx hU
    refine mem_for_constexpr_diags_of_expand l0 u0 _ _ ?_
    exact guard_reported_of_call ranges l0 _ [] t last (.for_symm_upper r U) _ _ _ rest
      (mem_expand_of_for_constexpr_calls l0 u0 _ t ht) (resolve_symm_upper r U t x hx)
      (by omega)
  refine ⟨fun t x ht hx hU => run_eq_none_of_mem_diags _ _ _ (key t x ht hx hU),
    fun hacc t x ht hx => ?_⟩
  by_contra hlt
  have hm := key t x ht hx (by omega)
  unfold accepted at hacc
  rw [hacc] at hm
  cases hm

/-- The rejection at `for_bounds<0,1>, for_bounds<0,3>, for_symm_upper<1,1>`: level 1 takes the
value 2, above the upper bound 1. -/
theorem symm_upper_below_index_rejected_witness :
    [0, 2] ∈ (for_constexpr (.for_bounds 0 1)
        (plain [] ++ (some (Bounds.for_bounds 0 3)).toList)).calls ∧
      [0, 2].get? 1 = some 2 ∧ 1 < 2 ∧
      run (.for_bounds 0 1)
        (plain [] ++ (some (Bounds.for_bounds 0 3)).toList ++ .for_symm_upper 1 1 :: []) =
          none :=
  ⟨by decide, by decide, by decide,
   (symm_upper_below_index_rejected 0 1 [] (some (.for_bounds 0 3)) 1 1 []).1 [0, 2] 2
     (by decide) (by decide) (by decide)⟩

/-- C6 (the claim as stated fails): in `for_bounds<0,3>, for_bounds<0,0>,
for_symm_lower<0,5,0>` level 0 takes the value 0 and `0 + 0 < 5`, and the configuration is
accepted (it runs and invokes the callback zero times). -/
theorem symm_lower_unreached_accepted :
    [0] ∈ (for_constexpr (.for_bounds 0 3) []).calls ∧
      run (.for_bounds 0 3) [.for_bounds 0 0, .for_symm_lower 0 5 0] = some [] ∧
      [0] ∈ (for_constexpr_64 (.for_bounds 0 3) []).calls ∧
      accepted_64 (.for_bounds 0 3) [.for_bounds 0 0, .for_symm_lower 0 5 0] ∧
      run_64 (.for_bounds 0 3) [.for_bounds 0 0, .for_symm_lower 0 5 0] = some [] := by
  decide

/-- The embedding in the integers, which is the arithmetic of the source below
`2^63`.  Let `for_symm_lower<r, L, off>` stand at level `k` below the levels
`0, ..., k - 1`, all of them plain but possibly the last.  If one of the index tuples
`t = (i_0, ..., i_{k-1})` that these levels enumerate has `i_r + off < L`, `for_constexpr`
rejects the configuration and nothing runs; the configuration is accepted only if
`L ≤ i_r + off` in every such tuple. -/
theorem symm_lower_above_upper_rejected (l0 u0 : Nat) (ranges : List (Nat × Nat))
    (last : Option Bounds) (r L : Nat) (off : Int) (rest : List Bounds) :
    (∀ (t : List Nat) (x : Nat),
        t ∈ (for_constexpr (.for_bounds l0 u0) (plain ranges ++ last.toList)).calls →
        t.get? r = some x → (x : Int) + off < (L : Int) →
        run (.for_bounds l0 u0)
          (plain ranges ++ last.toList ++ .for_symm_lower r L off :: rest) = none) ∧
      (accepted (.for_bounds l0 u0)
          (plain ranges ++ last.toList ++ .for_symm_lower r L off :: rest) →
        ∀ (t : List Nat) (x : Nat),
          t ∈ (for_constexpr (.for_bounds l0 u0) (plain ranges ++ last.toList)).calls →
          t.get? r = some x → (L : Int) ≤ (x : Int) + off) := by
  have key : ∀ (t : List Nat) (x : Nat),
      t ∈ (for_constexpr (.for_bounds l0 u0) (plain ranges ++ last.toList)).calls →
      t.get? r = some x → (x : Int) + off < (L : Int) →
      Diag.symm_lower_above_upper ∈
        (for_constexpr (.for_bounds l0 u0)
          (plain ranges ++ last.toList ++ .for_symm_lower r L off :: rest)).diags := by
    intro t x ht hx hU
    refine mem_for_constexpr_diags_of_expand l0 u0 _ _ ?_
    exact guard_reported_of_call ranges l0 _ [] t last (.for_symm_lower r L off) _ _ _ rest
      (mem_expand_of_for_constexpr_calls l0 u0 _ t ht) (resolve_symm_lower r L off t x hx)
      (by omega)
  refine ⟨fun t x ht hx hU => run_eq_none_of_mem_diags _ _ _ (key t x ht hx hU),
    fun hacc t x ht hx => ?_⟩
  by_contra hlt
  have hm := key t x ht hx (by omega)
  unfold accepted at hacc
  rw [hacc] at hm
  cases hm

/-- The rejection at `for_bounds<0,3>, for_symm_lower<0,2,0>`: level 0 takes the value 1 and
`1 + 0 < 2`. -/
theorem symm_lower_above_upper_rejected_witness :
    [1] ∈ (for_constexpr (.for_bounds 0 3) (plain [] ++ (none : Option Bounds).toList)).calls ∧
      [1].get? 0 = some 1 ∧ ((1 : Nat) : Int) + 0 < ((2 : Nat) : Int) ∧
      run (.for_bounds 0 3)
        (plain [] ++ (none : Option Bounds).toList ++ .for_symm_lower 0 2 0 :: []) = none :=
  ⟨by decide, by decide, by decide,
   (symm_lower_above_upper_rejected 0 3 [] none 0 2 0 []).1 [1] 1
     (by decide) (by decide) (by decide)⟩

theorem forwards_all_tail : ∀ tail : List Bounds, tail.length ≤ 2 → forwards_all tail
  | [], _ => trivial
  | [b], _ => ⟨forwarded_nil b, trivial⟩
  | [a, b], _ => ⟨by cases a <;> rfl, forwarded_nil b, trivial⟩
  | _ :: _ :: _ :: _, h => by simp at h

theorem forwards_all_plain_append (ranges : List (Nat × Nat)) (tail : List Bounds)
    (h : tail.length ≤ 2) : forwards_all (plain ranges ++ tail) := by
  induction ranges with
  | nil => exact forwards_all_tail tail h
  | cons r rs ih => exact ⟨rfl, ih⟩

/-- Where no descriptor is left out, a callback invocation can only be generated when every
level has been instantiated, so every inverted plain descriptor has been reported. -/
theorem inverted_reported_of_call (bounds : List Bounds) :
    ∀ (lower size : Nat) (v t : List Nat) (L U : Nat), forwards_all bounds →
      t ∈ (expand lower bounds size v).calls → Bounds.for_bounds L U ∈ bounds → U < L →
      Diag.upper_smaller_than_lower ∈ (expand lower bounds size v).diags := by
  induction bounds with
  | nil => intro lower size v t L U _ _ hmem; cases hmem
  | cons b bs ih =>
    intro lower size v t L U hfw ht hmem hLU
    rcases List.mem_cons.1 hmem with rfl | hmem
    · exact inverted_reported lower L U bs size v hLU
    · rw [expand_cons, hfw.1] at ht ⊢
      obtain ⟨is, d, lo, sz, his, hr, ht⟩ := (mem_level_calls _ _ _ _ _ _).1 ht
      exact level_diags_of_cont _ _ _ _ _ _ is d lo sz his hr
        (ih _ _ _ t L U hfw.2 ht hmem hLU)

/-- The embedding in the integers, which is the arithmetic of the source below
`2^63`.  Whenever a guard that is evaluated while a configuration is instantiated
fails, `for_constexpr` fails as a whole and the callback is invoked zero times.  A
configuration with an inverted plain descriptor whose symmetric descriptors, if any, stand at
the last two levels is either rejected or, its inverted level never being instantiated,
accepted as a run of zero invocations: it never runs with one or more invocations. -/
theorem guard_failure_rejects_whole :
    (∀ (bounds0 : Bounds) (more : List Bounds) (m : Diag),
        m ∈ (for_constexpr bounds0 more).diags → run bounds0 more = none) ∧
      (∀ (l0 u0 : Nat) (ranges : List (Nat × Nat)) (tail : List Bounds) (L U : Nat),
        tail.length ≤ 2 →
        Bounds.for_bounds L U ∈ Bounds.for_bounds l0 u0 :: (plain ranges ++ tail) → U < L →
        run (.for_bounds l0 u0) (plain ranges ++ tail) = none ∨
          run (.for_bounds l0 u0) (plain ranges ++ tail) = some []) := by
  refine ⟨fun bounds0 more m hm => run_eq_none_of_mem_diags bounds0 more m hm, ?_⟩
  intro l0 u0 ranges tail L U htail hmem hLU
  by_cases hc : (for_constexpr (.for_bounds l0 u0) (plain ranges ++ tail)).calls = []
  · unfold run
    split
    · right; rw [hc]
    · left; rfl
  · left
    obtain ⟨t, ht⟩ := List.exists_mem_of_ne_nil _ hc
    rcases List.mem_cons.1 hmem with heq | hmem
    · have h1 : L = l0 := by injection heq
      have h2 : U = u0 := by injection heq
      subst h1 h2
      refine run_eq_none_of_mem_diags _ _ Diag.upper_smaller_than_lower ?_
      rw [for_constexpr_eq_expand]
      refine List.mem_append_left _ ?_
      have : ¬ ((U : Int) - (L : Int) ≥ 0) := by omega
      simp [this]
    · exact run_eq_none_of_mem_diags _ _ _
        (mem_for_constexpr_diags_of_expand l0 u0 _ _
          (inverted_reported_of_call _ l0 _ [] t L U
            (forwards_all_plain_append ranges tail htail)
            (mem_expand_of_for_constexpr_calls l0 u0 _ t ht) hmem hLU))

/-- A failing guard below non-empty levels: `for_bounds<0,3>, for_bounds<0,2>,
for_symm_upper<0,3>, for_bounds<5,1>` is rejected, and the second part of the theorem applies
to it. -/
theorem guard_failure_rejects_whole_witness :
    Diag.upper_smaller_than_lower ∈
        (for_constexpr (.for_bounds 0 3)
          (plain [(0, 2)] ++ [Bounds.for_symm_upper 0 3, Bounds.for_bounds 5 1])).diags ∧
      run (.for_bounds 0 3)
        (plain [(0, 2)] ++ [Bounds.for_symm_upper 0 3, Bounds.for_bounds 5 1]) = none ∧
      [Bounds.for_symm_upper 0 3, Bounds.for_bounds 5 1].length ≤ 2 ∧
      Bounds.for_bounds 5 1 ∈ Bounds.for_bounds 0 3 ::
        (plain [(0, 2)] ++ [Bounds.for_symm_upper 0 3, Bounds.for_bounds 5 1]) ∧
      (1 : Nat) < 5 ∧
      (run (.for_bounds 0 3)
          (plain [(0, 2)] ++ [Bounds.for_symm_upper 0 3, Bounds.for_bounds 5 1]) = none ∨
        run (.for_bounds 0 3)
          (plain [(0, 2)] ++ [Bounds.for_symm_upper 0 3, Bounds.for_bounds 5 1]) = some []) :=
  ⟨by decide,
   guard_failure_rejects_whole.1 _ _ Diag.upper_smaller_than_lower (by decide),
   by decide, by decide, by decide,
   guard_failure_rejects_whole.2 0 3 [(0, 2)] [.for_symm_upper 0 3, .for_bounds 5 1] 5 1
     (by decide) (by decide) (by decide)⟩

theorem level_diags_eq_nil (lower : Nat) (next : Bounds) (size : Nat) (v : List Nat)
    (cont : Nat → Nat → List Nat → Expansion) (h : (level lower next size v cont).diags = []) :
    next.guard lower size v = true ∧
      ∀ is, is < size → ∃ d lo sz, next.resolve (v ++ [is + lower]) = some (d, lo, sz) ∧
        (cont lo sz (v ++ [is + lower])).diags = [] := by
  rw [level_diags, List.append_eq_nil] at h
  obtain ⟨hg, hp⟩ := h
  refine ⟨?_, fun is his => ?_⟩
  · cases hb : next.guard lower size v with
    | true => rfl
    | false => rw [hb] at hg; simp at hg
  · have := List.flatMap_eq_nil_iff.1 hp is (List.mem_range.2 his)
    cases hr : next.resolve (v ++ [is + lower]) with
    | none => rw [hr] at this; simp at this
    | some x =>
      obtain ⟨d, lo, sz⟩ := x
      rw [hr] at this
      exact ⟨d, lo, sz, rfl, this⟩

/-- A guard that holds makes the difference non-negative at every tuple it covers. -/
theorem resolve_nonneg_of_guard (lower : Nat) (next : Bounds) (size : Nat) (v : List Nat)
    (hg : next.guard lower size v = true) (is : Nat) (his : is < size) (d : Int) (lo sz : Nat)
    (hr : next.resolve (v ++ [is + lower]) = some (d, lo, sz)) : 0 ≤ d := by
  by_contra hd
  have := guard_false_of_resolve lower next size v is d lo sz his hr (by omega)
  rw [hg] at this
  cases this

/-- Where the guard holds, the index sequence passed on covers the range of the
specification. -/
theorem range_of_resolve (next : Bounds) (w : List Nat) (d : Int) (lo sz : Nat)
    (hr : next.resolve w = some (d, lo, sz)) (hd : 0 ≤ d) :
    next.range w = some ((lo : Int), (lo : Int) + (sz : Int)) := by
  cases next with
  | for_bounds nl nu =>
    simp only [Bounds.resolve, Option.some.injEq, Prod.mk.injEq] at hr
    obtain ⟨rfl, rfl, rfl⟩ := hr
    have hle : nl ≤ nu := by omega
    simp only [Bounds.range, index_sequence_size_of_le hle, Option.some.injEq, Prod.mk.injEq,
      true_and]
    omega
  | for_symm_upper index nu =>
    simp only [Bounds.resolve, std_get] at hr
    cases hx : w.get? index with
    | none => rw [hx] at hr; cases hr
    | some x =>
      rw [hx] at hr
      simp only [Option.some.injEq, Prod.mk.injEq] at hr
      obtain ⟨rfl, rfl, rfl⟩ := hr
      have hle : x ≤ nu := by omega
      simp only [Bounds.range, hx, index_sequence_size_of_le hle, Option.some.injEq,
        Prod.mk.injEq, true_and]
      omega
  | for_symm_lower index nl off =>
    simp only [Bounds.resolve, std_get] at hr
    cases hx : w.get? index with
    | none => rw [hx] at hr; cases hr
    | some x =>
      rw [hx] at hr
      simp only [Option.some.injEq, Prod.mk.injEq] at hr
      obtain ⟨rfl, rfl, rfl⟩ := hr
      have hs : index_sequence_size ((x : Int) + off - (nl : Int))
          ((x : Int) + off - (nl : Int)).toNat = ((x : Int) + off - (nl : Int)).toNat := by
        unfold index_sequence_size
        rw [if_neg (by omega)]
      simp only [Bounds.range, hx, hs, Option.some.injEq, Prod.mk.injEq, true_and]
      omega

/-- Where every descriptor is passed on and no diagnostic is raised, the calls of an expansion
are the tuples of the specification, below each index of the enclosing sequence. -/
theorem mem_expand_calls_iff_within (bounds : List Bounds) :
    ∀ (lower size : Nat) (v : List Nat), forwards_all bounds →
      (expand lower bounds size v).diags = [] →
      ∀ t, t ∈ (expand lower bounds size v).calls ↔
        ∃ is s, is < size ∧ t = v ++ (is + lower) :: s ∧ within bounds (v ++ [is + lower]) s := by
  induction bounds with
  | nil =>
    intro lower size v _ _ t
    rw [mem_expand_nil_calls]
    constructor
    · rintro ⟨is, his, rfl⟩; exact ⟨is, [], his, rfl, rfl⟩
    · rintro ⟨is, s, his, rfl, hs⟩
      have : s = [] := hs
      subst this
      exact ⟨is, his, rfl⟩
  | cons b bs ih =>
    intro lower size v hfw hd t
    rw [expand_cons, hfw.1] at hd ⊢
    obtain ⟨hg, hsub⟩ := level_diags_eq_nil _ _ _ _ _ hd
    rw [mem_level_calls]
    constructor
    · rintro ⟨is, d, lo, sz, his, hr, ht⟩
      obtain ⟨d2, lo2, sz2, hr2, hd2⟩ := hsub is his
      rw [hr] at hr2
      simp only [Option.some.injEq, Prod.mk.injEq] at hr2
      obtain ⟨rfl, rfl, rfl⟩ := hr2
      obtain ⟨is2, s2, his2, rfl, hw⟩ := (ih lo sz _ hfw.2 hd2 t).1 ht
      have hrange := range_of_resolve b _ d lo sz hr
        (resolve_nonneg_of_guard lower b size v hg is his d lo sz hr)
      refine ⟨is, (is2 + lo) :: s2, his, by simp, ?_⟩
      exact ⟨⟨_, _, hrange, by push_cast; omega, by push_cast; omega⟩, hw⟩
    · rintro ⟨is, s, his, rfl, hw⟩
      obtain ⟨d, lo, sz, hr, hd2⟩ := hsub is his
      have hrange := range_of_resolve b _ d lo sz hr
        (resolve_nonneg_of_guard lower b size v hg is his d lo sz hr)
      cases s with
      | nil => exact absurd hw (by simp [within])
      | cons x s2 =>
        obtain ⟨⟨lo2, hi2, hr2, hlo, hhi⟩, hw2⟩ := hw
        rw [hrange] at hr2
        simp only [Option.some.injEq, Prod.mk.injEq] at hr2
        obtain ⟨rfl, rfl⟩ := hr2
        refine ⟨is, d, lo, sz, his, hr, ?_⟩
        refine (ih lo sz _ hfw.2 hd2 _).2 ⟨x - lo, s2, by omega, ?_, ?_⟩
        · have : x - lo + lo = x := by omega
          simp [this]
        · have : x - lo + lo = x := by omega
          rw [this]; exact hw2

/-- The contract of the specification where it holds: in an accepted configuration whose
descriptors are all passed on (symmetric descriptors at the last two levels only, hence every
configuration of up to three levels), the callback is invoked exactly once for each tuple
within the bounds and for nothing else. -/
theorem calls_iff_within (l0 u0 : Nat) (more : List Bounds) (hfw : forwards_all more)
    (hacc : accepted (.for_bounds l0 u0) more) :
    (for_constexpr (.for_bounds l0 u0) more).calls.Nodup ∧
      ∀ t, t ∈ (for_constexpr (.for_bounds l0 u0) more).calls ↔
        within (.for_bounds l0 u0 :: more) [] t := by
  refine ⟨(for_constexpr_ascending _ _).2.imp (fun hab => ne_of_lt hab), fun t => ?_⟩
  unfold accepted at hacc
  rw [for_constexpr_eq_expand] at hacc ⊢
  simp only [append_diags, static_assert_diags, List.append_eq_nil] at hacc
  obtain ⟨hg, hd⟩ := hacc
  have hle : l0 ≤ u0 := by
    by_contra hlt
    have : ¬ ((u0 : Int) - (l0 : Int) ≥ 0) := by omega
    simp [this] at hg
  rw [index_sequence_size_of_le hle] at hd ⊢
  simp only [append_calls, static_assert_calls, List.nil_append]
  rw [mem_expand_calls_iff_within more l0 (u0 - l0) [] hfw hd t]
  constructor
  · rintro ⟨is, s, his, rfl, hw⟩
    exact ⟨⟨_, _, rfl, by push_cast; omega, by push_cast; omega⟩, hw⟩
  · intro hw
    cases t with
    | nil => exact absurd hw (by simp [within])
    | cons x s =>
      obtain ⟨⟨lo, hi, hr, hlo, hhi⟩, hw2⟩ := hw
      simp only [Bounds.range, Option.some.injEq, Prod.mk.injEq] at hr
      obtain ⟨rfl, rfl⟩ := hr
      refine ⟨x - l0, s, by omega, ?_, ?_⟩
      · have : x - l0 + l0 = x := by omega
        simp [this]
      · have : x - l0 + l0 = x := by omega
        rw [this]; exact hw2

theorem flatMap_congr_mem {α β : Type} (l : List α) (f g : α → List β)
    (h : ∀ a ∈ l, f a = g a) : l.flatMap f = l.flatMap g := by
  induction l with
  | nil => rfl
  | cons a l ih =>
    rw [List.flatMap_cons, List.flatMap_cons, h a (List.mem_cons_self _ _),
      ih (fun b hb => h b (List.mem_cons_of_mem _ hb))]

theorem flatMap_range_succ_length {β : Type} (f : Nat → List β) (n : Nat) :
    ((List.range (n + 1)).flatMap f).length = ((List.range n).flatMap f).length + (f n).length := by
  rw [List.range_succ, List.flatMap_append, List.length_append]
  simp

/-- The calls of an accepted two-level configuration: for every index of level 0 the base case
runs over the index sequence that the descriptor of level 1 resolves to. -/
theorem two_level_calls (l0 u0 : Nat) (b : Bounds) (hacc : accepted (.for_bounds l0 u0) [b]) :
    l0 ≤ u0 ∧
      (∀ is, is < u0 - l0 → ∃ d lo sz, b.resolve [is + l0] = some (d, lo, sz) ∧ 0 ≤ d) ∧
      (for_constexpr (.for_bounds l0 u0) [b]).calls =
        (List.range (u0 - l0)).flatMap fun is =>
          match b.resolve [is + l0] with
          | none => []
          | some (_, lo, sz) => (List.range sz).map fun k => [is + l0, k + lo] := by
  unfold accepted at hacc
  rw [for_constexpr_eq_expand] at hacc ⊢
  simp only [append_diags, static_assert_diags, List.append_eq_nil] at hacc
  obtain ⟨hg, hd⟩ := hacc
  have hle : l0 ≤ u0 := by
    by_contra hlt
    have : ¬ ((u0 : Int) - (l0 : Int) ≥ 0) := by omega
    simp [this] at hg
  rw [index_sequence_size_of_le hle] at hd ⊢
  rw [expand_cons] at hd ⊢
  obtain ⟨hguard, hsub⟩ := level_diags_eq_nil _ _ _ _ _ hd
  refine ⟨hle, fun is his => ?_, ?_⟩
  · obtain ⟨d, lo, sz, hr, -⟩ := hsub is his
    exact ⟨d, lo, sz, by simpa using hr,
      resolve_nonneg_of_guard l0 b (u0 - l0) [] hguard is his d lo sz hr⟩
  · simp only [append_calls, static_assert_calls, List.nil_append, level_calls, forwarded_nil,
      expand, base_calls]
    rfl

/-- A range of the specification with `lower ≤ upper` is what the overload resolves to. -/
theorem resolve_of_range (b : Bounds) (w : List Nat) (lo hi : Int)
    (hr : b.range w = some (lo, hi)) (hle : lo ≤ hi) :
    ∃ lo2 sz : Nat, b.resolve w = some (hi - lo, lo2, sz) ∧ (lo2 : Int) = lo ∧
      (lo2 : Int) + (sz : Int) = hi := by
  cases b with
  | for_bounds nl nu =>
    simp only [Bounds.range, Option.some.injEq, Prod.mk.injEq] at hr
    obtain ⟨rfl, rfl⟩ := hr
    have h : nl ≤ nu := by omega
    exact ⟨nl, nu - nl, by simp only [Bounds.resolve, index_sequence_size_of_le h], rfl,
      by omega⟩
  | for_symm_upper index nu =>
    simp only [Bounds.range] at hr
    cases hx : w.get? index with
    | none => rw [hx] at hr; cases hr
    | some x =>
      rw [hx] at hr
      simp only [Option.some.injEq, Prod.mk.injEq] at hr
      obtain ⟨rfl, rfl⟩ := hr
      have h : x ≤ nu := by omega
      exact ⟨x, nu - x, by rw [resolve_symm_upper index nu w x hx, index_sequence_size_of_le h],
        rfl, by omega⟩
  | for_symm_lower index nl off =>
    simp only [Bounds.range] at hr
    cases hx : w.get? index with
    | none => rw [hx] at hr; cases hr
    | some x =>
      rw [hx] at hr
      simp only [Option.some.injEq, Prod.mk.injEq] at hr
      obtain ⟨rfl, rfl⟩ := hr
      refine ⟨nl, ((x : Int) + off - (nl : Int)).toNat, ?_, rfl, by omega⟩
      rw [resolve_symm_lower index nl off w x hx]
      unfold index_sequence_size
      rw [if_neg (by omega)]

theorem guard_of_guarded (b : Bounds) (bs : List Bounds) (lower size : Nat) (v : List Nat)
    (hplain : ∀ l u, Bounds.for_bounds l u = b → l ≤ u)
    (hg : ∀ is, is < size → guarded (b :: bs) (v ++ [is + lower])) :
    b.guard lower size v = true := by
  cases b with
  | for_bounds nl nu =>
    have := hplain nl nu rfl
    simp only [Bounds.guard, decide_eq_true_eq]
    omega
  | for_symm_upper index nu =>
    simp only [Bounds.guard, all_true, List.all_eq_true, List.mem_range]
    intro is his
    obtain ⟨lo, hi, hr, hle, -⟩ := hg is his
    obtain ⟨lo2, sz, hres, -, -⟩ := resolve_of_range _ _ lo hi hr hle
    rw [hres]
    simp only [decide_eq_true_eq]
    omega
  | for_symm_lower index nl off =>
    simp only [Bounds.guard, all_true, List.all_eq_true, List.mem_range]
    intro is his
    obtain ⟨lo, hi, hr, hle, -⟩ := hg is his
    obtain ⟨lo2, sz, hres, -, -⟩ := resolve_of_range _ _ lo hi hr hle
    rw [hres]
    simp only [decide_eq_true_eq]
    omega

/-- Where every descriptor is passed on, plain descriptors are not inverted and the ranges of
the specification are well formed along the enumeration, no diagnostic is raised. -/
theorem expand_diags_nil_of_guarded (bounds : List Bounds) :
    ∀ (lower size : Nat) (v : List Nat), forwards_all bounds →
      (∀ l u, Bounds.for_bounds l u ∈ bounds → l ≤ u) →
      (∀ is, is < size → guarded bounds (v ++ [is + lower])) →
      (expand lower bounds size v).diags = [] := by
  induction bounds with
  | nil => intro lower size v _ _ _; exact base_diags lower size v
  | cons b bs ih =>
    intro lower size v hfw hplain hg
    rw [expand_cons, hfw.1, level_diags,
      guard_of_guarded b bs lower size v
        (fun l u h => hplain l u (h ▸ List.mem_cons_self _ _)) hg]
    simp only [if_true, List.nil_append, List.flatMap_eq_nil_iff, List.mem_range]
    intro is his
    obtain ⟨lo, hi, hr, hle, hrest⟩ := hg is his
    obtain ⟨lo2, sz, hres, hlo, hsz⟩ := resolve_of_range _ _ lo hi hr hle
    rw [hres]
    refine ih lo2 sz _ hfw.2 (fun l u h => hplain l u (List.mem_cons_of_mem _ h)) ?_
    intro is2 his2
    exact hrest (is2 + lo2) (by push_cast; omega) (by push_cast; omega)

/-- Acceptance from the specification's side: a valid level 0, every descriptor passed on, no
inverted plain descriptor, and well-formed ranges below every index of level 0. -/
theorem accepted_of_guarded (l0 u0 : Nat) (more : List Bounds) (hle : l0 ≤ u0)
    (hfw : forwards_all more) (hplain : ∀ l u, Bounds.for_bounds l u ∈ more → l ≤ u)
    (hg : ∀ i, l0 ≤ i → i < u0 → guarded more [i]) : accepted (.for_bounds l0 u0) more := by
  unfold accepted
  rw [for_constexpr_eq_expand, index_sequence_size_of_le hle]
  have hL : (l0 : Int) ≤ (u0 : Int) := by exact_mod_cast hle
  simp only [append_diags, static_assert_diags, List.append_eq_nil]
  refine ⟨by simp [hL], ?_⟩
  refine expand_diags_nil_of_guarded more l0 (u0 - l0) [] hfw hplain ?_
  intro is his
  exact hg (is + l0) (by omega) (by omega)

/-- Acceptance of a two-level configuration whose level 1 refers to level 0 with a range that
is well formed for every index of level 0. -/
theorem accepted_two_level (l0 u0 : Nat) (b : Bounds) (hle : l0 ≤ u0)
    (hplain : ∀ l u, Bounds.for_bounds l u = b → l ≤ u)
    (hg : ∀ i, l0 ≤ i → i < u0 → ∃ lo hi, b.range [i] = some (lo, hi) ∧ lo ≤ hi) :
    accepted (.for_bounds l0 u0) [b] := by
  refine accepted_of_guarded l0 u0 [b] hle (forwards_all_tail [b] (by simp)) ?_ ?_
  · intro l u h
    exact hplain l u (List.mem_singleton.1 h)
  · intro i h1 h2
    obtain ⟨lo, hi, hr, hlh⟩ := hg i h1 h2
    exact ⟨lo, hi, hr, hlh, fun _ _ _ => trivial⟩

/-- The two-level configuration `for_bounds<0, n>, for_symm_lower<0, 0, 1>`. -/
theorem symm_lower_inclusive_eq (n : Nat) :
    accepted (.for_bounds 0 n) [.for_symm_lower 0 0 1] ∧
      (for_constexpr (.for_bounds 0 n) [.for_symm_lower 0 0 1]).calls =
        (List.range n).flatMap fun i => (List.range (i + 1)).map fun j => [i, j] := by
  have hacc : accepted (.for_bounds 0 n) [.for_symm_lower 0 0 1] := by
    refine accepted_two_level 0 n _ (Nat.zero_le n) (fun l u h => by cases h) ?_
    intro i _ _
    exact ⟨0, (i : Int) + 1, by simp [Bounds.range], by omega⟩
  refine ⟨hacc, ?_⟩
  rw [(two_level_calls 0 n _ hacc).2.2, Nat.sub_zero]
  refine flatMap_congr_mem _ _ _ fun is _ => ?_
  have hr : (Bounds.for_symm_lower 0 0 1).resolve [is + 0] =
      some ((is : Int) + 1, 0, is + 1) := by
    have h1 : ((is : Int) + 1).toNat = is + 1 := by omega
    simp [Bounds.resolve, std_get, index_sequence_size, h1]
    omega
  rw [hr]
  simp

/-- The two-level configuration `for_bounds<0, n>, for_symm_upper<0, n>`. -/
theorem symm_upper_eq (n : Nat) :
    accepted (.for_bounds 0 n) [.for_symm_upper 0 n] ∧
      (for_constexpr (.for_bounds 0 n) [.for_symm_upper 0 n]).calls =
        (List.range n).flatMap fun i => (List.range (n - i)).map fun k => [i, k + i] := by
  have hacc : accepted (.for_bounds 0 n) [.for_symm_upper 0 n] := by
    refine accepted_two_level 0 n _ (Nat.zero_le n) (fun l u h => by cases h) ?_
    intro i _ hi
    exact ⟨(i : Int), (n : Int), by simp [Bounds.range], by omega⟩
  refine ⟨hacc, ?_⟩
  rw [(two_level_calls 0 n _ hacc).2.2, Nat.sub_zero]
  refine flatMap_congr_mem _ _ _ fun is his => ?_
  have hlt : is < n := List.mem_range.1 his
  have hr : (Bounds.for_symm_upper 0 n).resolve [is + 0] =
      some ((n : Int) - (is : Int), is, n - is) := by
    rw [resolve_symm_upper 0 n [is + 0] is (by simp),
      index_sequence_size_of_le (Nat.le_of_lt hlt)]
  rw [hr]
  simp

theorem flatMap_length_triangle_succ (f : Nat → List (List Nat))
    (h : ∀ i, (f i).length = i + 1) (n : Nat) :
    2 * ((List.range n).flatMap f).length = n * (n + 1) := by
  induction n with
  | zero => simp
  | succ k ih =>
    rw [flatMap_range_succ_length, Nat.mul_add, ih, h]
    ring

theorem flatMap_length_descending (n : Nat) (f : Nat → List (List Nat))
    (h : ∀ i, (f i).length = n - i) (m : Nat) (hm : m ≤ n) :
    2 * ((List.range m).flatMap f).length + m * m = m * (2 * n + 1) := by
  induction m with
  | zero => simp
  | succ k ih =>
    rw [flatMap_range_succ_length, h]
    have ih2 := ih (by omega)
    obtain ⟨d, rfl⟩ : ∃ d, n = k + 1 + d := ⟨n - (k + 1), by omega⟩
    have e : k + 1 + d - k = d + 1 := by omega
    rw [e]
    nlinarith [ih2]

/-- The embedding in the integers, which is the arithmetic of the source below
`2^63`.  For every `n` the configuration `for_bounds<0, n>, for_symm_lower<0, 0, 1>` is
accepted and invokes the callback exactly once for each pair `(i, j)` with `j ≤ i < n` and for
no other argument list, `n (n + 1) / 2` invocations in all; these are `1 + 2 + 3 = 6` for
`n = 3`. -/
theorem symm_lower_inclusive_pairs (n : Nat) :
    accepted (.for_bounds 0 n) [.for_symm_lower 0 0 1] ∧
      (for_constexpr (.for_bounds 0 n) [.for_symm_lower 0 0 1]).calls.Nodup ∧
      (∀ t, t ∈ (for_constexpr (.for_bounds 0 n) [.for_symm_lower 0 0 1]).calls ↔
        ∃ i j, t = [i, j] ∧ j ≤ i ∧ i < n) ∧
      (for_constexpr (.for_bounds 0 n) [.for_symm_lower 0 0 1]).calls.length =
        n * (n + 1) / 2 ∧
      (for_constexpr (.for_bounds 0 3) [.for_symm_lower 0 0 1]).calls =
        [[0, 0], [1, 0], [1, 1], [2, 0], [2, 1], [2, 2]] := by
  obtain ⟨hacc, heq⟩ := symm_lower_inclusive_eq n
  refine ⟨hacc, ?_, ?_, ?_, by decide⟩
  · exact (for_constexpr_ascending _ _).2.imp (fun hab => ne_of_lt hab)
  · intro t
    rw [heq]
    simp only [List.mem_flatMap, List.mem_range, List.mem_map]
    constructor
    · rintro ⟨i, hi, j, hj, rfl⟩; exact ⟨i, j, rfl, by omega, hi⟩
    · rintro ⟨i, j, rfl, hj, hi⟩; exact ⟨i, hi, j, by omega, rfl⟩
  · rw [heq]
    have h := flatMap_length_triangle_succ
      (fun i => (List.range (i + 1)).map fun j => [i, j]) (fun i => by simp) n
    simp only at h ⊢
    omega

/-- The embedding in the integers, which is the arithmetic of the source below
`2^63`.  For every `n` the configuration `for_bounds<0, n>, for_symm_upper<0, n>` is accepted
and invokes the callback exactly once for each pair `(i, j)` with `i ≤ j < n` and for no other
argument list, `n (n + 1) / 2` invocations in all; these are `3 + 2 + 1 = 6` for `n = 3`. -/
theorem symm_upper_pairs (n : Nat) :
    accepted (.for_bounds 0 n) [.for_symm_upper 0 n] ∧
      (for_constexpr (.for_bounds 0 n) [.for_symm_upper 0 n]).calls.Nodup ∧
      (∀ t, t ∈ (for_constexpr (.for_bounds 0 n) [.for_symm_upper 0 n]).calls ↔
        ∃ i j, t = [i, j] ∧ i ≤ j ∧ j < n) ∧
      (for_constexpr (.for_bounds 0 n) [.for_symm_upper 0 n]).calls.length =
        n * (n + 1) / 2 ∧
      (for_constexpr (.for_bounds 0 3) [.for_symm_upper 0 3]).calls =
        [[0, 0], [0, 1], [0, 2], [1, 1], [1, 2], [2, 2]] := by
  obtain ⟨hacc, heq⟩ := symm_upper_eq n
  refine ⟨hacc, ?_, ?_, ?_, by decide⟩
  · exact (for_constexpr_ascending _ _).2.imp (fun hab => ne_of_lt hab)
  · intro t
    rw [heq]
    simp only [List.mem_flatMap, List.mem_range, List.mem_map]
    constructor
    · rintro ⟨i, hi, k, hk, rfl⟩; exact ⟨i, k + i, rfl, by omega, by omega⟩
    · rintro ⟨i, j, rfl, hij, hj⟩; exact ⟨i, by omega, j - i, by omega, by simp; omega⟩
  · rw [heq]
    have h := flatMap_length_descending n
      (fun i => (List.range (n - i)).map fun k => [i, k + i]) (fun i => by simp) n le_rfl
    simp only at h ⊢
    have h2 : n * (2 * n + 1) = 2 * (n * n) + n := by ring
    have h3 : n * (n + 1) = n * n + n := by ring
    rw [h3]
    omega

/-- With fuel for every iteration, the runtime loop returns what its body produces for
`j, j + 1, ..., stop - 1`, in this order. -/
theorem for_loop_eq (stop : Int) (body : Nat → Option (List (List Nat)))
    (f : Nat → List (List Nat)) :
    ∀ (fuel j : Nat), (stop - (j : Int)).toNat ≤ fuel →
      (∀ k : Nat, j ≤ k → (k : Int) < stop → body k = some (f k)) →
      for_loop fuel j stop body =
        some ((List.range (stop - (j : Int)).toNat).flatMap fun k => f (j + k)) := by
  intro fuel
  induction fuel with
  | zero =>
    intro j hfuel _
    have h0 : (stop - (j : Int)).toNat = 0 := by omega
    have hn : ¬ ((j : Int) < stop) := by omega
    simp [for_loop, hn, h0]
  | succ fuel ih =>
    intro j hfuel hbody
    by_cases hlt : (j : Int) < stop
    · have hm : (stop - (j : Int)).toNat = (stop - ((j + 1 : Nat) : Int)).toNat + 1 := by
        push_cast; omega
      have hrec := ih (j + 1) (by push_cast; omega)
        (fun k hk hks => hbody k (by omega) hks)
      simp only [for_loop, hlt, if_true, hbody j le_rfl hlt, hrec, hm]
      rw [List.range_succ_eq_map, List.flatMap_cons, List.flatMap_map]
      simp only [Nat.add_zero, Function.comp, Nat.succ_eq_add_one]
      refine congrArg (fun r => some (f j ++ r)) (flatMap_congr_mem _ _ _ fun k _ => ?_)
      rw [Nat.add_assoc j 1 k, Nat.add_comm 1 k]
    · have h0 : (stop - (j : Int)).toNat = 0 := by omega
      simp [for_loop, hlt, h0]

theorem flatMap_singleton (l : List Nat) (g : Nat → List Nat) :
    (l.flatMap fun k => [g k]) = l.map g := by
  induction l with
  | nil => rfl
  | cons a l ih => simp [List.flatMap_cons, ih]

theorem run_eq_some_of_accepted (bounds0 : Bounds) (more : List Bounds)
    (h : accepted bounds0 more) : run bounds0 more = some (for_constexpr bounds0 more).calls := by
  unfold accepted at h
  unfold run
  rw [if_pos h]

/-- The embedding in the integers, which is the arithmetic of the source below
`2^63`.  Whenever `for_bounds<0, Dim>, for_symm_lower<0, param1, param2>` is accepted, the
sequence of `(i, j)` it passes to the callback is, element for element and in the same order,
the sequence of `(i, j)` produced by the runtime loops
`for i in [0, Dim): for (j = param1; j < i + param2; ++j)`, which terminate. -/
theorem symm_lower_refines_runtime_loops (Dim param1 : Nat) (param2 : Int)
    (hacc : accepted (.for_bounds 0 Dim) [.for_symm_lower 0 param1 param2]) (fuel : Nat)
    (hfuel : Dim + param2.toNat ≤ fuel) :
    runtime_symm_lower fuel Dim param1 param2 =
      run (.for_bounds 0 Dim) [.for_symm_lower 0 param1 param2] := by
  rw [run_eq_some_of_accepted _ _ hacc]
  obtain ⟨-, hres, hcalls⟩ := two_level_calls 0 Dim _ hacc
  rw [hcalls, Nat.sub_zero]
  unfold runtime_symm_lower
  rw [for_loop_eq (Dim : Int) _
    (fun i => (List.range ((i : Int) + param2 - (param1 : Int)).toNat).flatMap
      fun k => [[i, param1 + k]]) fuel 0 (by push_cast; omega)]
  · congr 1
    simp only [Int.ofNat_zero, Int.sub_zero, Int.toNat_ofNat]
    refine flatMap_congr_mem _ _ _ fun is his => ?_
    have hlt : is < Dim := List.mem_range.1 his
    obtain ⟨d, lo, sz, hr, hd⟩ := hres is (by omega)
    rw [resolve_symm_lower 0 param1 param2 [is + 0] is (by simp)] at hr
    simp only [Option.some.injEq, Prod.mk.injEq] at hr
    obtain ⟨rfl, rfl, rfl⟩ := hr
    rw [resolve_symm_lower 0 param1 param2 [is + 0] is (by simp)]
    have hs : index_sequence_size ((is : Int) + param2 - (param1 : Int))
        ((is : Int) + param2 - (param1 : Int)).toNat =
          ((is : Int) + param2 - (param1 : Int)).toNat := by
      unfold index_sequence_size
      rw [if_neg (by omega)]
    simp only [hs, Nat.zero_add, Nat.add_zero]
    rw [flatMap_singleton]
    refine congrArg (fun g => List.map g _) (funext fun k => ?_)
    rw [Nat.add_comm]
  · intro i _ hi
    have hi2 : i < Dim := by exact_mod_cast hi
    rw [for_loop_eq ((i : Int) + param2) _ (fun j => [[i, j]]) fuel param1 (by omega)
      (fun _ _ _ => rfl)]

/-- The refinement at `Dim = 3`, lower bound 0, offset 1, with fuel 4. -/
theorem symm_lower_refines_runtime_loops_witness :
    accepted (.for_bounds 0 3) [.for_symm_lower 0 0 1] ∧ 3 + (1 : Int).toNat ≤ 4 ∧
      runtime_symm_lower 4 3 0 1 = run (.for_bounds 0 3) [.for_symm_lower 0 0 1] :=
  ⟨by decide, by decide, symm_lower_refines_runtime_loops 3 0 1 (by decide) 4 (by decide)⟩

/-- The embedding in the integers, which is the arithmetic of the source below
`2^63`.  Whenever `for_bounds<L0, U0>, for_symm_upper<0, Upper>` is accepted, the sequence of
`(i, j)` it passes to the callback is, element for element and in the same order, the sequence
produced by the runtime loops `for i in [L0, U0): for (j = i; j < Upper; ++j)`, which
terminate: the inner loop runs from the current value of the outer index to `Upper`. -/
theorem symm_upper_refines_runtime_loops (L0 U0 Upper : Nat)
    (hacc : accepted (.for_bounds L0 U0) [.for_symm_upper 0 Upper]) (fuel : Nat)
    (hfuel : U0 + Upper ≤ fuel) :
    runtime_symm_upper fuel L0 U0 Upper =
      run (.for_bounds L0 U0) [.for_symm_upper 0 Upper] := by
  rw [run_eq_some_of_accepted _ _ hacc]
  obtain ⟨hle, hres, hcalls⟩ := two_level_calls L0 U0 _ hacc
  rw [hcalls]
  unfold runtime_symm_upper
  rw [for_loop_eq (U0 : Int) _
    (fun i => (List.range ((Upper : Int) - (i : Int)).toNat).flatMap
      fun k => [[i, i + k]]) fuel L0 (by omega)]
  · congr 1
    have e : ((U0 : Int) - (L0 : Int)).toNat = U0 - L0 := by omega
    rw [e]
    refine flatMap_congr_mem _ _ _ fun is his => ?_
    have hlt : is < U0 - L0 := List.mem_range.1 his
    obtain ⟨d, lo, sz, hr, hd⟩ := hres is hlt
    rw [resolve_symm_upper 0 Upper [is + L0] (is + L0) (by simp)] at hr
    simp only [Option.some.injEq, Prod.mk.injEq] at hr
    obtain ⟨rfl, rfl, rfl⟩ := hr
    rw [resolve_symm_upper 0 Upper [is + L0] (is + L0) (by simp)]
    have hle2 : is + L0 ≤ Upper := by push_cast at hd; omega
    have e2 : ((Upper : Int) - ((L0 + is : Nat) : Int)).toNat = Upper - (is + L0) := by
      push_cast; omega
    simp only [index_sequence_size_of_le hle2, e2]
    rw [Nat.add_comm L0 is, flatMap_singleton]
    refine congrArg (fun g => List.map g _) (funext fun k => ?_)
    rw [Nat.add_comm k]
  · intro i _ hi
    have hi2 : i < U0 := by exact_mod_cast hi
    rw [for_loop_eq (Upper : Int) _ (fun j => [[i, j]]) fuel i (by omega)
      (fun _ _ _ => rfl)]

/-- The refinement at the outer range `[1, 3)` and the upper bound 4, with fuel 7. -/
theorem symm_upper_refines_runtime_loops_witness :
    accepted (.for_bounds 1 3) [.for_symm_upper 0 4] ∧ 3 + 4 ≤ 7 ∧
      runtime_symm_upper 7 1 3 4 = run (.for_bounds 1 3) [.for_symm_upper 0 4] :=
  ⟨by decide, by decide, symm_upper_refines_runtime_loops 1 3 4 (by decide) 7 (by decide)⟩

/-- The index `x` lies in the range that the specification gives a level below the indices
`outer`. -/
theorem in_range_for_bounds (l u : Nat) (outer : List Nat) (x : Nat) :
    (∃ lo hi, (Bounds.for_bounds l u).range outer = some (lo, hi) ∧ lo ≤ (x : Int) ∧
      (x : Int) < hi) ↔ l ≤ x ∧ x < u := by
  simp only [Bounds.range, Option.some.injEq, Prod.mk.injEq]
  constructor
  · rintro ⟨lo, hi, ⟨rfl, rfl⟩, h1, h2⟩; omega
  · rintro ⟨h1, h2⟩; exact ⟨_, _, ⟨rfl, rfl⟩, by omega, by omega⟩

theorem in_range_symm_upper (r u : Nat) (outer : List Nat) (y x : Nat)
    (hy : outer.get? r = some y) :
    (∃ lo hi, (Bounds.for_symm_upper r u).range outer = some (lo, hi) ∧ lo ≤ (x : Int) ∧
      (x : Int) < hi) ↔ y ≤ x ∧ x < u := by
  simp only [Bounds.range, hy, Option.some.injEq, Prod.mk.injEq]
  constructor
  · rintro ⟨lo, hi, ⟨rfl, rfl⟩, h1, h2⟩; omega
  · rintro ⟨h1, h2⟩; exact ⟨_, _, ⟨rfl, rfl⟩, by omega, by omega⟩

theorem in_range_symm_lower (r l : Nat) (off : Int) (outer : List Nat) (y x : Nat)
    (hy : outer.get? r = some y) :
    (∃ lo hi, (Bounds.for_symm_lower r l off).range outer = some (lo, hi) ∧ lo ≤ (x : Int) ∧
      (x : Int) < hi) ↔ l ≤ x ∧ (x : Int) < (y : Int) + off := by
  simp only [Bounds.range, hy, Option.some.injEq, Prod.mk.injEq]
  constructor
  · rintro ⟨lo, hi, ⟨rfl, rfl⟩, h1, h2⟩; omega
  · rintro ⟨h1, h2⟩; exact ⟨_, _, ⟨rfl, rfl⟩, by omega, by omega⟩

/-- The tuples of the specification for three levels. -/
theorem within_three_iff (b0 b1 b2 : Bounds) (t : List Nat) :
    within [b0, b1, b2] [] t ↔
      ∃ i j k, t = [i, j, k] ∧
        (∃ lo hi, b0.range [] = some (lo, hi) ∧ lo ≤ (i : Int) ∧ (i : Int) < hi) ∧
        (∃ lo hi, b1.range [i] = some (lo, hi) ∧ lo ≤ (j : Int) ∧ (j : Int) < hi) ∧
        (∃ lo hi, b2.range [i, j] = some (lo, hi) ∧ lo ≤ (k : Int) ∧ (k : Int) < hi) := by
  constructor
  · intro h
    match t, h with
    | i :: j :: k :: t3, ⟨h0, h1, h2, h3⟩ =>
      have : t3 = [] := h3
      subst this
      exact ⟨i, j, k, rfl, h0, h1, h2⟩
  · rintro ⟨i, j, k, rfl, h0, h1, h2⟩
    exact ⟨h0, h1, h2, rfl⟩

/-- Acceptance of a three-level configuration over `[0, n)` whose ranges are well formed. -/
theorem accepted_three_level (n : Nat) (B1 B2 : Bounds)
    (hplain : ∀ l u, Bounds.for_bounds l u ∈ [B1, B2] → l ≤ u)
    (hg : ∀ i, i < n → ∃ lo hi, B1.range [i] = some (lo, hi) ∧ lo ≤ hi ∧
      ∀ j : Nat, lo ≤ (j : Int) → (j : Int) < hi →
        ∃ lo2 hi2, B2.range [i, j] = some (lo2, hi2) ∧ lo2 ≤ hi2) :
    accepted (.for_bounds 0 n) [B1, B2] := by
  refine accepted_of_guarded 0 n [B1, B2] (Nat.zero_le n)
    (forwards_all_tail [B1, B2] (by simp)) hplain ?_
  intro i _ hi
  obtain ⟨lo, hi1, hr, hle, hrest⟩ := hg i hi
  refine ⟨lo, hi1, hr, hle, fun j hj1 hj2 => ?_⟩
  obtain ⟨lo2, hi2, hr2, hle2⟩ := hrest j hj1 hj2
  exact ⟨lo2, hi2, hr2, hle2, fun _ _ _ => trivial⟩

/-- The three-level configurations of the tests: acceptance, and the calls as the triples of
`[0,n)^3` that satisfy the constraints of the two inner descriptors. -/
theorem three_level_constraints (n : Nat) (B1 B2 : Bounds) (r : Nat) (o1 o2 : Int)
    (hr : r = 0 ∨ r = 1) (ho1 : o1 = 0 ∨ o1 = 1) (ho2 : o2 = 0 ∨ o2 = 1)
    (h1 : B1 = .for_bounds 0 n ∨ B1 = .for_symm_upper 0 n ∨ B1 = .for_symm_lower 0 0 o1)
    (h2 : B2 = .for_bounds 0 n ∨ B2 = .for_symm_upper r n ∨ B2 = .for_symm_lower r 0 o2) :
    accepted (.for_bounds 0 n) [B1, B2] ∧
      (for_constexpr (.for_bounds 0 n) [B1, B2]).calls.Nodup ∧
      ∀ t, t ∈ (for_constexpr (.for_bounds 0 n) [B1, B2]).calls ↔
        ∃ i j k, t = [i, j, k] ∧ i < n ∧ j < n ∧ k < n ∧ B1.constraint i j ∧
          B2.constraint (if r = 0 then i else j) k := by
  have hget : ∀ i j : Nat, [i, j].get? r = some (if r = 0 then i else j) := by
    intro i j
    rcases hr with rfl | rfl <;> rfl
  have hget0 : ∀ i : Nat, [i].get? 0 = some i := fun i => rfl
  have hacc : accepted (.for_bounds 0 n) [B1, B2] := by
    refine accepted_three_level n B1 B2 ?_ ?_
    · intro l u hmem
      simp only [List.mem_cons, List.mem_singleton, List.not_mem_nil, or_false] at hmem
      rcases h1 with rfl | rfl | rfl <;> rcases h2 with rfl | rfl | rfl <;>
        rcases hmem with h | h <;> cases h <;> exact Nat.zero_le _
    · intro i hi
      have key : ∀ j : Nat, j < n → ∃ lo2 hi2, B2.range [i, j] = some (lo2, hi2) ∧ lo2 ≤ hi2 := by
        intro j hj
        rcases h2 with rfl | rfl | rfl
        · exact ⟨_, _, rfl, by omega⟩
        · have href : (if r = 0 then i else j) < n := by split <;> assumption
          exact ⟨((if r = 0 then i else j : Nat) : Int), (n : Int),
            by simp only [Bounds.range, hget i j], by omega⟩
        · refine ⟨((0 : Nat) : Int), ((if r = 0 then i else j : Nat) : Int) + o2,
            by simp only [Bounds.range, hget i j], ?_⟩
          rcases ho2 with rfl | rfl <;> omega
      rcases h1 with rfl | rfl | rfl
      · exact ⟨_, _, rfl, by omega, fun j _ hj => key j (by omega)⟩
      · exact ⟨(i : Int), (n : Int), by simp only [Bounds.range, hget0 i], by omega,
          fun j _ hj => key j (by omega)⟩
      · refine ⟨((0 : Nat) : Int), (i : Int) + o1, by simp only [Bounds.range, hget0 i], ?_,
          fun j _ hj => key j ?_⟩
        · rcases ho1 with rfl | rfl <;> omega
        · rcases ho1 with rfl | rfl <;> omega
  refine ⟨hacc, (for_constexpr_ascending _ _).2.imp (fun hab => ne_of_lt hab), fun t => ?_⟩
  rw [(calls_iff_within 0 n [B1, B2] (forwards_all_tail [B1, B2] (by simp)) hacc).2 t,
    within_three_iff]
  have h0 : ∀ i : Nat, (∃ lo hi, (Bounds.for_bounds 0 n).range [] = some (lo, hi) ∧
      lo ≤ (i : Int) ∧ (i : Int) < hi) ↔ i < n := by
    intro i
    rw [in_range_for_bounds]
    omega
  have hB1 : ∀ i j : Nat, i < n → ((∃ lo hi, B1.range [i] = some (lo, hi) ∧ lo ≤ (j : Int) ∧
      (j : Int) < hi) ↔ j < n ∧ B1.constraint i j) := by
    intro i j hi
    rcases h1 with rfl | rfl | rfl
    · rw [in_range_for_bounds]; simp [Bounds.constraint]
    · rw [in_range_symm_upper 0 n [i] i j (hget0 i)]
      simp only [Bounds.constraint]; omega
    · rw [in_range_symm_lower 0 0 o1 [i] i j (hget0 i)]
      simp only [Bounds.constraint]
      rcases ho1 with rfl | rfl <;> omega
  have hB2 : ∀ i j k : Nat, i < n → j < n →
      ((∃ lo hi, B2.range [i, j] = some (lo, hi) ∧ lo ≤ (k : Int) ∧ (k : Int) < hi) ↔
        k < n ∧ B2.constraint (if r = 0 then i else j) k) := by
    intro i j k hi hj
    have href : (if r = 0 then i else j) < n := by split <;> assumption
    rcases h2 with rfl | rfl | rfl
    · rw [in_range_for_bounds]; simp [Bounds.constraint]
    · rw [in_range_symm_upper r n [i, j] _ k (hget i j)]
      simp only [Bounds.constraint]; omega
    · rw [in_range_symm_lower r 0 o2 [i, j] _ k (hget i j)]
      simp only [Bounds.constraint]
      rcases ho2 with rfl | rfl <;> omega
  constructor
  · rintro ⟨i, j, k, rfl, hi, hj, hk⟩
    have hi2 := (h0 i).1 hi
    have hj2 := (hB1 i j hi2).1 hj
    have hk2 := (hB2 i j k hi2 hj2.1).1 hk
    exact ⟨i, j, k, rfl, hi2, hj2.1, hk2.1, hj2.2, hk2.2⟩
  · rintro ⟨i, j, k, rfl, hi, hj, hk, hc1, hc2⟩
    exact ⟨i, j, k, rfl, (h0 i).2 hi, (hB1 i j hi).2 ⟨hj, hc1⟩, (hB2 i j k hi hj).2 ⟨hk, hc2⟩⟩

/-- The embedding in the integers, which is the arithmetic of the source below
`2^63`.  For every `n`, every `B1` among `for_bounds<0,n>`, `for_symm_upper<0,n>`,
`for_symm_lower<0,0,o1>` and every `B2` among `for_bounds<0,n>`, `for_symm_upper<r,n>`,
`for_symm_lower<r,0,o2>` (`r`, `o1`, `o2` in `{0, 1}`), the configuration
`for_bounds<0,n>, B1, B2` is accepted and the callback is invoked exactly once at each
`(i, j, k)` in `[0,n)^3` that satisfies the constraint of `B1` on `j` relative to `i` and the
constraint of `B2` on `k` relative to the level it refers to (`i` for `r = 0`, `j` for
`r = 1`), and at no other argument list. -/
theorem three_level_symmetric (n : Nat) (B1 B2 : Bounds) (r : Nat) (o1 o2 : Int)
    (hr : r = 0 ∨ r = 1) (ho1 : o1 = 0 ∨ o1 = 1) (ho2 : o2 = 0 ∨ o2 = 1)
    (h1 : B1 = .for_bounds 0 n ∨ B1 = .for_symm_upper 0 n ∨ B1 = .for_symm_lower 0 0 o1)
    (h2 : B2 = .for_bounds 0 n ∨ B2 = .for_symm_upper r n ∨ B2 = .for_symm_lower r 0 o2) :
    accepted (.for_bounds 0 n) [B1, B2] ∧
      (for_constexpr (.for_bounds 0 n) [B1, B2]).calls.Nodup ∧
      ∀ t, t ∈ (for_constexpr (.for_bounds 0 n) [B1, B2]).calls ↔
        ∃ i j k, t = [i, j, k] ∧ i < n ∧ j < n ∧ k < n ∧ B1.constraint i j ∧
          B2.constraint (if r = 0 then i else j) k :=
  three_level_constraints n B1 B2 r o1 o2 hr ho1 ho2 h1 h2

/-- The theorem at `n = 3`, `B1 = for_symm_upper<0,3>`, `B2 = for_symm_lower<1,0,1>`, the test
`triple_symm_upper_lower`. -/
theorem three_level_symmetric_witness :
    accepted (.for_bounds 0 3) [.for_symm_upper 0 3, .for_symm_lower 1 0 1] ∧
      (for_constexpr (.for_bounds 0 3)
        [.for_symm_upper 0 3, .for_symm_lower 1 0 1]).calls.Nodup ∧
      ∀ t, t ∈ (for_constexpr (.for_bounds 0 3)
          [.for_symm_upper 0 3, .for_symm_lower 1 0 1]).calls ↔
        ∃ i j k, t = [i, j, k] ∧ i < 3 ∧ j < 3 ∧ k < 3 ∧
          (Bounds.for_symm_upper 0 3).constraint i j ∧
          (Bounds.for_symm_lower 1 0 1).constraint (if 1 = 0 then i else j) k :=
  three_level_symmetric 3 (.for_symm_upper 0 3) (.for_symm_lower 1 0 1) 1 0 1
    (Or.inr rfl) (Or.inl rfl) (Or.inr rfl) (Or.inr (Or.inl rfl)) (Or.inr (Or.inr rfl))

/-- The embedding in the integers, which is the arithmetic of the source below
`2^63`.  For every `n` the configuration `for_bounds<0,n>, for_symm_upper<0,n>,
for_symm_upper<0,n>` is accepted and invokes the callback exactly once for each triple
`(i, j, k)` of `[0,n)^3` with `j ≥ i` and `k ≥ i`, and for no other argument list; these are
14 invocations for `n = 3`. -/
theorem symm_upper_twice_on_first (n : Nat) :
    accepted (.for_bounds 0 n) [.for_symm_upper 0 n, .for_symm_upper 0 n] ∧
      (for_constexpr (.for_bounds 0 n) [.for_symm_upper 0 n, .for_symm_upper 0 n]).calls.Nodup ∧
      (∀ t, t ∈ (for_constexpr (.for_bounds 0 n)
          [.for_symm_upper 0 n, .for_symm_upper 0 n]).calls ↔
        ∃ i j k, t = [i, j, k] ∧ i < n ∧ j < n ∧ k < n ∧ i ≤ j ∧ i ≤ k) ∧
      (for_constexpr (.for_bounds 0 3)
        [.for_symm_upper 0 3, .for_symm_upper 0 3]).calls.length = 14 := by
  obtain ⟨hacc, hnd, hmem⟩ := three_level_constraints n (.for_symm_upper 0 n)
    (.for_symm_upper 0 n) 0 0 0 (Or.inl rfl) (Or.inl rfl) (Or.inl rfl) (Or.inr (Or.inl rfl))
    (Or.inr (Or.inl rfl))
  refine ⟨hacc, hnd, fun t => ?_, by decide⟩
  rw [hmem t]
  simp only [Bounds.constraint, if_true]

/-- The calls of a three-level configuration with a valid level 0, spelled out. -/
theorem three_level_calls (l0 u0 : Nat) (b1 b2 : Bounds) (hle : l0 ≤ u0) :
    (for_constexpr (.for_bounds l0 u0) [b1, b2]).calls =
      (List.range (u0 - l0)).flatMap fun is =>
        match b1.resolve [is + l0] with
        | none => []
        | some (_, lo1, sz1) =>
          (List.range sz1).flatMap fun is1 =>
            match b2.resolve [is + l0, is1 + lo1] with
            | none => []
            | some (_, lo2, sz2) => (List.range sz2).map fun k => [is + l0, is1 + lo1, k + lo2] := by
  have hf : b1.forwarded [b2] = [b2] := by cases b1 <;> rfl
  rw [for_constexpr_eq_expand, index_sequence_size_of_le hle]
  simp only [append_calls, static_assert_calls, List.nil_append]
  rw [expand_cons, level_calls, hf]
  refine flatMap_congr_mem _ _ _ fun is _ => ?_
  simp only [List.nil_append]
  cases b1.resolve [is + l0] with
  | none => rfl
  | some x =>
    obtain ⟨d, lo1, sz1⟩ := x
    simp only
    rw [expand_cons, level_calls, forwarded_nil]
    refine flatMap_congr_mem _ _ _ fun is1 _ => ?_
    simp only [List.singleton_append]
    cases b2.resolve [is + l0, is1 + lo1] with
    | none => rfl
    | some y =>
      obtain ⟨d2, lo2, sz2⟩ := y
      simp only [expand, base_calls, List.cons_append, List.nil_append]

theorem resolve_symm_lower_inclusive (index : Nat) (t : List Nat) (x : Nat)
    (hx : t.get? index = some x) :
    (Bounds.for_symm_lower index 0 1).resolve t = some ((x : Int) + 1 - ((0 : Nat) : Int), 0, x + 1) := by
  rw [resolve_symm_lower index 0 1 t x hx]
  have h1 : ((x : Int) + 1 - ((0 : Nat) : Int)).toNat = x + 1 := by omega
  unfold index_sequence_size
  rw [if_neg (by omega), h1]

/-- The chained configuration `for_bounds<0,n>, for_symm_lower<0,0,1>,
for_symm_lower<1,0,1>`. -/
theorem symm_lower_chain_eq (n : Nat) :
    (for_constexpr (.for_bounds 0 n) [.for_symm_lower 0 0 1, .for_symm_lower 1 0 1]).calls =
      (List.range n).flatMap fun i =>
        (List.range (i + 1)).flatMap fun j => (List.range (j + 1)).map fun k => [i, j, k] := by
  rw [three_level_calls 0 n _ _ (Nat.zero_le n), Nat.sub_zero]
  refine flatMap_congr_mem _ _ _ fun is _ => ?_
  rw [resolve_symm_lower_inclusive 0 [is + 0] is rfl]
  refine flatMap_congr_mem _ _ _ fun is1 _ => ?_
  rw [resolve_symm_lower_inclusive 1 [is + 0, is1 + 0] is1 rfl]
  simp

theorem flatMap_length_tetrahedral (f : Nat → List (List Nat))
    (h : ∀ i, 2 * (f i).length = (i + 1) * (i + 2)) (n : Nat) :
    6 * ((List.range n).flatMap f).length = n * (n + 1) * (n + 2) := by
  induction n with
  | zero => simp
  | succ k ih =>
    rw [flatMap_range_succ_length, Nat.mul_add, ih]
    have := h k
    nlinarith [this]

/-- The embedding in the integers, which is the arithmetic of the source below
`2^63`.  For every `n` the chained configuration `for_bounds<0,n>, for_symm_lower<0,0,1>,
for_symm_lower<1,0,1>` is accepted and invokes the callback exactly once for each triple with
`k ≤ j ≤ i < n` and for no other argument list, `n (n + 1) (n + 2) / 6` invocations in all;
these are 10 for `n = 3`. -/
theorem symm_lower_chain_triples (n : Nat) :
    accepted (.for_bounds 0 n) [.for_symm_lower 0 0 1, .for_symm_lower 1 0 1] ∧
      (for_constexpr (.for_bounds 0 n)
        [.for_symm_lower 0 0 1, .for_symm_lower 1 0 1]).calls.Nodup ∧
      (∀ t, t ∈ (for_constexpr (.for_bounds 0 n)
          [.for_symm_lower 0 0 1, .for_symm_lower 1 0 1]).calls ↔
        ∃ i j k, t = [i, j, k] ∧ k ≤ j ∧ j ≤ i ∧ i < n) ∧
      (for_constexpr (.for_bounds 0 n)
        [.for_symm_lower 0 0 1, .for_symm_lower 1 0 1]).calls.length =
          n * (n + 1) * (n + 2) / 6 ∧
      (for_constexpr (.for_bounds 0 3)
        [.for_symm_lower 0 0 1, .for_symm_lower 1 0 1]).calls.length = 10 := by
  obtain ⟨hacc, hnd, -⟩ := three_level_constraints n (.for_symm_lower 0 0 1)
    (.for_symm_lower 1 0 1) 1 1 1 (Or.inr rfl) (Or.inr rfl) (Or.inr rfl) (Or.inr (Or.inr rfl))
    (Or.inr (Or.inr rfl))
  refine ⟨hacc, hnd, fun t => ?_, ?_, by decide⟩
  · rw [symm_lower_chain_eq]
    simp only [List.mem_flatMap, List.mem_range, List.mem_map]
    constructor
    · rintro ⟨i, hi, j, hj, k, hk, rfl⟩; exact ⟨i, j, k, rfl, by omega, by omega, hi⟩
    · rintro ⟨i, j, k, rfl, hk, hj, hi⟩; exact ⟨i, hi, j, by omega, k, by omega, rfl⟩
  · rw [symm_lower_chain_eq]
    have h := flatMap_length_tetrahedral
      (fun i => (List.range (i + 1)).flatMap fun j => (List.range (j + 1)).map fun k => [i, j, k])
      (fun i => flatMap_length_triangle_succ _ (fun j => by simp) (i + 1)) n
    simp only at h ⊢
    omega

end ForConstexpr

namespace TupleIteration

/-- After `tuple_transform<k>` with the callback of the transform, the positions up to `k` of
the output hold the negated elements and the other positions are as before. -/
theorem negate_into_upto (tuple out : List ℚ) (hlen : out.length = tuple.length) :
    ∀ k, k < tuple.length →
      ∃ r, tuple_transform k tuple negate_into out = some r ∧ r.length = out.length ∧
        ∀ m, r[m]? = if m ≤ k then (tuple[m]?).map (fun e => -e) else out[m]? := by
  intro k
  induction k with
  | zero =>
    intro h
    have h0 : tuple.get? 0 = some tuple[0] := by
      rw [List.get?_eq_getElem?, List.getElem?_eq_getElem h]
    refine ⟨out.set 0 (-tuple[0]), by simp only [tuple_transform, h0, negate_into], by simp, ?_⟩
    intro m
    rw [List.getElem?_set]
    by_cases hm : 0 = m
    · subst hm
      simp [hlen, h, List.getElem?_eq_getElem h]
    · have : ¬ m ≤ 0 := by omega
      simp [hm, this]
  | succ k ih =>
    intro h
    obtain ⟨r, hr, hrl, hrm⟩ := ih (by omega)
    have hk : tuple.get? (k + 1) = some tuple[k + 1] := by
      rw [List.get?_eq_getElem?, List.getElem?_eq_getElem h]
    refine ⟨r.set (k + 1) (-tuple[k + 1]),
      by simp only [tuple_transform, hr, hk, negate_into], by simp [hrl], ?_⟩
    intro m
    rw [List.getElem?_set]
    by_cases hm : k + 1 = m
    · subst hm
      simp [hrl, hlen, h, List.getElem?_eq_getElem h]
    · rw [if_neg hm, hrm m]
      by_cases hmk : m ≤ k
      · have : m ≤ k + 1 := by omega
        simp [hmk, this]
      · have : ¬ m ≤ k + 1 := by omega
        simp [hmk, this]

/-- C20: on a tuple of `n ≥ 1` numbers and an output tuple of the same shape,
`tuple_transform<n - 1>` with the callback that writes `-element` into position `index` of the
output returns and leaves the element-wise negation in the output, `out[k] = -in[k]` for every
`k < n`; the input tuple is an argument that is only read.  For `(2, 7, -3.8, 20.9)` the
output is `(-2, -7, 3.8, -20.9)`. -/
theorem tuple_transform_negates (tuple out : List ℚ) (h : tuple ≠ [])
    (hlen : out.length = tuple.length) :
    tuple_transform (tuple.length - 1) tuple negate_into out =
        some (tuple.map fun e => -e) ∧
      (∀ k (hk : k < tuple.length),
        (tuple.map fun e => -e).get? k = some (-(tuple.get ⟨k, hk⟩))) ∧
      tuple_transform 3 my_tupull negate_into [0, 0, 0, 0] =
        some [-2, -7, 38 / 10, -209 / 10] := by
  have key : ∀ (t o : List ℚ), t ≠ [] → o.length = t.length →
      tuple_transform (t.length - 1) t negate_into o = some (t.map fun e => -e) := by
    intro t o ht hl
    have hpos : 0 < t.length := List.length_pos.2 ht
    obtain ⟨r, hr, hrl, hrm⟩ := negate_into_upto t o hl (t.length - 1) (by omega)
    rw [hr]
    refine congrArg some (List.ext_getElem? fun m => ?_)
    rw [hrm m, List.getElem?_map]
    by_cases hm : m ≤ t.length - 1
    · rw [if_pos hm]
    · rw [if_neg hm, List.getElem?_eq_none (by omega), List.getElem?_eq_none (by omega)]
      rfl
  refine ⟨key tuple out h hlen, ?_, ?_⟩
  · intro k hk
    simp [List.getElem?_eq_getElem hk]
  · have := key my_tupull [0, 0, 0, 0] (by decide) rfl
    rw [show (3 : Nat) = my_tupull.length - 1 from rfl, this]
    simp [my_tupull]
    norm_num

/-- The theorem at the tuple `(1, -2)` with an output tuple of zeros. -/
theorem tuple_transform_negates_witness :
    ([1, -2] : List ℚ) ≠ [] ∧ ([0, 0] : List ℚ).length = ([1, -2] : List ℚ).length ∧
      tuple_transform (([1, -2] : List ℚ).length - 1) [1, -2] negate_into [0, 0] =
        some (([1, -2] : List ℚ).map fun e => -e) :=
  ⟨by decide, by decide, (tuple_transform_negates [1, -2] [0, 0] (by decide) (by decide)).1⟩

end TupleIteration

namespace TypeLists

/-- Claim C22: for every class template `Seq` and every list of types `Ts...`,
`size<Seq<Ts...>>` is the number of types in the list, a repeated type being counted every
time it occurs: a list of `n` copies of one type has size `n`, the empty list has size 0 and
`typelist<double, char, bool, double>` has size 4. -/
theorem size_counts_elements :
    (∀ (s : String) (ts : List CppType), size (.seq s ts) = some ts.length) ∧
    (∀ (s : String) (t : CppType) (n : Nat), size (.seq s (List.replicate n t)) = some n) ∧
    (∀ (s : String) (t : CppType) (ts : List CppType),
      size (.seq s (t :: ts)) = (size (.seq s ts)).map (· + 1)) ∧
    size (typelist []) = some 0 ∧
    size (typelist [.named "double", .named "char", .named "bool", .named "double"]) =
      some 4 := by
  refine ⟨fun s ts => rfl, fun s t n => ?_, fun s t ts => rfl, rfl, rfl⟩
  simp [size]

/-- Claim C23: for a non-empty type list `Seq<T, Ts...>`, `front` is `T` and `pop_front` is
`Seq<Ts...>`, the remaining types in their order, so that the list is its `front` pushed in
front of its `pop_front`; for the empty list `Seq<>` both are `no_such_type`.  For
`typelist<double, char, bool, double>` they are `double` and `typelist<char, bool, double>`. -/
theorem front_and_pop_front :
    (∀ (s : String) (t : CppType) (ts : List CppType),
      front (.seq s (t :: ts)) = some t ∧
      pop_front (.seq s (t :: ts)) = some (.seq s ts) ∧
      ((pop_front (.seq s (t :: ts))).bind fun rest =>
        (front (.seq s (t :: ts))).bind fun first => push_front rest first) =
          some (.seq s (t :: ts)) ∧
      (pop_front (.seq s (t :: ts))).bind size = some ts.length) ∧
    (∀ s : String, front (.seq s []) = some .no_such_type ∧
      pop_front (.seq s []) = some .no_such_type) ∧
    front (typelist [.named "double", .named "char", .named "bool", .named "double"]) =
      some (.named "double") ∧
    pop_front (typelist [.named "double", .named "char", .named "bool", .named "double"]) =
      some (typelist [.named "char", .named "bool", .named "double"]) :=
  ⟨fun _ _ _ => ⟨rfl, rfl, rfl, rfl⟩, fun _ => ⟨rfl, rfl⟩, rfl, rfl⟩

/-- Claim C24: for every type list `Seq<Ts...>`, empty or not, and every type `T`,
`push_front` is `Seq<T, Ts...>` and `push_back` is `Seq<Ts..., T>`: the types of the list
stay as they are, in their order, after `T` or before it, and the size grows by one.
Pushing onto the empty list gives `Seq<T>` both ways.  For
`typelist<double, char, bool, double>` and `char` the results are
`typelist<char, double, char, bool, double>` and
`typelist<double, char, bool, double, char>`. -/
theorem push_front_and_push_back :
    (∀ (s : String) (ts : List CppType) (t : CppType),
      push_front (.seq s ts) t = some (.seq s (t :: ts)) ∧
      push_back (.seq s ts) t = some (.seq s (ts ++ [t])) ∧
      (push_front (.seq s ts) t).bind pop_front = some (.seq s ts) ∧
      (push_front (.seq s ts) t).bind front = some t ∧
      (push_front (.seq s ts) t).bind size = some (ts.length + 1) ∧
      (push_back (.seq s ts) t).bind size = some (ts.length + 1)) ∧
    (∀ (s : String) (t : CppType),
      push_front (.seq s []) t = some (.seq s [t]) ∧
      push_back (.seq s []) t = some (.seq s [t])) ∧
    push_front (typelist [.named "double", .named "char", .named "bool", .named "double"])
        (.named "char") =
      some (typelist [.named "char", .named "double", .named "char", .named "bool",
        .named "double"]) ∧
    push_back (typelist [.named "double", .named "char", .named "bool", .named "double"])
        (.named "char") =
      some (typelist [.named "double", .named "char", .named "bool", .named "double",
        .named "char"]) := by
  refine ⟨fun s ts t => ⟨rfl, rfl, rfl, rfl, rfl, ?_⟩, fun _ _ => ⟨rfl, rfl⟩, rfl, rfl⟩
  simp [push_back, size]

end TypeLists

namespace LocalTypeTraits

theorem has_func_v_eq (T : CppType) : has_func_v T = T.func_int_well_formed := by
  unfold has_func_v
  cases T.func_int_well_formed <;> rfl

theorem check_for_func_member_eq (T : CppType) :
    check_for_func_member T =
      some (if has_func_v T = true then Branch.has_func else Branch.has_no_func) := by
  unfold check_for_func_member
  cases has_func_v T <;> rfl

theorem check_for_func_member_overload_eq (T : CppType) :
    check_for_func_member_overload T =
      some (if has_func_v T = true then Branch.has_func else Branch.has_no_func) := by
  unfold check_for_func_member_overload
  cases has_func_v T <;> rfl

/-- Claim C21: for every type `T`, the call of the overloader of `check_for_func_member` on
a `T` is well formed and selects one of its two lambdas: the lambda that prints "Has
func(int)" exactly when `has_func_v<T>` is true, the lambda that prints "Has no func(int)"
exactly when it is false, and never the call operator of the empty overloader; `my_type1`
selects the first lambda and `my_type2` the second. -/
theorem check_for_func_member_selects :
    (∀ T : CppType,
      (check_for_func_member T = some .has_func ∨
        check_for_func_member T = some .has_no_func) ∧
      (check_for_func_member T = some .has_func ↔ has_func_v T = true) ∧
      (check_for_func_member T = some .has_no_func ↔ has_func_v T = false) ∧
      check_for_func_member T ≠ some .no_such_type ∧
      check_for_func_member T ≠ none) ∧
    has_func_v my_type1 = true ∧ check_for_func_member my_type1 = some .has_func ∧
    has_func_v my_type2 = false ∧ check_for_func_member my_type2 = some .has_no_func := by
  refine ⟨fun T => ?_, rfl, rfl, rfl, rfl⟩
  rw [check_for_func_member_eq]
  cases has_func_v T <;> simp

/-- Claim C30: for every type `T` the three checks answer as `has_func_v<T>` does: the
overloader of `check_for_func_member` and the overloader of `check_for_func_member_overload`
select their "Has func(int)" lambda exactly when `has_func_v<T>` is true and their "Has no
func(int)" lambda otherwise, and `local_trait_v<has_func_member, T>` is the value of
`has_func_v<T>`.  When the constrained lambda and the catch-all lambda of an overloader are
both viable, the call selects the constrained one, whatever the two return. -/
theorem capability_checks_agree :
    (∀ T : CppType,
      (check_for_func_member T = some .has_func ↔ has_func_v T = true) ∧
      (check_for_func_member_overload T = some .has_func ↔ has_func_v T = true) ∧
      (local_trait_v T = some true ↔ has_func_v T = true) ∧
      check_for_func_member_overload T = check_for_func_member T ∧
      local_trait_v T = some (has_func_v T)) ∧
    (∀ (R : Type) (constrained catch_all other : R),
      resolve_call
        [⟨true, false, constrained⟩, ⟨true, true, catch_all⟩, ⟨false, false, other⟩] =
          some constrained) ∧
    (∀ (R : Type) (constrained catch_all other : R),
      resolve_call
        [⟨false, false, constrained⟩, ⟨true, true, catch_all⟩, ⟨false, false, other⟩] =
          some catch_all) := by
  refine ⟨fun T => ?_, fun _ _ _ _ => rfl, fun _ _ _ _ => rfl⟩
  rw [check_for_func_member_eq, check_for_func_member_overload_eq]
  have h : local_trait_v T = some (has_func_v T) := by
    rw [has_func_v_eq]
    unfold local_trait_v
    cases T.func_int_well_formed <;> rfl
  rw [h]
  cases has_func_v T <;> simp

end LocalTypeTraits

namespace ForConstexpr

/-- The embedding in the integers, which is the arithmetic of the source below
`2^63`.  For `L ≤ U` and every `c`, the general form
`for_constexpr<for_bounds<L, U>, for_bounds<c, c + 1>>` is accepted and invokes the callback
with exactly `(i, c)` for `i = L, ..., U - 1`, in this order; the single-level form
`for_constexpr<for_bounds<L, U>>` is accepted and delivers `i = L, ..., U - 1`, which is the
sequence of the first indices of the general form, in the same order. -/
theorem single_level_matches_general (L U c : Nat) (h : L ≤ U) :
    for_constexpr (.for_bounds L U) [.for_bounds c (c + 1)] =
        ⟨[], (List.range (U - L)).map (fun is => [is + L, c])⟩ ∧
      for_constexpr (.for_bounds L U) [] =
        ⟨[], (List.range (U - L)).map (fun is => [is + L])⟩ ∧
      (for_constexpr (.for_bounds L U) [.for_bounds c (c + 1)]).calls.map
          (fun t => t.take 1) =
        (for_constexpr (.for_bounds L U) []).calls ∧
      (run (.for_bounds L U) [.for_bounds c (c + 1)]).map
          (fun calls => calls.map (fun t => t.take 1)) =
        run (.for_bounds L U) [] := by
  have e1 : for_constexpr (.for_bounds L U) [] =
      ⟨[], (List.range (U - L)).map (fun is => [is + L])⟩ := by
    rw [for_constexpr_single L U h]
    have h1 := base_calls L (U - L) []
    have h2 := base_diags L (U - L) []
    cases hb : for_constexpr_impl_base L (U - L) [] with
    | mk d cs =>
      rw [hb] at h1 h2
      simp only at h1 h2
      simp [h1, h2]
  have e2 : for_constexpr (.for_bounds L U) [.for_bounds c (c + 1)] =
      ⟨[], (List.range (U - L)).map (fun is => [is + L, c])⟩ := by
    rw [for_constexpr_cons L U _ _ h]
    have hc : for_constexpr_impl L (.for_bounds c (c + 1)) [] (U - L) [] =
        for_constexpr_impl_second_last L (.for_bounds c (c + 1)) (U - L) [] := rfl
    rw [hc, second_last_for_bounds L c (c + 1) (U - L) [] (Nat.le_succ c)]
    have hs : c + 1 - c = 1 := by omega
    have hr : List.range 1 = [0] := rfl
    simp only [hs, pack, base_calls, base_diags, List.nil_append, hr, List.map_cons,
      List.map_nil, Nat.zero_add, List.singleton_append]
    congr 1
    · simp
    · induction List.range (U - L) with
      | nil => rfl
      | cons a l ih => simp [List.flatMap_cons, ih]
  refine ⟨e2, e1, ?_, ?_⟩
  · rw [e1, e2]
    simp
  · simp only [run, e1, e2]
    simp

/-- The theorem at `L = 2`, `U = 5`, `c = 7`. -/
theorem single_level_matches_general_witness :
    (2 : Nat) ≤ 5 ∧
      (for_constexpr (.for_bounds 2 5) [.for_bounds 7 (7 + 1)] =
          ⟨[], (List.range (5 - 2)).map (fun is => [is + 2, 7])⟩ ∧
        for_constexpr (.for_bounds 2 5) [] =
          ⟨[], (List.range (5 - 2)).map (fun is => [is + 2])⟩ ∧
        (for_constexpr (.for_bounds 2 5) [.for_bounds 7 (7 + 1)]).calls.map
            (fun t => t.take 1) =
          (for_constexpr (.for_bounds 2 5) []).calls ∧
        (run (.for_bounds 2 5) [.for_bounds 7 (7 + 1)]).map
            (fun calls => calls.map (fun t => t.take 1)) =
          run (.for_bounds 2 5) []) :=
  ⟨by decide, single_level_matches_general 2 5 7 (by decide)⟩

end ForConstexpr

namespace ForConstexpr

/-- The size that an overload asks for is the placeholder 1 when the difference is negative
and the difference itself otherwise. -/
theorem resolve_size (next : Bounds) (w : List Nat) (d : Int) (lo sz : Nat)
    (hr : next.resolve w = some (d, lo, sz)) : (sz : Int) = if d < 0 then 1 else d := by
  cases next with
  | for_bounds nl nu =>
    simp only [Bounds.resolve, Option.some.injEq, Prod.mk.injEq] at hr
    obtain ⟨rfl, -, rfl⟩ := hr
    unfold index_sequence_size
    split <;> omega
  | for_symm_upper index nu =>
    simp only [Bounds.resolve] at hr
    cases hx : std_get index w with
    | none => rw [hx] at hr; cases hr
    | some r =>
      rw [hx] at hr
      simp only [Option.some.injEq, Prod.mk.injEq] at hr
      obtain ⟨rfl, -, rfl⟩ := hr
      unfold index_sequence_size
      split <;> omega
  | for_symm_lower index nl off =>
    simp only [Bounds.resolve] at hr
    cases hx : std_get index w with
    | none => rw [hx] at hr; cases hr
    | some r =>
      rw [hx] at hr
      simp only [Option.some.injEq, Prod.mk.injEq] at hr
      obtain ⟨rfl, -, rfl⟩ := hr
      unfold index_sequence_size
      split <;> omega

theorem mem_requests_second_last (lower : Nat) (next : Bounds) (size : Nat) (v : List Nat)
    (p : Int × Nat) (h : p ∈ requests_second_last lower next size v) :
    ∃ is lo, is < size ∧ next.resolve (v ++ [is + lower]) = some (p.1, lo, p.2) := by
  simp only [requests_second_last, List.mem_flatMap, List.mem_range] at h
  obtain ⟨is, his, hp⟩ := h
  cases hr : next.resolve (v ++ [is + lower]) with
  | none => rw [hr] at hp; cases hp
  | some x =>
    obtain ⟨d, lo, sz⟩ := x
    rw [hr] at hp
    simp only [List.mem_singleton] at hp
    subst hp
    exact ⟨is, lo, his, hr⟩

/-- Every request of an overload is the placeholder or the difference. -/
theorem requests_second_last_size (lower : Nat) (next : Bounds) (size : Nat) (v : List Nat)
    (p : Int × Nat) (h : p ∈ requests_second_last lower next size v) :
    (p.2 : Int) = if p.1 < 0 then 1 else p.1 := by
  obtain ⟨is, lo, -, hr⟩ := mem_requests_second_last lower next size v p h
  exact resolve_size next _ _ _ _ hr

/-- An overload whose instantiation raises no diagnostic asks for no placeholder. -/
theorem requests_second_last_sound (lower : Nat) (next : Bounds) (size : Nat) (v : List Nat)
    (cont : Nat → Nat → List Nat → Expansion) (hd : (level lower next size v cont).diags = [])
    (p : Int × Nat) (h : p ∈ requests_second_last lower next size v) : 0 ≤ p.1 := by
  obtain ⟨is, lo, his, hr⟩ := mem_requests_second_last lower next size v p h
  exact resolve_nonneg_of_guard lower next size v (level_diags_eq_nil _ _ _ _ _ hd).1 is his
    _ _ _ hr

theorem mem_requests_impl_cons (lower : Nat) (next bounds1 : Bounds) (rest : List Bounds)
    (size : Nat) (v : List Nat) (p : Int × Nat)
    (h : p ∈ requests_impl lower next (bounds1 :: rest) size v) :
    p ∈ requests_second_last lower next size v ∨
      ∃ is d lo sz, is < size ∧ next.resolve (v ++ [is + lower]) = some (d, lo, sz) ∧
        ((∃ nl nu, next = .for_bounds nl nu ∧
            p ∈ requests_impl lo bounds1 rest sz (v ++ [is + lower])) ∨
          ((next.forwarded (bounds1 :: rest) = [bounds1]) ∧
            p ∈ requests_second_last lo bounds1 sz (v ++ [is + lower]))) := by
  simp only [requests_impl, List.mem_flatMap, List.mem_range] at h
  obtain ⟨is, his, hp⟩ := h
  cases hr : next.resolve (v ++ [is + lower]) with
  | none => rw [hr] at hp; cases hp
  | some x =>
    obtain ⟨d, lo, sz⟩ := x
    rw [hr] at hp
    rcases List.mem_cons.1 hp with hp | hp
    · left
      simp only [requests_second_last, List.mem_flatMap, List.mem_range]
      refine ⟨is, his, ?_⟩
      rw [hr]
      exact List.mem_singleton.2 hp
    · right
      refine ⟨is, d, lo, sz, his, hr, ?_⟩
      cases next with
      | for_bounds nl nu => exact Or.inl ⟨nl, nu, rfl, hp⟩
      | for_symm_upper index nu => exact Or.inr ⟨rfl, hp⟩
      | for_symm_lower index nl off => exact Or.inr ⟨rfl, hp⟩

theorem requests_impl_size (bounds : List Bounds) :
    ∀ (lower : Nat) (next : Bounds) (size : Nat) (v : List Nat) (p : Int × Nat),
      p ∈ requests_impl lower next bounds size v →
        (p.2 : Int) = if p.1 < 0 then 1 else p.1 := by
  induction bounds with
  | nil =>
    intro lower next size v p h
    exact requests_second_last_size lower next size v p h
  | cons bounds1 rest ih =>
    intro lower next size v p h
    rcases mem_requests_impl_cons lower next bounds1 rest size v p h with h | h
    · exact requests_second_last_size lower next size v p h
    · obtain ⟨is, d, lo, sz, -, -, h | h⟩ := h
      · obtain ⟨nl, nu, -, h⟩ := h
        exact ih _ _ _ _ p h
      · exact requests_second_last_size _ _ _ _ p h.2

theorem requests_impl_sound (bounds : List Bounds) :
    ∀ (lower : Nat) (next : Bounds) (size : Nat) (v : List Nat),
      (for_constexpr_impl lower next bounds size v).diags = [] →
        ∀ p ∈ requests_impl lower next bounds size v, 0 ≤ p.1 := by
  induction bounds with
  | nil =>
    intro lower next size v hd p h
    rw [impl_nil_eq_level] at hd
    exact requests_second_last_sound lower next size v _ hd p h
  | cons bounds1 rest ih =>
    intro lower next size v hd p h
    rw [impl_cons_eq_level] at hd
    rcases mem_requests_impl_cons lower next bounds1 rest size v p h with h | h
    · exact requests_second_last_sound lower next size v _ hd p h
    · obtain ⟨is, d, lo, sz, his, hr, h⟩ := h
      obtain ⟨d2, lo2, sz2, hr2, hc⟩ := (level_diags_eq_nil _ _ _ _ _ hd).2 is his
      rw [hr] at hr2
      simp only [Option.some.injEq, Prod.mk.injEq] at hr2
      obtain ⟨-, rfl, rfl⟩ := hr2
      rcases h with ⟨nl, nu, rfl, hp⟩ | ⟨hf, hp⟩
      · exact ih _ _ _ _ hc p hp
      · rw [hf] at hc
        have hc2 : (level lo bounds1 sz (v ++ [is + lower]) for_constexpr_impl_base).diags
            = [] := by
          rw [← impl_nil_eq_level]; exact hc
        exact requests_second_last_sound _ _ _ _ _ hc2 p hp

end ForConstexpr

namespace ForConstexpr

theorem requests_size (bounds0 : Bounds) (more : List Bounds) (p : Int × Nat)
    (h : p ∈ requests bounds0 more) : (p.2 : Int) = if p.1 < 0 then 1 else p.1 := by
  cases bounds0 with
  | for_bounds l u =>
    simp only [requests, List.mem_cons] at h
    rcases h with rfl | h
    · simp only [index_sequence_size]
      split <;> omega
    · cases more with
      | nil => cases h
      | cons bounds1 bounds => exact requests_impl_size bounds _ _ _ _ p h
  | for_symm_lower index lower offset => cases h
  | for_symm_upper index upper => cases h

theorem requests_sound (bounds0 : Bounds) (more : List Bounds)
    (hacc : accepted bounds0 more) (p : Int × Nat) (h : p ∈ requests bounds0 more) :
    0 ≤ p.1 := by
  cases bounds0 with
  | for_bounds l u =>
    unfold accepted at hacc
    simp only [for_constexpr, append_diags, static_assert_diags, List.append_eq_nil] at hacc
    obtain ⟨hg, hd⟩ := hacc
    have hle : 0 ≤ (u : Int) - (l : Int) := by
      by_contra hlt
      have : ¬ ((u : Int) - (l : Int) ≥ 0) := by omega
      simp [this] at hg
    simp only [requests, List.mem_cons] at h
    rcases h with rfl | h
    · exact hle
    · cases more with
      | nil => cases h
      | cons bounds1 bounds => exact requests_impl_sound bounds _ _ _ _ hd p h
  | for_symm_lower index lower offset => cases h
  | for_symm_upper index upper => cases h

/-- The embedding in the integers, which is the arithmetic of the source below
`2^63`.  Every index sequence that the expansion of a configuration asks for, at
whatever level and for whichever kind of descriptor, has the size 1 of the placeholder only
where the difference `upper_k - lower_k` of its step is negative, and the difference itself
otherwise; a step with a negative difference has a false `static_assert` condition, and the
configuration is then rejected and nothing runs.  Hence in an accepted configuration every
index sequence asked for has exactly the size `upper_k - lower_k >= 0`: no invocation of the
callback comes from a placeholder. -/
theorem placeholder_only_when_rejected (bounds0 : Bounds) (more : List Bounds) (d : Int)
    (sz : Nat) (h : (d, sz) ∈ requests bounds0 more) :
    ((sz : Int) = if d < 0 then 1 else d) ∧
      (d < 0 → sz = 1 ∧ ¬ accepted bounds0 more ∧ run bounds0 more = none) ∧
      (accepted bounds0 more → 0 ≤ d ∧ (sz : Int) = d) ∧
      (∀ calls, run bounds0 more = some calls → 0 ≤ d ∧ (sz : Int) = d) ∧
      (∀ (lower size : Nat) (next : Bounds) (v : List Nat) (is lo : Nat),
        is < size → next.resolve (v ++ [is + lower]) = some (d, lo, sz) → d < 0 →
          next.guard lower size v = false) := by
  have hsz := requests_size bounds0 more (d, sz) h
  simp only at hsz
  have hacc : accepted bounds0 more → 0 ≤ d ∧ (sz : Int) = d := by
    intro ha
    have hd := requests_sound bounds0 more ha (d, sz) h
    simp only at hd
    rw [if_neg (by omega)] at hsz
    exact ⟨hd, hsz⟩
  refine ⟨hsz, fun hd => ?_, hacc, fun calls hrun => hacc ?_,
    fun lower size next v is lo his hr hd =>
      guard_false_of_resolve lower next size v is d lo sz his hr hd⟩
  · have hna : ¬ accepted bounds0 more := fun ha => by have := (hacc ha).1; omega
    refine ⟨?_, hna, ?_⟩
    · rw [if_pos hd] at hsz
      exact_mod_cast hsz
    · unfold run
      unfold accepted at hna
      rw [if_neg hna]
  · unfold run at hrun
    by_contra hna
    unfold accepted at hna
    rw [if_neg hna] at hrun
    cases hrun

/-- The theorem at the request of the last value of level 0 in
`for_constexpr<for_bounds<0, 3>, for_symm_upper<0, 1>>`, whose inner range would be
`[2, 1)`. -/
theorem placeholder_only_when_rejected_witness :
    (((-1 : Int), 1) ∈ requests (.for_bounds 0 3) [.for_symm_upper 0 1]) ∧
      ((((1 : Nat) : Int) = if (-1 : Int) < 0 then 1 else -1) ∧
        ((-1 : Int) < 0 → 1 = 1 ∧ ¬ accepted (.for_bounds 0 3) [.for_symm_upper 0 1] ∧
          run (.for_bounds 0 3) [.for_symm_upper 0 1] = none) ∧
        (accepted (.for_bounds 0 3) [.for_symm_upper 0 1] →
          0 ≤ (-1 : Int) ∧ ((1 : Nat) : Int) = -1) ∧
        (∀ calls, run (.for_bounds 0 3) [.for_symm_upper 0 1] = some calls →
          0 ≤ (-1 : Int) ∧ ((1 : Nat) : Int) = -1) ∧
        (∀ (lower size : Nat) (next : Bounds) (v : List Nat) (is lo : Nat),
          is < size → next.resolve (v ++ [is + lower]) = some (-1, lo, 1) → (-1 : Int) < 0 →
            next.guard lower size v = false)) :=
  ⟨by decide, placeholder_only_when_rejected (.for_bounds 0 3) [.for_symm_upper 0 1] (-1) 1
    (by decide)⟩

end ForConstexpr

namespace ForConstexpr

theorem to_ssize_t_small (x : Nat) (h : x < 2 ^ 63) : to_ssize_t x = (x : Int) := by
  have h64 : x % 2 ^ 64 = x := Nat.mod_eq_of_lt (by norm_num at h ⊢; omega)
  unfold to_ssize_t
  rw [h64, if_pos h]

/-- Below `2^63` the guard in 64-bit arithmetic is the guard in the integers: it holds
exactly when `lower ≤ upper`, and the size is `upper - lower`. -/
theorem single_loop_guard_64_small (lower upper : Nat) (hl : lower < 2 ^ 63)
    (hu : upper < 2 ^ 63) :
    single_loop_guard_64 lower upper =
      some (decide (lower ≤ upper), if upper < lower then 1 else upper - lower) := by
  unfold single_loop_guard_64 ssize_t_sub size_t_sub
  rw [to_ssize_t_small lower hl, to_ssize_t_small upper hu]
  norm_num at hl hu ⊢
  have hl64 : lower % 18446744073709551616 = lower := Nat.mod_eq_of_lt (by omega)
  have hu64 : upper % 18446744073709551616 = upper := Nat.mod_eq_of_lt (by omega)
  rw [if_pos (by omega)]
  simp only [hl64, hu64]
  by_cases h : lower ≤ upper
  · have h1 : ¬ upper < lower := by omega
    have h2 : ¬ ((upper : Int) < (lower : Int)) := by omega
    have h3 : (upper + 18446744073709551616 - lower) % 18446744073709551616 =
        upper - lower := by omega
    simp [h, h1, h2, h3]
  · have h1 : upper < lower := by omega
    have h2 : (upper : Int) < (lower : Int) := by omega
    simp [h, h1, h2]

/-- Claim C27: on the failing input `for_constexpr<for_bounds<18446744073709551615, 0>>` the
upper bound is smaller than the lower bound, yet in 64-bit arithmetic the signed difference
is `0 - (-1) = 1`, the `static_assert` holds, the index sequence has the wrapped size
`0 - (2^64 - 1) = 1` and the callback is invoked once, with the index `2^64 - 1`.  In the
other direction `for_bounds<0, 2^63>` has `lower ≤ upper` and is rejected, the difference
being `-2^63`, and for `for_bounds<1, 2^63>` the signed subtraction overflows. -/
theorem guard_64_accepts_inverted_range :
    (0 : Nat) < 18446744073709551615 ∧
      to_ssize_t 18446744073709551615 = -1 ∧
      single_loop_guard_64 18446744073709551615 0 = some (true, 1) ∧
      single_loop_64 18446744073709551615 0 = some [18446744073709551615] ∧
      (0 : Nat) ≤ 9223372036854775808 ∧
      single_loop_guard_64 0 9223372036854775808 = some (false, 1) ∧
      single_loop_64 0 9223372036854775808 = none ∧
      single_loop_guard_64 1 9223372036854775808 = none := by
  refine ⟨by decide, by decide, by decide, by decide, by decide, by decide, by decide,
    by decide⟩

end ForConstexpr

namespace ForConstexpr

end ForConstexpr

namespace ForConstexpr

end ForConstexpr

namespace ForConstexpr

theorem mem_symm_lower_exclusive (n : Nat) (t : List Nat) :
    t ∈ (for_constexpr (.for_bounds 0 n) [.for_symm_lower 0 0 0]).calls ↔
      ∃ i j, t = [i, j] ∧ j < i ∧ i < n := by
  rw [symm_lower_exclusive_eq]
  simp only [List.mem_flatMap, List.mem_range, List.mem_map]
  constructor
  · rintro ⟨i, hi, j, hj, rfl⟩; exact ⟨i, j, rfl, hj, hi⟩
  · rintro ⟨i, j, rfl, hj, hi⟩; exact ⟨i, hi, j, hj, rfl⟩

theorem mem_symm_upper (n : Nat) (t : List Nat) :
    t ∈ (for_constexpr (.for_bounds 0 n) [.for_symm_upper 0 n]).calls ↔
      ∃ i j, t = [i, j] ∧ i ≤ j ∧ j < n := by
  rw [(symm_upper_eq n).2]
  simp only [List.mem_flatMap, List.mem_range, List.mem_map]
  constructor
  · rintro ⟨i, hi, k, hk, rfl⟩; exact ⟨i, k + i, rfl, by omega, by omega⟩
  · rintro ⟨i, j, rfl, hij, hj⟩; exact ⟨i, by omega, j - i, by omega, by simp; omega⟩

/-- The two-level configuration `for_bounds<0, n>, for_bounds<0, n>`. -/
theorem square_eq (n : Nat) :
    for_constexpr (.for_bounds 0 n) [.for_bounds 0 n] =
      ⟨[], (List.range n).flatMap fun i => (List.range n).map fun j => [i, j]⟩ := by
  rw [for_constexpr_cons 0 n _ _ (Nat.zero_le n)]
  have hc : for_constexpr_impl 0 (.for_bounds 0 n) [] (n - 0) [] =
      for_constexpr_impl_second_last 0 (.for_bounds 0 n) (n - 0) [] := rfl
  rw [hc, second_last_for_bounds 0 0 n (n - 0) [] (Nat.zero_le n)]
  simp only [pack, base_calls, base_diags, List.nil_append, Nat.sub_zero, Nat.add_zero,
    List.singleton_append]
  congr 1
  simp

theorem mem_square (n : Nat) (t : List Nat) :
    t ∈ (for_constexpr (.for_bounds 0 n) [.for_bounds 0 n]).calls ↔
      ∃ i j, t = [i, j] ∧ i < n ∧ j < n := by
  rw [square_eq]
  simp only [List.mem_flatMap, List.mem_range, List.mem_map]
  constructor
  · rintro ⟨i, hi, j, hj, rfl⟩; exact ⟨i, j, rfl, hi, hj⟩
  · rintro ⟨i, j, rfl, hi, hj⟩; exact ⟨i, hi, j, hj, rfl⟩

theorem calls_nodup (bounds0 : Bounds) (more : List Bounds) :
    (for_constexpr bounds0 more).calls.Nodup :=
  (for_constexpr_ascending _ _).2.imp (fun hab => ne_of_lt hab)

theorem flatMap_length_const {β : Type} (f : Nat → List β) (c : Nat)
    (h : ∀ i, (f i).length = c) (n : Nat) : ((List.range n).flatMap f).length = n * c := by
  induction n with
  | zero => simp
  | succ k ih =>
    rw [flatMap_range_succ_length, ih, h]
    ring

/-- The embedding in the integers, which is the arithmetic of the source below
`2^63`.  For every `n` the three configurations `for_bounds<0, n>, for_symm_lower<0, 0>`,
`for_bounds<0, n>, for_symm_upper<0, n>` and `for_bounds<0, n>, for_bounds<0, n>` are
accepted; no pair is visited by both symmetric loops; a pair is visited by the plain double
loop exactly when one of the two symmetric loops visits it; the invocations of the two
symmetric loops together are a rearrangement of those of the plain double loop, each pair
once, `n * n` in all. -/
theorem symmetric_loops_partition_grid (n : Nat) :
    accepted (.for_bounds 0 n) [.for_symm_lower 0 0 0] ∧
      accepted (.for_bounds 0 n) [.for_symm_upper 0 n] ∧
      accepted (.for_bounds 0 n) [.for_bounds 0 n] ∧
      (∀ t, t ∈ (for_constexpr (.for_bounds 0 n) [.for_symm_lower 0 0 0]).calls →
        t ∉ (for_constexpr (.for_bounds 0 n) [.for_symm_upper 0 n]).calls) ∧
      (∀ t, t ∈ (for_constexpr (.for_bounds 0 n) [.for_bounds 0 n]).calls ↔
        (t ∈ (for_constexpr (.for_bounds 0 n) [.for_symm_lower 0 0 0]).calls ∨
          t ∈ (for_constexpr (.for_bounds 0 n) [.for_symm_upper 0 n]).calls)) ∧
      ((for_constexpr (.for_bounds 0 n) [.for_symm_lower 0 0 0]).calls ++
          (for_constexpr (.for_bounds 0 n) [.for_symm_upper 0 n]).calls).Perm
        (for_constexpr (.for_bounds 0 n) [.for_bounds 0 n]).calls ∧
      (for_constexpr (.for_bounds 0 n) [.for_symm_lower 0 0 0]).calls.length +
          (for_constexpr (.for_bounds 0 n) [.for_symm_upper 0 n]).calls.length = n * n ∧
      (for_constexpr (.for_bounds 0 n) [.for_bounds 0 n]).calls.length = n * n := by
  have hdis : ∀ t, t ∈ (for_constexpr (.for_bounds 0 n) [.for_symm_lower 0 0 0]).calls →
      t ∉ (for_constexpr (.for_bounds 0 n) [.for_symm_upper 0 n]).calls := by
    intro t hl hu
    obtain ⟨i, j, rfl, hji, -⟩ := (mem_symm_lower_exclusive n t).1 hl
    obtain ⟨i2, j2, he, hij, -⟩ := (mem_symm_upper n _).1 hu
    simp only [List.cons.injEq, and_true] at he
    omega
  have hun : ∀ t, t ∈ (for_constexpr (.for_bounds 0 n) [.for_bounds 0 n]).calls ↔
      (t ∈ (for_constexpr (.for_bounds 0 n) [.for_symm_lower 0 0 0]).calls ∨
        t ∈ (for_constexpr (.for_bounds 0 n) [.for_symm_upper 0 n]).calls) := by
    intro t
    rw [mem_square, mem_symm_lower_exclusive, mem_symm_upper]
    constructor
    · rintro ⟨i, j, rfl, hi, hj⟩
      by_cases h : j < i
      · exact Or.inl ⟨i, j, rfl, h, hi⟩
      · exact Or.inr ⟨i, j, rfl, by omega, hj⟩
    · rintro (⟨i, j, rfl, hji, hi⟩ | ⟨i, j, rfl, hij, hj⟩)
      · exact ⟨i, j, rfl, hi, by omega⟩
      · exact ⟨i, j, rfl, by omega, hj⟩
  have hperm : ((for_constexpr (.for_bounds 0 n) [.for_symm_lower 0 0 0]).calls ++
      (for_constexpr (.for_bounds 0 n) [.for_symm_upper 0 n]).calls).Perm
        (for_constexpr (.for_bounds 0 n) [.for_bounds 0 n]).calls := by
    refine (List.perm_ext_iff_of_nodup ?_ (calls_nodup _ _)).2 fun t => ?_
    · exact List.Nodup.append (calls_nodup _ _) (calls_nodup _ _) (fun t hl hu => hdis t hl hu)
    · rw [List.mem_append, hun]
  have hlen : (for_constexpr (.for_bounds 0 n) [.for_bounds 0 n]).calls.length = n * n := by
    rw [square_eq]
    exact flatMap_length_const _ n (fun i => by simp) n
  refine ⟨?_, (symm_upper_eq n).1, ?_, hdis, hun, hperm, ?_, hlen⟩
  · unfold accepted; rw [symm_lower_exclusive_eq]
  · unfold accepted; rw [square_eq]
  · rw [← List.length_append, hperm.length_eq, hlen]

end ForConstexpr

namespace ForConstexpr

/-- Claim C31: a configuration whose level 0 is not a `for_bounds`, so a `for_symm_upper` or
a `for_symm_lower`, is rejected whatever descriptors follow, none or some: the lookup of
`Bounds0::lower` and `Bounds0::upper` fails, this is the only diagnostic, and the callback
is never invoked. -/
theorem symmetric_level_zero_rejected (bounds0 : Bounds) (more : List Bounds)
    (h : ∀ l u, bounds0 ≠ .for_bounds l u) :
    ¬ accepted bounds0 more ∧ run bounds0 more = none ∧
      for_constexpr bounds0 more = ⟨[.no_bounds_member], []⟩ ∧
      ¬ accepted bounds0 [] ∧ run bounds0 [] = none ∧
      ((∃ index upper, bounds0 = .for_symm_upper index upper) ∨
        ∃ index lower offset, bounds0 = .for_symm_lower index lower offset) := by
  have key : ∀ m : List Bounds, for_constexpr bounds0 m = ⟨[.no_bounds_member], []⟩ ∧
      ¬ accepted bounds0 m ∧ run bounds0 m = none := by
    intro m
    cases bounds0 with
    | for_bounds l u => exact absurd rfl (h l u)
    | for_symm_lower index lower offset =>
      exact ⟨rfl, by simp [accepted, for_constexpr], by simp [run, for_constexpr]⟩
    | for_symm_upper index upper =>
      exact ⟨rfl, by simp [accepted, for_constexpr], by simp [run, for_constexpr]⟩
  refine ⟨(key more).2.1, (key more).2.2, (key more).1, (key []).2.1, (key []).2.2, ?_⟩
  cases bounds0 with
  | for_bounds l u => exact absurd rfl (h l u)
  | for_symm_lower index lower offset => exact Or.inr ⟨_, _, _, rfl⟩
  | for_symm_upper index upper => exact Or.inl ⟨_, _, rfl⟩

/-- The claim at `for_constexpr<for_symm_upper<0, 3>, for_bounds<0, 3>>`. -/
theorem symmetric_level_zero_rejected_witness :
    (∀ l u, Bounds.for_symm_upper 0 3 ≠ .for_bounds l u) ∧
      (¬ accepted (.for_symm_upper 0 3) [.for_bounds 0 3] ∧
        run (.for_symm_upper 0 3) [.for_bounds 0 3] = none ∧
        for_constexpr (.for_symm_upper 0 3) [.for_bounds 0 3] = ⟨[.no_bounds_member], []⟩ ∧
        ¬ accepted (.for_symm_upper 0 3) [] ∧ run (.for_symm_upper 0 3) [] = none ∧
        ((∃ index upper, Bounds.for_symm_upper 0 3 = .for_symm_upper index upper) ∨
          ∃ index lower offset,
            Bounds.for_symm_upper 0 3 = .for_symm_lower index lower offset)) :=
  ⟨(fun _ _ h => by cases h),
    symmetric_level_zero_rejected (.for_symm_upper 0 3) [.for_bounds 0 3]
      (fun _ _ h => by cases h)⟩

/-- Only a `for_bounds` with `lower ≤ upper` is accepted at level 0. -/
theorem level_zero_of_accepted (bounds0 : Bounds) (more : List Bounds)
    (h : accepted bounds0 more) : ∃ l u, bounds0 = .for_bounds l u ∧ l ≤ u := by
  cases bounds0 with
  | for_bounds l u =>
    refine ⟨l, u, rfl, ?_⟩
    unfold accepted at h
    simp only [for_constexpr, append_diags, static_assert_diags, List.append_eq_nil] at h
    by_contra hlt
    have : ¬ ((u : Int) - (l : Int) ≥ 0) := by omega
    simp [this] at h
  | for_symm_lower index lower offset => simp [accepted, for_constexpr] at h
  | for_symm_upper index upper => simp [accepted, for_constexpr] at h

end ForConstexpr

namespace ForConstexpr

/-- A tuple within the bounds lies in the range of every level, the range being taken at
the indices of the tuple above that level. -/
theorem within_level (bs : List Bounds) :
    ∀ (outer t : List Nat), within bs outer t → ∀ (k : Nat) (b : Bounds), bs.get? k = some b →
      ∃ lo hi i, b.range (outer ++ t.take k) = some (lo, hi) ∧ t.get? k = some i ∧
        lo ≤ (i : Int) ∧ (i : Int) < hi := by
  induction bs with
  | nil =>
    intro outer t _ k b hb
    cases hb
  | cons b0 bs ih =>
    intro outer t hw k b hb
    cases t with
    | nil => exact absurd hw (by simp [within])
    | cons i t =>
      obtain ⟨⟨lo, hi, hr, h1, h2⟩, hrest⟩ := hw
      cases k with
      | zero =>
        simp only [List.get?_cons_zero, Option.some.injEq] at hb
        subst hb
        exact ⟨lo, hi, i, by simpa using hr, rfl, h1, h2⟩
      | succ k =>
        simp only [List.get?_cons_succ] at hb
        obtain ⟨lo2, hi2, i2, hr2, hi2eq, h3, h4⟩ := ih (outer ++ [i]) t hrest k b hb
        refine ⟨lo2, hi2, i2, ?_, by simpa using hi2eq, h3, h4⟩
        simpa using hr2

/-- In an accepted configuration whose descriptors are all passed on, no invocation goes
through a range of width zero. -/
theorem no_call_through_zero_width (l0 u0 : Nat) (more : List Bounds)
    (hfw : forwards_all more) (hacc : accepted (.for_bounds l0 u0) more) (t : List Nat)
    (ht : t ∈ (for_constexpr (.for_bounds l0 u0) more).calls) (k : Nat) (b : Bounds)
    (hb : (Bounds.for_bounds l0 u0 :: more).get? k = some b) (lo : Int) :
    b.range (t.take k) ≠ some (lo, lo) := by
  intro hz
  have hw := ((calls_iff_within l0 u0 more hfw hacc).2 t).1 ht
  obtain ⟨lo2, hi2, i, hr, -, h1, h2⟩ := within_level _ [] t hw k b hb
  rw [List.nil_append, hz] at hr
  simp only [Option.some.injEq, Prod.mk.injEq] at hr
  omega

theorem mem_two_level_calls (l0 u0 : Nat) (b : Bounds)
    (hacc : accepted (.for_bounds l0 u0) [b]) (i j : Nat) :
    [i, j] ∈ (for_constexpr (.for_bounds l0 u0) [b]).calls ↔
      l0 ≤ i ∧ i < u0 ∧ ∃ lo hi, b.range [i] = some (lo, hi) ∧ lo ≤ (j : Int) ∧ (j : Int) < hi := by
  rw [(calls_iff_within l0 u0 [b] (forwards_all_tail [b] (by simp)) hacc).2]
  simp only [within, Bounds.range, Option.some.injEq, Prod.mk.injEq, List.nil_append,
    and_true]
  constructor
  · rintro ⟨⟨lo, hi, ⟨rfl, rfl⟩, h1, h2⟩, h⟩
    exact ⟨by omega, by omega, h⟩
  · rintro ⟨h1, h2, h⟩
    exact ⟨⟨_, _, ⟨rfl, rfl⟩, by omega, by omega⟩, h⟩

end ForConstexpr

namespace ForConstexpr

theorem expansion_ext (e : Expansion) (d : List Diag) (c : List (List Nat))
    (hd : e.diags = d) (hc : e.calls = c) : e = ⟨d, c⟩ := by
  cases e
  simp only at hd hc
  rw [hd, hc]

/-- A plain range of width zero at level 0 or at level 1. -/
theorem zero_width_for_bounds (L U c : Nat) (hle : L ≤ U) :
    for_constexpr (.for_bounds L L) [] = ⟨[], []⟩ ∧
      for_constexpr (.for_bounds L U) [.for_bounds c c] = ⟨[], []⟩ := by
  constructor
  · rw [for_constexpr_single L L le_rfl]
    exact expansion_ext _ _ _ (base_diags _ _ _) (by rw [base_calls]; simp)
  · rw [for_constexpr_cons L U _ _ hle]
    have hc : for_constexpr_impl L (.for_bounds c c) [] (U - L) [] =
        for_constexpr_impl_second_last L (.for_bounds c c) (U - L) [] := rfl
    rw [hc, second_last_for_bounds L c c (U - L) [] le_rfl]
    refine expansion_ext _ _ _ ?_ ?_
    · simp [pack, base_diags]
    · simp [pack, base_calls]

/-- The embedding in the integers, which is the arithmetic of the source below
`2^63`.  A range of width zero is accepted and contributes no invocation, and the
other outer indices are expanded as usual.  For a two-level configuration whose level 1 has
a well-formed range (`lower ≤ upper`, equality included) for every index of level 0: the
configuration is accepted; no invocation starts with an index `i` for which the range of
level 1 has width zero; the pairs `(i, j)` visited are exactly those with `i` in the range
of level 0 and `j` in the range of level 1 at `i`.  A `for_bounds<L, L>` alone, and a
`for_bounds<c, c>` at level 1, are accepted with no invocation.  For
`for_bounds<0, n>, for_symm_lower<0, 0>` the range at `i = 0` is `[0, 0)`, no pair starts
with 0, and every `(i, j)` with `j < i < n` is visited.  At any depth, in an accepted
configuration whose descriptors are all passed on, no invocation goes through a range of
width zero. -/
theorem zero_width_range_accepted (L U : Nat) (b : Bounds) (hle : L ≤ U)
    (hplain : ∀ l u, Bounds.for_bounds l u = b → l ≤ u)
    (hg : ∀ i, L ≤ i → i < U → ∃ lo hi, b.range [i] = some (lo, hi) ∧ lo ≤ hi) :
    accepted (.for_bounds L U) [b] ∧
      (∀ (i : Nat) (lo : Int), b.range [i] = some (lo, lo) →
        ∀ t ∈ (for_constexpr (.for_bounds L U) [b]).calls, t.take 1 ≠ [i]) ∧
      (∀ i j, [i, j] ∈ (for_constexpr (.for_bounds L U) [b]).calls ↔
        L ≤ i ∧ i < U ∧
          ∃ lo hi, b.range [i] = some (lo, hi) ∧ lo ≤ (j : Int) ∧ (j : Int) < hi) ∧
      (∀ c, for_constexpr (.for_bounds L L) [] = ⟨[], []⟩ ∧
        for_constexpr (.for_bounds L U) [.for_bounds c c] = ⟨[], []⟩) ∧
      (∀ n, accepted (.for_bounds 0 n) [.for_symm_lower 0 0 0] ∧
        (Bounds.for_symm_lower 0 0 0).range [0] = some (0, 0) ∧
        (∀ t ∈ (for_constexpr (.for_bounds 0 n) [.for_symm_lower 0 0 0]).calls,
          t.take 1 ≠ [0]) ∧
        ∀ i j, j < i → i < n →
          [i, j] ∈ (for_constexpr (.for_bounds 0 n) [.for_symm_lower 0 0 0]).calls) ∧
      (∀ (l0 u0 : Nat) (more : List Bounds), forwards_all more →
        accepted (.for_bounds l0 u0) more →
        ∀ t ∈ (for_constexpr (.for_bounds l0 u0) more).calls,
          ∀ (k : Nat) (d : Bounds) (lo : Int),
            (Bounds.for_bounds l0 u0 :: more).get? k = some d →
              d.range (t.take k) ≠ some (lo, lo)) := by
  have hacc : accepted (.for_bounds L U) [b] := accepted_two_level L U b hle hplain hg
  refine ⟨hacc, ?_, mem_two_level_calls L U b hacc, fun c => zero_width_for_bounds L U c hle,
    fun n => ?_, ?_⟩
  · intro i lo hz t ht htk
    refine no_call_through_zero_width L U [b] (forwards_all_tail [b] (by simp)) hacc t ht 1 b
      rfl lo ?_
    rw [htk]; exact hz
  · have hn : accepted (.for_bounds 0 n) [.for_symm_lower 0 0 0] := by
      unfold accepted; rw [symm_lower_exclusive_eq]
    refine ⟨hn, by simp [Bounds.range], ?_, ?_⟩
    · intro t ht htk
      obtain ⟨i, j, rfl, hji, -⟩ := (mem_symm_lower_exclusive n t).1 ht
      simp only [List.take_succ_cons, List.take_zero, List.cons.injEq, and_true] at htk
      omega
    · intro i j hji hi
      exact (mem_symm_lower_exclusive n _).2 ⟨i, j, rfl, hji, hi⟩
  · intro l0 u0 more hfw ha t ht k d lo hd
    exact no_call_through_zero_width l0 u0 more hfw ha t ht k d hd lo

/-- The theorem at `for_bounds<0, 3>, for_symm_lower<0, 0>`, whose range at `i = 0` has width
zero. -/
theorem zero_width_range_accepted_witness :
    (0 : Nat) ≤ 3 ∧
      (∀ l u, Bounds.for_bounds l u = Bounds.for_symm_lower 0 0 0 → l ≤ u) ∧
      (∀ i : Nat, 0 ≤ i → i < 3 →
        ∃ lo hi, (Bounds.for_symm_lower 0 0 0).range [i] = some (lo, hi) ∧ lo ≤ hi) ∧
      accepted (.for_bounds 0 3) [.for_symm_lower 0 0 0] ∧
      (∀ t ∈ (for_constexpr (.for_bounds 0 3) [.for_symm_lower 0 0 0]).calls,
        t.take 1 ≠ [0]) ∧
      (for_constexpr (.for_bounds 0 3) [.for_symm_lower 0 0 0]).calls =
        [[1, 0], [2, 0], [2, 1]] :=
  ⟨by decide, (fun _ _ h => by cases h),
    (fun i _ _ => ⟨0, (i : Int), by simp [Bounds.range], by omega⟩),
    (zero_width_range_accepted 0 3 (.for_symm_lower 0 0 0) (by decide)
      (fun _ _ h => by cases h)
      (fun i _ _ => ⟨0, (i : Int), by simp [Bounds.range], by omega⟩)).1,
    (zero_width_range_accepted 0 3 (.for_symm_lower 0 0 0) (by decide)
      (fun _ _ h => by cases h)
      (fun i _ _ => ⟨0, (i : Int), by simp [Bounds.range], by omega⟩)).2.1 0 0
      (by simp [Bounds.range]),
    by decide⟩

end ForConstexpr

namespace ForConstexpr

theorem values_pass_on_nil (i : Nat) : values (pass_on [] i) = some [i] := rfl

/-- Once an index has been passed on twice its deduced type is a reference, and the pack
`IntegralConstants::value...` is ill formed. -/
theorem values_pass_on_cons (c : Deduced) (cs : List Deduced) (i : Nat) :
    values (pass_on (c :: cs) i) = none := by
  simp [pass_on, values, Deduced.value]

theorem map_constant_pass_on (v : List Deduced) (i : Nat) :
    (pass_on v i).map Deduced.constant = v.map Deduced.constant ++ [i] := by
  simp only [pass_on, List.map_append, List.map_map, List.map_cons, List.map_nil]
  congr 1

theorem map_constant_of_values : ∀ (v : List Deduced) (tuple : List Nat),
    values v = some tuple → v.map Deduced.constant = tuple := by
  intro v
  induction v with
  | nil =>
    intro tuple h
    simp only [values, Option.some.injEq] at h
    simp [← h]
  | cons c cs ih =>
    intro tuple h
    cases c with
    | lvalue_reference x => simp [values, Deduced.value] at h
    | class_type x =>
      cases hcs : values cs with
      | none => simp [values, Deduced.value, hcs] at h
      | some xs =>
        simp only [values, Deduced.value, hcs, Option.some.injEq] at h
        subst h
        simp [Deduced.constant, ih xs hcs]

/-- Where every `IntegralConstants::value` is well formed the overloads evaluate what the
value-only embedding evaluates. -/
theorem resolve_deduced_of_values (next : Bounds) (v : List Deduced) (tuple : List Nat)
    (i : Nat) (h : values v = some tuple) :
    next.resolve_deduced v i =
      match next.resolve (tuple ++ [i]) with
      | none => .error (.diag .tuple_index)
      | some x => .ok x := by
  cases next with
  | for_bounds nl nu => rfl
  | for_symm_upper index nu => simp only [Bounds.resolve_deduced, h]
  | for_symm_lower index nl off => simp only [Bounds.resolve_deduced, h]

theorem guard_deduced_of_values (next : Bounds) (lower size : Nat) (v : List Deduced)
    (tuple : List Nat) (h : values v = some tuple) :
    next.guard_deduced lower size v = next.guard lower size tuple := by
  cases next with
  | for_bounds nl nu => rfl
  | for_symm_upper index nu =>
    simp only [Bounds.guard_deduced, Bounds.guard]
    congr 1; funext is
    rw [resolve_deduced_of_values _ v tuple _ h]
    cases (Bounds.for_symm_upper index nu).resolve (tuple ++ [is + lower]) <;> rfl
  | for_symm_lower index nl off =>
    simp only [Bounds.guard_deduced, Bounds.guard]
    congr 1; funext is
    rw [resolve_deduced_of_values _ v tuple _ h]
    cases (Bounds.for_symm_lower index nl off).resolve (tuple ++ [is + lower]) <;> rfl

theorem deduced_base_eq_lift (lower size : Nat) (v : List Deduced) :
    deduced_base lower size v =
      (for_constexpr_impl_base lower size (v.map Deduced.constant)).lift := by
  simp [deduced_base, Expansion.lift, base_calls, base_diags]

theorem deduced_level_eq_lift (lower : Nat) (next : Bounds) (size : Nat) (v : List Deduced)
    (tuple : List Nat) (contD : Nat → Nat → List Deduced → DeducedExpansion)
    (cont : Nat → Nat → List Nat → Expansion) (h : values v = some tuple)
    (hc : ∀ is lo sz, contD lo sz (pass_on v (is + lower)) =
      (cont lo sz (tuple ++ [is + lower])).lift) :
    deduced_level lower next size v contD = (level lower next size tuple cont).lift := by
  simp only [deduced_level, Expansion.lift, level_diags, level_calls,
    guard_deduced_of_values next lower size v tuple h, List.map_append, List.map_flatMap,
    DeducedExpansion.mk.injEq]
  refine ⟨?_, ?_⟩
  · congr 1
    · split <;> rfl
    · congr 1; funext is
      rw [resolve_deduced_of_values next v tuple _ h]
      cases next.resolve (tuple ++ [is + lower]) with
      | none => rfl
      | some x =>
        obtain ⟨d, lo, sz⟩ := x
        simp only [hc, Expansion.lift]
  · congr 1; funext is
    rw [resolve_deduced_of_values next v tuple _ h]
    cases next.resolve (tuple ++ [is + lower]) with
    | none => rfl
    | some x =>
      obtain ⟨d, lo, sz⟩ := x
      simp only [hc, Expansion.lift]

end ForConstexpr

namespace ForConstexpr

/-- The "second last loop" overloads with a pack whose `IntegralConstants::value...` is
well formed. -/
theorem deduced_second_last_eq_lift (lower : Nat) (next : Bounds) (size : Nat)
    (v : List Deduced) (tuple : List Nat) (h : values v = some tuple) :
    deduced_level lower next size v deduced_base =
      (for_constexpr_impl_second_last lower next size tuple).lift := by
  rw [second_last_eq_level]
  refine deduced_level_eq_lift lower next size v tuple _ _ h fun is lo sz => ?_
  rw [deduced_base_eq_lift, map_constant_pass_on, map_constant_of_values v tuple h]

/-- The "more than two loops" overloads called by `for_constexpr` for three levels. -/
theorem deduced_impl_one_eq_lift (lower : Nat) (b1 b2 : Bounds) (size : Nat) :
    deduced_impl lower b1 [b2] size [] = (for_constexpr_impl lower b1 [b2] size []).lift := by
  rw [impl_cons_eq_level]
  have hf : b1.forwarded [b2] = [b2] := by cases b1 <;> rfl
  have hc : ∀ is lo sz, deduced_level lo b2 sz (pass_on [] (is + lower)) deduced_base =
      (expand lo (b1.forwarded [b2]) sz ([] ++ [is + lower])).lift := by
    intro is lo sz
    rw [hf]
    exact deduced_second_last_eq_lift lo b2 sz _ _ (values_pass_on_nil _)
  have key := deduced_level_eq_lift lower b1 size [] []
    (fun lo sz w => deduced_level lo b2 sz w deduced_base)
    (fun lo sz w => expand lo (b1.forwarded [b2]) sz w) rfl hc
  rw [← key]
  cases b1 <;> rfl

/-- Up to three levels the deduced types make no difference: every pack
`IntegralConstants::value...` that is read is well formed, and the instantiation is the one
of the value-only embedding. -/
theorem deduced_three_levels (bounds0 b1 b2 : Bounds) :
    for_constexpr_deduced bounds0 [] = (for_constexpr bounds0 []).lift ∧
      for_constexpr_deduced bounds0 [b1] = (for_constexpr bounds0 [b1]).lift ∧
      for_constexpr_deduced bounds0 [b1, b2] = (for_constexpr bounds0 [b1, b2]).lift := by
  cases bounds0 with
  | for_bounds l u =>
    refine ⟨?_, ?_, ?_⟩
    · simp only [for_constexpr_deduced, for_constexpr, Expansion.lift, append_diags,
        append_calls, static_assert_diags, static_assert_calls, deduced_base_eq_lift,
        base_diags, List.map_nil, List.nil_append, List.append_nil, List.map_append]
      congr 1
      split <;> rfl
    · have h := deduced_second_last_eq_lift l b1
        (index_sequence_size ((u : Int) - (l : Int)) (u - l)) [] [] rfl
      simp only [for_constexpr_deduced, for_constexpr, deduced_impl, for_constexpr_impl, h,
        Expansion.lift, append_diags, append_calls, static_assert_diags, static_assert_calls,
        List.nil_append, List.map_append]
      congr 2
      split <;> rfl
    · have h := deduced_impl_one_eq_lift l b1 b2
        (index_sequence_size ((u : Int) - (l : Int)) (u - l))
      simp only [for_constexpr_deduced, for_constexpr, h,
        Expansion.lift, append_diags, append_calls, static_assert_diags, static_assert_calls,
        List.nil_append, List.map_append]
      congr 2
      split <;> rfl
  | for_symm_lower index lower offset => exact ⟨rfl, rfl, rfl⟩
  | for_symm_upper index upper => exact ⟨rfl, rfl, rfl⟩

end ForConstexpr

namespace ForConstexpr

/-- A symmetric descriptor cannot read a pack that has been passed on twice: its first
element is a reference. -/
theorem resolve_deduced_reference (next : Bounds) (h : ∀ l u, next ≠ .for_bounds l u)
    (c : Deduced) (cs : List Deduced) (i j : Nat) :
    next.resolve_deduced (pass_on (c :: cs) i) j = .error .member_of_reference := by
  cases next with
  | for_bounds l u => exact absurd rfl (h l u)
  | for_symm_upper index nu => simp only [Bounds.resolve_deduced, values_pass_on_cons]
  | for_symm_lower index nl off => simp only [Bounds.resolve_deduced, values_pass_on_cons]

theorem mem_deduced_level_diags_of_error (lower : Nat) (next : Bounds) (size : Nat)
    (v : List Deduced) (cont : Nat → Nat → List Deduced → DeducedExpansion) (is : Nat)
    (e : DeducedDiag) (his : is < size) (hr : next.resolve_deduced v (is + lower) = .error e) :
    e ∈ (deduced_level lower next size v cont).diags := by
  simp only [deduced_level]
  refine List.mem_append_right _ (List.mem_flatMap.2 ⟨is, List.mem_range.2 his, ?_⟩)
  rw [hr]
  exact List.mem_singleton.2 rfl

theorem mem_deduced_level_diags_of_cont (lower : Nat) (next : Bounds) (size : Nat)
    (v : List Deduced) (cont : Nat → Nat → List Deduced → DeducedExpansion) (is : Nat)
    (e : DeducedDiag) (d : Int) (lo sz : Nat) (his : is < size)
    (hr : next.resolve_deduced v (is + lower) = .ok (d, lo, sz))
    (he : e ∈ (cont lo sz (pass_on v (is + lower))).diags) :
    e ∈ (deduced_level lower next size v cont).diags := by
  simp only [deduced_level]
  refine List.mem_append_right _ (List.mem_flatMap.2 ⟨is, List.mem_range.2 his, ?_⟩)
  rw [hr]
  exact he

/-- The overload of a symmetric descriptor, instantiated with at least one `Is` and a pack
that has been passed on twice, is ill formed. -/
theorem deduced_impl_reference (next : Bounds) (h : ∀ l u, next ≠ .for_bounds l u)
    (rest : List Bounds) (lower size : Nat) (hs : 0 < size) (c : Deduced) (cs : List Deduced)
    (i : Nat) :
    DeducedDiag.member_of_reference ∈
      (deduced_impl lower next rest size (pass_on (c :: cs) i)).diags := by
  have hr := resolve_deduced_reference next h c cs i (0 + lower)
  cases rest with
  | nil =>
    simp only [deduced_impl]
    exact mem_deduced_level_diags_of_error _ _ _ _ _ 0 _ hs hr
  | cons b1 rest =>
    cases next with
    | for_bounds l u => exact absurd rfl (h l u)
    | for_symm_upper index nu =>
      simp only [deduced_impl]
      exact mem_deduced_level_diags_of_error _ _ _ _ _ 0 _ hs hr
    | for_symm_lower index nl off =>
      simp only [deduced_impl]
      exact mem_deduced_level_diags_of_error _ _ _ _ _ 0 _ hs hr

/-- Below three plain levels with non-empty ranges a symmetric descriptor does not
compile, whatever level it refers to. -/
theorem symmetric_level_three_rejected (l0 u0 l1 u1 l2 u2 : Nat) (next : Bounds)
    (rest : List Bounds) (h0 : l0 < u0) (h1 : l1 < u1) (h2 : l2 < u2)
    (h : ∀ l u, next ≠ .for_bounds l u) :
    DeducedDiag.member_of_reference ∈
      (for_constexpr_deduced (.for_bounds l0 u0)
        (.for_bounds l1 u1 :: .for_bounds l2 u2 :: next :: rest)).diags := by
  simp only [for_constexpr_deduced]
  refine List.mem_append_right _ ?_
  rw [index_sequence_size_of_le (Nat.le_of_lt h0)]
  simp only [deduced_impl]
  refine mem_deduced_level_diags_of_cont _ _ _ _ _ 0 _ ((u1 : Int) - (l1 : Int)) l1 (u1 - l1)
    (by omega) ?_ ?_
  · simp only [Bounds.resolve_deduced, index_sequence_size_of_le (Nat.le_of_lt h1)]
  refine mem_deduced_level_diags_of_cont _ _ _ _ _ 0 _ ((u2 : Int) - (l2 : Int)) l2 (u2 - l2)
    (by omega) ?_ ?_
  · simp only [Bounds.resolve_deduced, index_sequence_size_of_le (Nat.le_of_lt h2)]
  exact deduced_impl_reference next h rest l2 (u2 - l2) (by omega) _ _ _

end ForConstexpr

namespace ForConstexpr

/-- A descriptor that cannot resolve its reference at a tuple enumerated by the levels above
it, all of them plain but possibly the last, is reported. -/
theorem tuple_index_reported_of_call (ranges : List (Nat × Nat)) :
    ∀ (lower size : Nat) (v t : List Nat) (last : Option Bounds) (next : Bounds)
      (rest : List Bounds),
      t ∈ (expand lower (plain ranges ++ last.toList) size v).calls →
      next.resolve t = none →
      Diag.tuple_index ∈
        (expand lower (plain ranges ++ last.toList ++ next :: rest) size v).diags := by
  have base : ∀ (lower size : Nat) (v t : List Nat) (next : Bounds) (rest : List Bounds),
      t ∈ (expand lower [] size v).calls → next.resolve t = none →
      Diag.tuple_index ∈ (expand lower (next :: rest) size v).diags := by
    intro lower size v t next rest ht hr
    obtain ⟨is, his, rfl⟩ := (mem_expand_nil_calls lower size v t).1 ht
    rw [expand_cons, level_diags]
    refine List.mem_append_right _ (List.mem_flatMap.2 ⟨is, List.mem_range.2 his, ?_⟩)
    rw [hr]
    exact List.mem_singleton.2 rfl
  induction ranges with
  | nil =>
    intro lower size v t last next rest ht hr
    cases last with
    | none => exact base lower size v t next rest ht hr
    | some bk1 =>
      simp only [plain, List.map_nil, List.nil_append, Option.toList, List.cons_append] at ht ⊢
      rw [expand_cons] at ht ⊢
      obtain ⟨is, d1, lo1, sz1, his, hr1, ht⟩ := (mem_level_calls _ _ _ _ _ _).1 ht
      rw [forwarded_nil] at ht
      obtain ⟨rest2, h2⟩ := forwarded_cons bk1 next rest
      refine level_diags_of_cont _ _ _ _ _ _ is d1 lo1 sz1 his hr1 ?_
      simp only [h2]
      exact base lo1 sz1 _ t next rest2 ht hr
  | cons r rs ih =>
    intro lower size v t last next rest ht hr
    simp only [plain, List.map_cons, List.cons_append] at ht ⊢
    rw [expand_plain_cons] at ht ⊢
    obtain ⟨is, d1, lo1, sz1, his, hr1, ht⟩ := (mem_level_calls _ _ _ _ _ _).1 ht
    exact level_diags_of_cont _ _ _ _ _ _ is d1 lo1 sz1 his hr1
      (ih _ _ _ t last next rest ht hr)

theorem resolve_none_of_out_of_range (next : Bounds) (h : ∀ l u, next ≠ .for_bounds l u)
    (t : List Nat) (hr : ¬ next.refers_below t.length) : next.resolve t = none := by
  cases next with
  | for_bounds l u => exact absurd rfl (h l u)
  | for_symm_upper index nu =>
    have hi : t.length ≤ index := Nat.le_of_not_lt hr
    simp [Bounds.resolve, std_get, List.getElem?_eq_none hi]
  | for_symm_lower index nl off =>
    have hi : t.length ≤ index := Nat.le_of_not_lt hr
    simp [Bounds.resolve, std_get, List.getElem?_eq_none hi]

/-- A symmetric descriptor at level `k` that refers to a level `r ≥ k` makes the
configuration be rejected when the levels above it, all of them plain but possibly the
last, enumerate at least one index tuple. -/
theorem out_of_range_reference_rejected (l0 u0 : Nat) (ranges : List (Nat × Nat))
    (last : Option Bounds) (next : Bounds) (rest : List Bounds) (t : List Nat)
    (h : ∀ l u, next ≠ .for_bounds l u)
    (ht : t ∈ (for_constexpr (.for_bounds l0 u0) (plain ranges ++ last.toList)).calls)
    (hr : ¬ next.refers_below t.length) :
    run (.for_bounds l0 u0) (plain ranges ++ last.toList ++ next :: rest) = none := by
  refine run_eq_none_of_mem_diags _ _ Diag.tuple_index ?_
  refine mem_for_constexpr_diags_of_expand l0 u0 _ _ ?_
  exact tuple_index_reported_of_call ranges l0 _ [] t last next rest
    (mem_expand_of_for_constexpr_calls l0 u0 _ t ht) (resolve_none_of_out_of_range next h t hr)

/-- Where the pack `IntegralConstants::value...` is well formed, a symmetric descriptor that
refers to a position of the tuple reads the index at that position: it is the lower bound of
a `for_symm_upper` and, with the offset added, the upper bound of a `for_symm_lower`. -/
theorem referenced_index_resolved (v : List Deduced) (tuple : List Nat) (i r x : Nat)
    (h : values v = some tuple) (hx : (tuple ++ [i]).get? r = some x) :
    (∀ nu, (Bounds.for_symm_upper r nu).resolve_deduced v i =
      .ok ((nu : Int) - (x : Int), x, index_sequence_size ((nu : Int) - (x : Int)) (nu - x))) ∧
    (∀ nl off, (Bounds.for_symm_lower r nl off).resolve_deduced v i =
      .ok ((x : Int) + off - (nl : Int), nl,
        index_sequence_size ((x : Int) + off - (nl : Int))
          ((x : Int) + off - (nl : Int)).toNat)) := by
  refine ⟨fun nu => ?_, fun nl off => ?_⟩
  · rw [resolve_deduced_of_values _ v tuple i h, resolve_symm_upper r nu _ x hx]
  · rw [resolve_deduced_of_values _ v tuple i h, resolve_symm_lower r nl off _ x hx]

end ForConstexpr

namespace ForConstexpr

/-- Claim C32: on the failing input
`for_constexpr<for_bounds<0, 1>, for_bounds<0, 1>, for_bounds<0, 1>, for_symm_upper<0, 1>>`
the descriptor at level 3 refers to level 0, yet the reference is not resolved: the
overload at level 3 receives the index of level 0 as an lvalue, its `IntegralConstants` is
deduced as a reference type, `IntegralConstants::value` is ill formed and the configuration
does not compile; the same holds with `for_symm_lower<0, 0, 1>` at level 3, and for every
symmetric descriptor whose overload receives a pack that was passed on twice.  In the other
direction `for_constexpr<for_bounds<0, 0>, for_symm_upper<5, 3>>` refers to a level that
does not exist and is accepted, the reference being resolved for no index. -/
theorem symmetric_level_three_ill_formed :
    for_constexpr_deduced (.for_bounds 0 1)
        [.for_bounds 0 1, .for_bounds 0 1, .for_symm_upper 0 1] =
      ⟨[.member_of_reference], []⟩ ∧
    for_constexpr_deduced (.for_bounds 0 1)
        [.for_bounds 0 1, .for_bounds 0 1, .for_symm_lower 0 0 1] =
      ⟨[.member_of_reference], []⟩ ∧
    pass_on (pass_on [] 0) 0 = [.lvalue_reference 0, .class_type 0] ∧
    values (pass_on (pass_on [] 0) 0) = none ∧
    (∀ (index nu : Nat) (c : Deduced) (cs : List Deduced) (i j : Nat),
      (Bounds.for_symm_upper index nu).resolve_deduced (pass_on (c :: cs) i) j =
        .error .member_of_reference) ∧
    (∀ (index nl : Nat) (off : Int) (c : Deduced) (cs : List Deduced) (i j : Nat),
      (Bounds.for_symm_lower index nl off).resolve_deduced (pass_on (c :: cs) i) j =
        .error .member_of_reference) ∧
    for_constexpr_deduced (.for_bounds 0 0) [.for_symm_upper 5 3] = ⟨[], []⟩ ∧
    accepted (.for_bounds 0 0) [.for_symm_upper 5 3] := by
  refine ⟨by decide, by decide, by decide, by decide, ?_, ?_, by decide, by decide⟩
  · intro index nu c cs i j
    exact resolve_deduced_reference _ (fun _ _ h => by cases h) c cs i j
  · intro index nl off c cs i j
    exact resolve_deduced_reference _ (fun _ _ h => by cases h) c cs i j

end ForConstexpr

namespace ForConstexpr

theorem mod_64_of_small (x : Nat) (h : x < 2 ^ 63) : x % 2 ^ 64 = x :=
  Nat.mod_eq_of_lt (by norm_num at h ⊢; omega)

theorem ssize_t_sub_small (a b : Nat) (ha : a < 2 ^ 63) (hb : b < 2 ^ 63) :
    ssize_t_sub (to_ssize_t a) (to_ssize_t b) = some ((a : Int) - (b : Int)) := by
  rw [to_ssize_t_small a ha, to_ssize_t_small b hb]
  unfold ssize_t_sub
  norm_num at ha hb ⊢
  omega

theorem size_t_sub_small (a b : Nat) (ha : a < 2 ^ 63) (hb : b < 2 ^ 63) (h : b ≤ a) :
    size_t_sub a b = a - b := by
  unfold size_t_sub
  norm_num at ha hb ⊢
  omega

theorem all_true_congr (size : Nat) (b c : Nat → Bool) (h : ∀ is, is < size → b is = c is) :
    all_true size b = all_true size c := by
  unfold all_true
  rw [Bool.eq_iff_iff]
  simp only [List.all_eq_true, List.mem_range]
  constructor
  · intro hb is his; rw [← h is his]; exact hb is his
  · intro hc is his; rw [h is his]; exact hc is his

/-- Below `2^63` the overloads evaluate in 64-bit arithmetic what the embedding in the
integers evaluates. -/
theorem resolve_64_of_fits (next : Bounds) (v : List Deduced) (tuple : List Nat) (i K : Nat)
    (hK : K ≤ 2 ^ 63) (hfit : next.fits K) (hent : ∀ x ∈ tuple ++ [i], x < K)
    (hv : (∀ l u, next ≠ .for_bounds l u) → values v = some tuple) :
    next.resolve_64 v i =
      match next.resolve (tuple ++ [i]) with
      | none => .error (.diag .tuple_index)
      | some x => .ok x := by
  cases next with
  | for_bounds nl nu =>
    obtain ⟨hl, hu⟩ := hfit
    simp only [Bounds.resolve_64, Bounds.resolve, ssize_t_sub_small nu nl hu hl,
      index_sequence_size]
    by_cases hd : (nu : Int) - (nl : Int) < 0
    · simp only [hd, if_true]
    · simp only [hd, if_false]
      rw [size_t_sub_small nu nl hu hl (by omega)]
  | for_symm_upper index nu =>
    have hu : nu < 2 ^ 63 := hfit
    have hvals := hv (fun _ _ h => by cases h)
    simp only [Bounds.resolve_64, Bounds.resolve, hvals]
    cases hr : std_get index (tuple ++ [i]) with
    | none => rfl
    | some r =>
      have hrK : r < K := hent r (List.get?_mem hr)
      have hr63 : r < 2 ^ 63 := lt_of_lt_of_le hrK hK
      simp only [ssize_t_sub_small nu r hu hr63, index_sequence_size]
      by_cases hd : (nu : Int) - (r : Int) < 0
      · simp only [hd, if_true]
      · simp only [hd, if_false]
        rw [size_t_sub_small nu r hu hr63 (by omega)]
  | for_symm_lower index nl off =>
    obtain ⟨hl, h1, h2⟩ := hfit
    have hvals := hv (fun _ _ h => by cases h)
    simp only [Bounds.resolve_64, Bounds.resolve, hvals]
    cases hr : std_get index (tuple ++ [i]) with
    | none => rfl
    | some r =>
      have hrK : r < K := hent r (List.get?_mem hr)
      have hr63 : r < 2 ^ 63 := lt_of_lt_of_le hrK hK
      have ha : ssize_t_add (to_ssize_t r) off = some ((r : Int) + off) := by
        rw [to_ssize_t_small r hr63]
        unfold ssize_t_add
        rw [if_pos]
        norm_num at hl hr63 h1 h2 ⊢
        omega
      have hs : ssize_t_sub ((r : Int) + off) (to_ssize_t nl) =
          some ((r : Int) + off - (nl : Int)) := by
        rw [to_ssize_t_small nl hl]
        unfold ssize_t_sub
        rw [if_pos]
        norm_num at hl hr63 h1 h2 ⊢
        omega
      simp only [ha, Option.some_bind, hs, index_sequence_size]

end ForConstexpr

namespace ForConstexpr

theorem le_limit (next : Bounds) (K : Nat) : K ≤ next.limit K := by
  cases next <;> simp [Bounds.limit]

/-- The index sequence that an overload passes on stays below the limit of its level. -/
theorem resolve_limit (next : Bounds) (tuple : List Nat) (K : Nat) (d : Int) (lo sz : Nat)
    (hent : ∀ x ∈ tuple, x < K)
    (hr : next.resolve tuple = some (d, lo, sz)) : lo + sz ≤ next.limit K := by
  cases next with
  | for_bounds nl nu =>
    simp only [Bounds.resolve, Option.some.injEq, Prod.mk.injEq] at hr
    obtain ⟨rfl, rfl, rfl⟩ := hr
    simp only [Bounds.limit, index_sequence_size]
    split <;> omega
  | for_symm_upper index nu =>
    simp only [Bounds.resolve] at hr
    cases hx : std_get index tuple with
    | none => rw [hx] at hr; cases hr
    | some r =>
      rw [hx] at hr
      simp only [Option.some.injEq, Prod.mk.injEq] at hr
      obtain ⟨rfl, rfl, rfl⟩ := hr
      have hrK : r < K := hent r (List.get?_mem hx)
      simp only [Bounds.limit, index_sequence_size]
      split <;> omega
  | for_symm_lower index nl off =>
    simp only [Bounds.resolve] at hr
    cases hx : std_get index tuple with
    | none => rw [hx] at hr; cases hr
    | some r =>
      rw [hx] at hr
      simp only [Option.some.injEq, Prod.mk.injEq] at hr
      obtain ⟨rfl, rfl, rfl⟩ := hr
      have hrK : r < K := hent r (List.get?_mem hx)
      simp only [Bounds.limit, index_sequence_size]
      split <;> omega

theorem expansion64_ext (e : Expansion64) (d : List Diag64) (c : List (List Nat))
    (hd : e.diags = d) (hc : e.calls = c) : e = ⟨d, c⟩ := by
  cases e
  simp only at hd hc
  rw [hd, hc]

/-- One overload: below `2^63`, and with a pack that is well formed where it is read, the
instantiation in 64-bit arithmetic is the one of the embedding in the integers. -/
theorem level_64_eq_lift (lower : Nat) (next : Bounds) (size : Nat) (v : List Deduced)
    (K : Nat) (contD : Nat → Nat → List Deduced → Expansion64)
    (cont : Nat → Nat → List Nat → Expansion) (hK : K ≤ 2 ^ 63) (hfit : next.fits K)
    (hent : ∀ x ∈ v.map Deduced.constant, x < K) (hsz : lower + size ≤ K)
    (hv : (∀ l u, next ≠ .for_bounds l u) → values v = some (v.map Deduced.constant))
    (hc : ∀ is d lo sz, is < size →
      next.resolve (v.map Deduced.constant ++ [is + lower]) = some (d, lo, sz) →
      contD lo sz (pass_on v (is + lower)) =
        (cont lo sz (v.map Deduced.constant ++ [is + lower])).lift_64) :
    level_64 lower next size v contD =
      (level lower next size (v.map Deduced.constant) cont).lift_64 := by
  have hmod : ∀ is, is < size → (is + lower) % 2 ^ 64 = is + lower := fun is his =>
    mod_64_of_small _ (lt_of_lt_of_le (by omega) hK)
  have hres : ∀ is, is < size → next.resolve_64 v ((is + lower) % 2 ^ 64) =
      match next.resolve (v.map Deduced.constant ++ [is + lower]) with
      | none => .error (.diag .tuple_index)
      | some x => .ok x := by
    intro is his
    rw [hmod is his]
    refine resolve_64_of_fits next v _ _ K hK hfit ?_ hv
    intro x hx
    rcases List.mem_append.1 hx with hx | hx
    · exact hent x hx
    · rw [List.mem_singleton.1 hx]; omega
  have hassert : next.assert_64 lower size v =
      (if next.guard lower size (v.map Deduced.constant) then []
        else [Diag64.diag next.message]) := by
    cases next with
    | for_bounds nl nu =>
      obtain ⟨hl, hu⟩ := hfit
      simp only [Bounds.assert_64, Bounds.guard, ssize_t_sub_small nu nl hu hl,
        Bounds.message]
      by_cases hd : (nu : Int) - (nl : Int) ≥ 0 <;> simp [hd]
    | for_symm_upper index nu =>
      simp only [Bounds.assert_64, Bounds.guard]
      rw [all_true_congr size _
        (fun is =>
          match (Bounds.for_symm_upper index nu).resolve
            (v.map Deduced.constant ++ [is + lower]) with
          | none => true
          | some (d, _, _) => decide (d ≥ 0))
        (fun is his => by
          rw [hres is his]
          dsimp only
          cases (Bounds.for_symm_upper index nu).resolve
            (v.map Deduced.constant ++ [is + lower]) <;> rfl)]
    | for_symm_lower index nl off =>
      simp only [Bounds.assert_64, Bounds.guard]
      rw [all_true_congr size _
        (fun is =>
          match (Bounds.for_symm_lower index nl off).resolve
            (v.map Deduced.constant ++ [is + lower]) with
          | none => true
          | some (d, _, _) => decide (d ≥ 0))
        (fun is his => by
          rw [hres is his]
          dsimp only
          cases (Bounds.for_symm_lower index nl off).resolve
            (v.map Deduced.constant ++ [is + lower]) <;> rfl)]
  refine expansion64_ext _ _ _ ?_ ?_
  · simp only [level_64, Expansion.lift_64, level_diags, List.map_append, List.map_flatMap,
      hassert]
    congr 1
    · split <;> rfl
    · refine flatMap_congr_mem _ _ _ fun is his => ?_
      have his2 : is < size := List.mem_range.1 his
      rw [hres is his2, hmod is his2]
      cases hr : next.resolve (v.map Deduced.constant ++ [is + lower]) with
      | none => rfl
      | some x =>
        obtain ⟨d, lo, sz⟩ := x
        simp only [hc is d lo sz his2 hr, Expansion.lift_64]
  · simp only [level_64, Expansion.lift_64, level_calls]
    refine flatMap_congr_mem _ _ _ fun is his => ?_
    have his2 : is < size := List.mem_range.1 his
    rw [hres is his2, hmod is his2]
    cases hr : next.resolve (v.map Deduced.constant ++ [is + lower]) with
    | none => rfl
    | some x =>
      obtain ⟨d, lo, sz⟩ := x
      simp only [hc is d lo sz his2 hr, Expansion.lift_64]

end ForConstexpr

namespace ForConstexpr

theorem fits_le (bounds : List Bounds) (K : Nat) (h : fits bounds K) : K ≤ 2 ^ 63 := by
  cases bounds with
  | nil => exact h
  | cons b bs => exact h.1

theorem length_pass_on (v : List Deduced) (i : Nat) : (pass_on v i).length = v.length + 1 := by
  simp [pass_on]

theorem base_64_eq_lift (lower size : Nat) (v : List Deduced) (h : lower + size ≤ 2 ^ 63) :
    for_constexpr_impl_base_64 lower size v =
      (for_constexpr_impl_base lower size (v.map Deduced.constant)).lift_64 := by
  refine expansion64_ext _ _ _ ?_ ?_
  · simp [for_constexpr_impl_base_64, Expansion.lift_64, base_diags]
  · simp only [for_constexpr_impl_base_64, Expansion.lift_64, base_calls]
    refine List.map_congr_left fun is his => ?_
    rw [mod_64_of_small _ (by have := List.mem_range.1 his; omega)]

theorem values_of_shallow (next : Bounds) (bounds : List Bounds) (v : List Deduced)
    (hs : shallow (next :: bounds) v.length)
    (hw : v.length ≤ 1 → values v = some (v.map Deduced.constant)) :
    (∀ l u, next ≠ .for_bounds l u) → values v = some (v.map Deduced.constant) := by
  intro h
  cases next with
  | for_bounds l u => exact absurd rfl (h l u)
  | for_symm_upper index nu => exact hw hs.1
  | for_symm_lower index nl off => exact hw hs.1

theorem shallow_tail (next : Bounds) (bounds : List Bounds) (depth : Nat)
    (hs : shallow (next :: bounds) depth) : shallow bounds (depth + 1) := by
  cases next with
  | for_bounds l u => exact hs
  | for_symm_upper index nu => exact hs.2
  | for_symm_lower index nl off => exact hs.2

theorem pack_pass_on (v : List Deduced) (i : Nat)
    (hw : v.length ≤ 1 → values v = some (v.map Deduced.constant)) :
    (pass_on v i).length ≤ 1 →
      values (pass_on v i) = some ((pass_on v i).map Deduced.constant) := by
  intro h
  rw [length_pass_on] at h
  have hv : v = [] := List.eq_nil_of_length_eq_zero (by omega)
  subst hv
  rfl

/-- The "second last loop" overloads below `2^63`. -/
theorem second_last_64_eq_lift (lower : Nat) (next : Bounds) (size : Nat) (v : List Deduced)
    (K : Nat) (hfit : fits [next] K) (hs : shallow [next] v.length)
    (hent : ∀ x ∈ v.map Deduced.constant, x < K) (hsz : lower + size ≤ K)
    (hw : v.length ≤ 1 → values v = some (v.map Deduced.constant)) :
    level_64 lower next size v for_constexpr_impl_base_64 =
      (for_constexpr_impl_second_last lower next size (v.map Deduced.constant)).lift_64 := by
  obtain ⟨hK, hf, hlim⟩ := hfit
  rw [second_last_eq_level]
  refine level_64_eq_lift lower next size v K _ _ hK hf hent hsz
    (values_of_shallow next [] v hs hw) fun is d lo sz his hr => ?_
  rw [base_64_eq_lift, map_constant_pass_on]
  have hlo := resolve_limit next _ K d lo sz (fun x hx => ?_) hr
  · exact le_trans hlo hlim
  · rcases List.mem_append.1 hx with hx | hx
    · exact hent x hx
    · rw [List.mem_singleton.1 hx]; omega

theorem shallow_take (next : Bounds) (bounds : List Bounds) (depth : Nat)
    (hs : shallow (next :: bounds) depth) : shallow [next] depth := by
  cases next with
  | for_bounds l u => trivial
  | for_symm_upper index nu => exact ⟨hs.1, trivial⟩
  | for_symm_lower index nl off => exact ⟨hs.1, trivial⟩

theorem fits_take (next : Bounds) (bounds : List Bounds) (K : Nat)
    (h : fits (next :: bounds) K) : fits [next] K :=
  ⟨h.1, h.2.1, fits_le bounds _ h.2.2⟩

/-- Below `2^63`, and with no symmetric descriptor deeper than level 2, the instantiation in
64-bit arithmetic is the one of the embedding in the integers. -/
theorem impl_64_eq_lift (bounds : List Bounds) :
    ∀ (lower : Nat) (next : Bounds) (size : Nat) (v : List Deduced) (K : Nat),
      fits (next :: bounds) K → shallow (next :: bounds) v.length →
      (∀ x ∈ v.map Deduced.constant, x < K) → lower + size ≤ K →
      (v.length ≤ 1 → values v = some (v.map Deduced.constant)) →
      for_constexpr_impl_64 lower next bounds size v =
        (for_constexpr_impl lower next bounds size (v.map Deduced.constant)).lift_64 := by
  induction bounds with
  | nil =>
    intro lower next size v K hfit hs hent hsz hw
    exact second_last_64_eq_lift lower next size v K hfit hs hent hsz hw
  | cons bounds1 rest ih =>
    intro lower next size v K hfit hs hent hsz hw
    obtain ⟨hK, hf, hrest⟩ := hfit
    have hent2 : ∀ is, is < size → ∀ x ∈ (pass_on v (is + lower)).map Deduced.constant,
        x < next.limit K := by
      intro is his x hx
      rw [map_constant_pass_on] at hx
      have := le_limit next K
      rcases List.mem_append.1 hx with hx | hx
      · exact lt_of_lt_of_le (hent x hx) this
      · rw [List.mem_singleton.1 hx]; omega
    have hlim : ∀ is d lo sz, is < size →
        next.resolve (v.map Deduced.constant ++ [is + lower]) = some (d, lo, sz) →
        lo + sz ≤ next.limit K := by
      intro is d lo sz his hr
      refine resolve_limit next _ K d lo sz (fun x hx => ?_) hr
      rcases List.mem_append.1 hx with hx | hx
      · exact hent x hx
      · rw [List.mem_singleton.1 hx]; omega
    have hs2 : ∀ i, shallow (bounds1 :: rest) (pass_on v i).length := by
      intro i
      rw [length_pass_on]
      exact shallow_tail next _ _ hs
    rw [impl_cons_eq_level]
    have key : ∀ contD : Nat → Nat → List Deduced → Expansion64,
        (∀ is d lo sz, is < size →
          next.resolve (v.map Deduced.constant ++ [is + lower]) = some (d, lo, sz) →
          contD lo sz (pass_on v (is + lower)) =
            (expand lo (next.forwarded (bounds1 :: rest)) sz
              (v.map Deduced.constant ++ [is + lower])).lift_64) →
        level_64 lower next size v contD =
          (level lower next size (v.map Deduced.constant)
            (fun lo sz w => expand lo (next.forwarded (bounds1 :: rest)) sz w)).lift_64 :=
      fun contD hc => level_64_eq_lift lower next size v K contD _ hK hf hent hsz
        (values_of_shallow next _ v hs hw) hc
    cases next with
    | for_bounds nl nu =>
      refine key _ fun is d lo sz his hr => ?_
      have := ih lo bounds1 sz (pass_on v (is + lower)) _ hrest (hs2 _) (hent2 is his)
        (hlim is d lo sz his hr) (pack_pass_on v _ hw)
      rw [map_constant_pass_on] at this
      exact this
    | for_symm_upper index nu =>
      simp only [for_constexpr_impl_64]
      refine key (fun lo sz w => level_64 lo bounds1 sz w for_constexpr_impl_base_64)
        fun is d lo sz his hr => ?_
      have := second_last_64_eq_lift lo bounds1 sz (pass_on v (is + lower)) _
        (fits_take bounds1 rest _ hrest) (shallow_take bounds1 rest _ (hs2 _)) (hent2 is his)
        (hlim is d lo sz his hr) (pack_pass_on v _ hw)
      rw [map_constant_pass_on] at this
      exact this
    | for_symm_lower index nl off =>
      simp only [for_constexpr_impl_64]
      refine key (fun lo sz w => level_64 lo bounds1 sz w for_constexpr_impl_base_64)
        fun is d lo sz his hr => ?_
      have := second_last_64_eq_lift lo bounds1 sz (pass_on v (is + lower)) _
        (fits_take bounds1 rest _ hrest) (shallow_take bounds1 rest _ (hs2 _)) (hent2 is his)
        (hlim is d lo sz his hr) (pack_pass_on v _ hw)
      rw [map_constant_pass_on] at this
      exact this

end ForConstexpr

namespace ForConstexpr

/-- The embedding in the integers is the instantiation in 64-bit arithmetic for every
configuration that keeps its bounds and indices below `2^63` and has no symmetric descriptor
deeper than level 2. -/
theorem for_constexpr_64_eq_lift (bounds0 : Bounds) (more : List Bounds)
    (hfit : fits_64 bounds0 more) (hs : shallow more 0) :
    for_constexpr_64 bounds0 more = (for_constexpr bounds0 more).lift_64 := by
  cases bounds0 with
  | for_bounds l u =>
    obtain ⟨hl, hu, hmore⟩ := hfit
    have hK := fits_le more _ hmore
    have hsize : (if u < l then 1 else u - l) =
        index_sequence_size ((u : Int) - (l : Int)) (u - l) := by
      unfold index_sequence_size
      by_cases h : u < l
      · rw [if_pos h, if_pos (by omega)]
      · rw [if_neg h, if_neg (by omega)]
    have hsz : l + index_sequence_size ((u : Int) - (l : Int)) (u - l) ≤ max (l + 1) u := by
      unfold index_sequence_size
      split <;> omega
    have hdec : decide (l ≤ u) = decide ((u : Int) - (l : Int) ≥ 0) := by
      by_cases h : l ≤ u
      · rw [decide_eq_true h, decide_eq_true (by omega)]
      · rw [decide_eq_false h, decide_eq_false (by omega)]
    simp only [for_constexpr_64, single_loop_guard_64_small l u hl hu, hsize, hdec]
    cases more with
    | nil =>
      refine expansion64_ext _ _ _ ?_ ?_
      · simp only [for_constexpr, Expansion.lift_64, append_diags, static_assert_diags,
          base_diags, List.append_nil, List.map_append, List.map_nil]
        split <;> rfl
      · dsimp only
        rw [base_64_eq_lift _ _ _ (le_trans hsz hK)]
        simp [for_constexpr, Expansion.lift_64, append_calls, static_assert_calls]
    | cons bounds1 bounds =>
      have h := impl_64_eq_lift bounds l bounds1
        (index_sequence_size ((u : Int) - (l : Int)) (u - l)) [] _ hmore hs
        (fun x hx => by cases hx) hsz (fun _ => rfl)
      simp only [List.map_nil] at h
      refine expansion64_ext _ _ _ ?_ ?_
      · dsimp only
        rw [h]
        simp only [for_constexpr, Expansion.lift_64, append_diags, static_assert_diags,
          List.map_append, List.map_nil]
        congr 1
        split <;> rfl
      · dsimp only
        rw [h]
        simp [for_constexpr, Expansion.lift_64, append_calls, static_assert_calls]
  | for_symm_lower index lower offset => rfl
  | for_symm_upper index upper => rfl

theorem accepted_64_iff (bounds0 : Bounds) (more : List Bounds)
    (hfit : fits_64 bounds0 more) (hs : shallow more 0) :
    accepted_64 bounds0 more ↔ accepted bounds0 more := by
  unfold accepted_64 accepted
  rw [for_constexpr_64_eq_lift bounds0 more hfit hs]
  simp [Expansion.lift_64]

theorem calls_64_eq (bounds0 : Bounds) (more : List Bounds)
    (hfit : fits_64 bounds0 more) (hs : shallow more 0) :
    (for_constexpr_64 bounds0 more).calls = (for_constexpr bounds0 more).calls := by
  rw [for_constexpr_64_eq_lift bounds0 more hfit hs]
  rfl

theorem run_64_eq (bounds0 : Bounds) (more : List Bounds)
    (hfit : fits_64 bounds0 more) (hs : shallow more 0) :
    run_64 bounds0 more = run bounds0 more := by
  unfold run_64 run
  rw [for_constexpr_64_eq_lift bounds0 more hfit hs]
  simp [Expansion.lift_64]

end ForConstexpr

namespace ForConstexpr

theorem fits_append_left (a b : List Bounds) : ∀ K, fits (a ++ b) K → fits a K := by
  induction a with
  | nil => intro K h; exact fits_le b K h
  | cons x a ih => intro K h; exact ⟨h.1, h.2.1, ih _ h.2.2⟩

theorem shallow_append_left (a b : List Bounds) : ∀ depth, shallow (a ++ b) depth →
    shallow a depth := by
  induction a with
  | nil => intro depth _; trivial
  | cons x a ih =>
    intro depth h
    cases x with
    | for_bounds l u => exact ih _ h
    | for_symm_upper index nu => exact ⟨h.1, ih _ h.2⟩
    | for_symm_lower index nl off => exact ⟨h.1, ih _ h.2⟩

theorem fits_64_append_left (bounds0 : Bounds) (a b : List Bounds)
    (h : fits_64 bounds0 (a ++ b)) : fits_64 bounds0 a := by
  cases bounds0 with
  | for_bounds l u => exact ⟨h.1, h.2.1, fits_append_left a b _ h.2.2⟩
  | for_symm_upper index nu => trivial
  | for_symm_lower index nl off => trivial

theorem shallow_plain (ranges : List (Nat × Nat)) : ∀ depth, shallow (plain ranges) depth := by
  induction ranges with
  | nil => intro depth; trivial
  | cons r rs ih => intro depth; exact ih _

theorem fits_plain (ranges : List (Nat × Nat)) :
    ∀ K, K ≤ 2 ^ 63 → (∀ r ∈ ranges, r.1 < 2 ^ 63 ∧ r.2 < 2 ^ 63) → fits (plain ranges) K := by
  induction ranges with
  | nil => intro K hK _; exact hK
  | cons r rs ih =>
    intro K hK h
    have hr := h r (List.mem_cons_self _ _)
    refine ⟨hK, hr, ih _ ?_ fun x hx => h x (List.mem_cons_of_mem _ hx)⟩
    simp only [Bounds.limit]
    have h1 := hr.1
    have h2 := hr.2
    norm_num at hK h1 h2 ⊢
    omega

theorem fits_64_single (L U : Nat) (hL : L < 2 ^ 63) (hU : U < 2 ^ 63) :
    fits_64 (.for_bounds L U) [] := by
  refine ⟨hL, hU, ?_⟩
  simp only [fits]
  norm_num at hL hU ⊢
  omega

end ForConstexpr

namespace ForConstexpr

/-- Claim C3 (the claim as stated fails): `for_constexpr<for_bounds<2^64 - 2, 1>>` is
accepted, the signed difference of its guard being `1 - (-2) = 3`, and delivers the indices
`2^64 - 2`, `2^64 - 1`, `0` in this order, the sum `Is + Lower` wrapping around: the last
index is smaller than the ones before it. -/
theorem wrapped_indices_not_ascending :
    run_64 (.for_bounds 18446744073709551614 1) [] =
        some [[18446744073709551614], [18446744073709551615], [0]] ∧
      ¬ List.Pairwise (fun a b : List Nat => a < b)
        [[18446744073709551614], [18446744073709551615], [0]] := by
  refine ⟨by decide, fun h => ?_⟩
  have h1 := (List.pairwise_cons.1 h).1 [0] (by simp)
  revert h1
  decide

/-- Claim C3 (amended): in every accepted configuration that keeps its bounds and indices
below `2^63` and has no symmetric descriptor deeper than level 2, the argument lists
delivered to the callback are strictly ascending in lexicographic order, they all have the
same number of indices, and none is delivered twice. -/
theorem calls_lexicographically_ascending_64 (bounds0 : Bounds) (more : List Bounds)
    (calls : List (List Nat)) (hfit : fits_64 bounds0 more) (hs : shallow more 0)
    (h : run_64 bounds0 more = some calls) :
    calls.Pairwise (fun a b => a < b) ∧ calls.Nodup ∧ ∃ n, ∀ c ∈ calls, c.length = n := by
  rw [run_64_eq bounds0 more hfit hs] at h
  exact calls_lexicographically_ascending bounds0 more calls h

/-- The amended ordering claim at `for_bounds<0,2>, for_symm_lower<0,0,1>`. -/
theorem calls_lexicographically_ascending_64_witness :
    fits_64 (.for_bounds 0 2) [.for_symm_lower 0 0 1] ∧
      shallow [.for_symm_lower 0 0 1] 0 ∧
      run_64 (.for_bounds 0 2) [.for_symm_lower 0 0 1] = some [[0, 0], [1, 0], [1, 1]] ∧
      (List.Pairwise (fun a b => a < b) [[0, 0], [1, 0], [1, 1]] ∧
        List.Nodup [[0, 0], [1, 0], [1, 1]] ∧
        ∃ n, ∀ c ∈ [[0, 0], [1, 0], [1, 1]], List.length c = n) :=
  ⟨by decide, by decide, by decide,
   calls_lexicographically_ascending_64 (.for_bounds 0 2) [.for_symm_lower 0 0 1]
     [[0, 0], [1, 0], [1, 1]] (by decide) (by decide) (by decide)⟩

/-- Claim C8 (the claim as stated fails): `for_bounds<0, 2^63>` has `L ≤ U`, yet the upper
bound is read as `-2^63` by the cast to `ssize_t`, the guard fails and nothing runs; for
`for_bounds<2^63 - 1, 2^63>` the signed subtraction of the guard overflows. -/
theorem single_loop_rejects_large_upper :
    (0 : Nat) ≤ 9223372036854775808 ∧
      ¬ accepted_64 (.for_bounds 0 9223372036854775808) [] ∧
      run_64 (.for_bounds 0 9223372036854775808) [] = none ∧
      for_constexpr_64 (.for_bounds 9223372036854775807 9223372036854775808) [] =
        ⟨[.not_constant], []⟩ := by
  decide

/-- Claim C8 (amended): for `L ≤ U < 2^63` the single-level call
`for_constexpr<for_bounds<L, U>>` is accepted and invokes the callback `U - L` times, with
the arguments `L, L + 1, ..., U - 1` in that order; in the test `single_loop` each of the
three cells ends up incremented exactly once. -/
theorem single_loop_calls_64 (L U : Nat) (h : L ≤ U) (hU : U < 2 ^ 63) :
    for_constexpr_64 (.for_bounds L U) [] =
        ⟨[], (List.range (U - L)).map (fun is => [is + L])⟩ ∧
      run_64 (.for_bounds L U) [] = some ((List.range (U - L)).map (fun is => [is + L])) ∧
      (for_constexpr_64 (.for_bounds L U) []).calls.length = U - L ∧
      (∀ k, k < U - L →
        (for_constexpr_64 (.for_bounds L U) []).calls.get? k = some [L + k]) ∧
      run_64 (.for_bounds 0 3) [] = some [[0], [1], [2]] ∧
      single_loop = [1, 1, 1] := by
  have hfit : fits_64 (.for_bounds L U) [] := fits_64_single L U (by omega) hU
  have hold := single_loop_calls L U h
  have he : for_constexpr_64 (.for_bounds L U) [] =
      ⟨[], (List.range (U - L)).map (fun is => [is + L])⟩ := by
    rw [for_constexpr_64_eq_lift _ _ hfit trivial, hold.1]
    rfl
  refine ⟨he, ?_, ?_, ?_, by decide, hold.2.2.2⟩
  · simp [run_64, he]
  · rw [calls_64_eq _ _ hfit trivial]; exact hold.2.1
  · rw [calls_64_eq _ _ hfit trivial]; exact hold.2.2.1

/-- The amended single-level claim at `for_bounds<2,5>`. -/
theorem single_loop_calls_64_witness :
    (2 : Nat) ≤ 5 ∧ (5 : Nat) < 2 ^ 63 ∧
      run_64 (.for_bounds 2 5) [] = some ((List.range (5 - 2)).map (fun is => [is + 2])) :=
  ⟨by decide, by decide, (single_loop_calls_64 2 5 (by decide) (by decide)).2.1⟩

end ForConstexpr

namespace ForConstexpr

/-- Claim C9 (the claim as stated fails): `for_bounds<0, 1>, for_bounds<2^63 - 1, 2^63>` has
`L_k ≤ U_k` at both levels and is not accepted: the signed subtraction in the guard of
level 1 overflows; with `for_bounds<0, 2^63>` at level 1 the guard fails. -/
theorem plain_loops_reject_large_upper :
    (9223372036854775807 : Nat) ≤ 9223372036854775808 ∧
      ¬ accepted_64 (.for_bounds 0 1)
        [.for_bounds 9223372036854775807 9223372036854775808] ∧
      run_64 (.for_bounds 0 1) [.for_bounds 9223372036854775807 9223372036854775808] =
        none ∧
      run_64 (.for_bounds 0 1) [.for_bounds 0 9223372036854775808] = none := by
  decide

theorem fits_64_plain (L0 U0 : Nat) (ranges : List (Nat × Nat)) (h0 : L0 ≤ U0)
    (hU0 : U0 < 2 ^ 63) (hr : ∀ r ∈ ranges, r.1 ≤ r.2 ∧ r.2 < 2 ^ 63) :
    fits_64 (.for_bounds L0 U0) (plain ranges) := by
  refine ⟨by omega, hU0, fits_plain ranges _ ?_ fun r h => ⟨?_, (hr r h).2⟩⟩
  · norm_num at hU0 ⊢
    omega
  · have := hr r h
    omega

/-- Claim C9 (amended): for `N ≥ 2` plain descriptors `for_bounds<L_k, U_k>` with
`L_k ≤ U_k < 2^63` the configuration is accepted, the callback is invoked exactly once for
each tuple of the Cartesian product of the ranges and for nothing else, and the number of
invocations is the product of the `U_k - L_k`; it is 9 for `[0,3) x [0,3)` and 27 for
`[0,3)^3`. -/
theorem plain_loops_cartesian_64 (L0 U0 : Nat) (r1 : Nat × Nat) (rs : List (Nat × Nat))
    (h0 : L0 ≤ U0) (h1 : r1.1 ≤ r1.2) (hrs : ∀ r ∈ rs, r.1 ≤ r.2)
    (hU0 : U0 < 2 ^ 63) (hU1 : r1.2 < 2 ^ 63) (hUs : ∀ r ∈ rs, r.2 < 2 ^ 63) :
    accepted_64 (.for_bounds L0 U0) (plain (r1 :: rs)) ∧
      (for_constexpr_64 (.for_bounds L0 U0) (plain (r1 :: rs))).calls.Nodup ∧
      (∀ t, t ∈ (for_constexpr_64 (.for_bounds L0 U0) (plain (r1 :: rs))).calls ↔
        List.Forall₂ (fun r i => r.1 ≤ i ∧ i < r.2) ((L0, U0) :: r1 :: rs) t) ∧
      (for_constexpr_64 (.for_bounds L0 U0) (plain (r1 :: rs))).calls.length =
        (((L0, U0) :: r1 :: rs).map (fun r => r.2 - r.1)).prod ∧
      (for_constexpr_64 (.for_bounds 0 3) [.for_bounds 0 3]).calls.length = 9 ∧
      (for_constexpr_64 (.for_bounds 0 3) [.for_bounds 0 3, .for_bounds 0 3]).calls.length =
        27 := by
  have hfit : fits_64 (.for_bounds L0 U0) (plain (r1 :: rs)) := by
    refine fits_64_plain L0 U0 _ h0 hU0 fun r hr => ?_
    rcases List.mem_cons.1 hr with rfl | hr
    · exact ⟨h1, hU1⟩
    · exact ⟨hrs r hr, hUs r hr⟩
  have hs : shallow (plain (r1 :: rs)) 0 := shallow_plain _ _
  have hold := plain_loops_cartesian L0 U0 r1 rs h0 h1 hrs
  rw [accepted_64_iff _ _ hfit hs, calls_64_eq _ _ hfit hs]
  exact ⟨hold.1, hold.2.1, hold.2.2.1, hold.2.2.2.1, by decide, by decide⟩

/-- The amended claim at `[1,3) x [2,4) x [0,2)`. -/
theorem plain_loops_cartesian_64_witness :
    (1 : Nat) ≤ 3 ∧ (3 : Nat) < 2 ^ 63 ∧
      accepted_64 (.for_bounds 1 3) (plain [(2, 4), (0, 2)]) ∧
      (for_constexpr_64 (.for_bounds 1 3) (plain [(2, 4), (0, 2)])).calls.length =
        (([(1, 3), (2, 4), (0, 2)] : List (Nat × Nat)).map (fun r => r.2 - r.1)).prod :=
  ⟨by decide, by decide,
    (plain_loops_cartesian_64 1 3 (2, 4) [(0, 2)] (by decide) (by decide) (by decide)
      (by decide) (by decide) (by decide)).1,
    (plain_loops_cartesian_64 1 3 (2, 4) [(0, 2)] (by decide) (by decide) (by decide)
      (by decide) (by decide) (by decide)).2.2.2.1⟩

end ForConstexpr

namespace ForConstexpr

/-- Configurations of up to three levels have no symmetric descriptor deeper than
level 2. -/
theorem shallow_two (b1 b2 : Bounds) : shallow [b1] 0 ∧ shallow [b1, b2] 0 := by
  cases b1 <;> cases b2 <;> simp [shallow]

theorem fits_family (n : Nat) (more : List Bounds) :
    ∀ K, 1 ≤ K → n ≤ K → K < 2 ^ 63 →
      (∀ b ∈ more, b = .for_bounds 0 n ∨ (∃ r, b = .for_symm_upper r n) ∨
        ∃ r o, b = .for_symm_lower r 0 o ∧ (o = 0 ∨ o = 1)) →
      fits more K := by
  induction more with
  | nil => intro K _ _ hK _; exact le_of_lt hK
  | cons b bs ih =>
    intro K h1 hn hK h
    have hbs : ∀ x ∈ bs, x = .for_bounds 0 n ∨ (∃ r, x = .for_symm_upper r n) ∨
        ∃ r o, x = .for_symm_lower r 0 o ∧ (o = 0 ∨ o = 1) :=
      fun x hx => h x (List.mem_cons_of_mem _ hx)
    have hn63 : n < 2 ^ 63 := lt_of_le_of_lt hn hK
    rcases h b (List.mem_cons_self _ _) with rfl | ⟨r, rfl⟩ | ⟨r, o, rfl, ho⟩
    · have hl : (Bounds.for_bounds 0 n).limit K = K := by
        simp only [Bounds.limit]; omega
      refine ⟨le_of_lt hK, ⟨by norm_num, hn63⟩, ?_⟩
      rw [hl]; exact ih K h1 hn hK hbs
    · have hl : (Bounds.for_symm_upper r n).limit K = K := by
        simp only [Bounds.limit]; omega
      refine ⟨le_of_lt hK, hn63, ?_⟩
      rw [hl]; exact ih K h1 hn hK hbs
    · have hl : (Bounds.for_symm_lower r 0 o).limit K = K := by
        simp only [Bounds.limit]
        rcases ho with rfl | rfl <;> omega
      refine ⟨le_of_lt hK, ⟨by norm_num, ?_, ?_⟩, ?_⟩
      · rcases ho with rfl | rfl <;> norm_num
      · norm_num at hK ⊢
        rcases ho with rfl | rfl <;> omega
      · rw [hl]; exact ih K h1 hn hK hbs

/-- The configurations of the tests, with `n < 2^63` for the array size: level 0 is
`for_bounds<0, n>` and every other descriptor is `for_bounds<0, n>`, a `for_symm_upper<r, n>`
or a `for_symm_lower<r, 0, o>` with offset 0 or 1. -/
theorem fits_64_family (n : Nat) (hn : n < 2 ^ 63) (more : List Bounds)
    (h : ∀ b ∈ more, b = .for_bounds 0 n ∨ (∃ r, b = .for_symm_upper r n) ∨
      ∃ r o, b = .for_symm_lower r 0 o ∧ (o = 0 ∨ o = 1)) :
    fits_64 (.for_bounds 0 n) more := by
  refine ⟨by norm_num, hn, fits_family n more _ (by omega) (by omega) ?_ h⟩
  norm_num at hn ⊢
  omega

end ForConstexpr

namespace ForConstexpr

/-- Claim C10 (the claim as stated fails): for `n = 2^63` the upper bound of
`for_bounds<0, n>` is read as `-2^63`, the guard of level 0 fails, and
`for_bounds<0, n>, for_symm_lower<0, 0>` is rejected: none of the pairs `(i, j)` with
`j < i < n` is visited. -/
theorem symm_lower_exclusive_rejects_large_n :
    ¬ accepted_64 (.for_bounds 0 9223372036854775808) [.for_symm_lower 0 0 0] ∧
      run_64 (.for_bounds 0 9223372036854775808) [.for_symm_lower 0 0 0] = none := by
  decide

/-- Claim C10 (amended): for every `n < 2^63` the configuration
`for_bounds<0, n>, for_symm_lower<0, 0>` is accepted and invokes the callback exactly once
for each pair `(i, j)` with `j < i < n` and for no other argument list, `n (n - 1) / 2`
invocations in all; these are `0 + 1 + 2 = 3` for `n = 3`. -/
theorem symm_lower_exclusive_pairs_64 (n : Nat) (hn : n < 2 ^ 63) :
    accepted_64 (.for_bounds 0 n) [.for_symm_lower 0 0 0] ∧
      (for_constexpr_64 (.for_bounds 0 n) [.for_symm_lower 0 0 0]).calls.Nodup ∧
      (∀ t, t ∈ (for_constexpr_64 (.for_bounds 0 n) [.for_symm_lower 0 0 0]).calls ↔
        ∃ i j, t = [i, j] ∧ j < i ∧ i < n) ∧
      (for_constexpr_64 (.for_bounds 0 n) [.for_symm_lower 0 0 0]).calls.length =
        n * (n - 1) / 2 ∧
      (for_constexpr_64 (.for_bounds 0 3) [.for_symm_lower 0 0 0]).calls =
        [[1, 0], [2, 0], [2, 1]] := by
  have hfit : fits_64 (.for_bounds 0 n) [.for_symm_lower 0 0 0] :=
    fits_64_family n hn _ fun b hb => by
      rw [List.mem_singleton.1 hb]; exact Or.inr (Or.inr ⟨0, 0, rfl, Or.inl rfl⟩)
  have hs := (shallow_two (.for_symm_lower 0 0 0) (.for_bounds 0 0)).1
  have hold := symm_lower_exclusive_pairs n
  rw [accepted_64_iff _ _ hfit hs, calls_64_eq _ _ hfit hs]
  exact ⟨hold.1, hold.2.1, hold.2.2.1, hold.2.2.2.1, by decide⟩

/-- The amended claim at `n = 4`. -/
theorem symm_lower_exclusive_pairs_64_witness :
    (4 : Nat) < 2 ^ 63 ∧
      accepted_64 (.for_bounds 0 4) [.for_symm_lower 0 0 0] ∧
      (for_constexpr_64 (.for_bounds 0 4) [.for_symm_lower 0 0 0]).calls.length =
        4 * (4 - 1) / 2 :=
  ⟨by decide, (symm_lower_exclusive_pairs_64 4 (by decide)).1,
    (symm_lower_exclusive_pairs_64 4 (by decide)).2.2.2.1⟩

/-- Claim C11 (the claim as stated fails): for `n = 2^63` the guard of level 0 fails and
`for_bounds<0, n>, for_symm_lower<0, 0, 1>` is rejected. -/
theorem symm_lower_inclusive_rejects_large_n :
    ¬ accepted_64 (.for_bounds 0 9223372036854775808) [.for_symm_lower 0 0 1] ∧
      run_64 (.for_bounds 0 9223372036854775808) [.for_symm_lower 0 0 1] = none := by
  decide

/-- Claim C11 (amended): for every `n < 2^63` the configuration
`for_bounds<0, n>, for_symm_lower<0, 0, 1>` is accepted and invokes the callback exactly once
for each pair `(i, j)` with `j ≤ i < n` and for no other argument list, `n (n + 1) / 2`
invocations in all; these are `1 + 2 + 3 = 6` for `n = 3`. -/
theorem symm_lower_inclusive_pairs_64 (n : Nat) (hn : n < 2 ^ 63) :
    accepted_64 (.for_bounds 0 n) [.for_symm_lower 0 0 1] ∧
      (for_constexpr_64 (.for_bounds 0 n) [.for_symm_lower 0 0 1]).calls.Nodup ∧
      (∀ t, t ∈ (for_constexpr_64 (.for_bounds 0 n) [.for_symm_lower 0 0 1]).calls ↔
        ∃ i j, t = [i, j] ∧ j ≤ i ∧ i < n) ∧
      (for_constexpr_64 (.for_bounds 0 n) [.for_symm_lower 0 0 1]).calls.length =
        n * (n + 1) / 2 ∧
      (for_constexpr_64 (.for_bounds 0 3) [.for_symm_lower 0 0 1]).calls =
        [[0, 0], [1, 0], [1, 1], [2, 0], [2, 1], [2, 2]] := by
  have hfit : fits_64 (.for_bounds 0 n) [.for_symm_lower 0 0 1] :=
    fits_64_family n hn _ fun b hb => by
      rw [List.mem_singleton.1 hb]; exact Or.inr (Or.inr ⟨0, 1, rfl, Or.inr rfl⟩)
  have hs := (shallow_two (.for_symm_lower 0 0 1) (.for_bounds 0 0)).1
  have hold := symm_lower_inclusive_pairs n
  rw [accepted_64_iff _ _ hfit hs, calls_64_eq _ _ hfit hs]
  exact ⟨hold.1, hold.2.1, hold.2.2.1, hold.2.2.2.1, by decide⟩

/-- The amended claim at `n = 4`. -/
theorem symm_lower_inclusive_pairs_64_witness :
    (4 : Nat) < 2 ^ 63 ∧
      accepted_64 (.for_bounds 0 4) [.for_symm_lower 0 0 1] ∧
      (for_constexpr_64 (.for_bounds 0 4) [.for_symm_lower 0 0 1]).calls.length =
        4 * (4 + 1) / 2 :=
  ⟨by decide, (symm_lower_inclusive_pairs_64 4 (by decide)).1,
    (symm_lower_inclusive_pairs_64 4 (by decide)).2.2.2.1⟩

/-- Claim C12 (the claim as stated fails): for `n = 2^63` the guard of level 0 fails and
`for_bounds<0, n>, for_symm_upper<0, n>` is rejected. -/
theorem symm_upper_rejects_large_n :
    ¬ accepted_64 (.for_bounds 0 9223372036854775808)
        [.for_symm_upper 0 9223372036854775808] ∧
      run_64 (.for_bounds 0 9223372036854775808) [.for_symm_upper 0 9223372036854775808] =
        none := by
  decide

/-- Claim C12 (amended): for every `n < 2^63` the configuration
`for_bounds<0, n>, for_symm_upper<0, n>` is accepted and invokes the callback exactly once
for each pair `(i, j)` with `i ≤ j < n` and for no other argument list, `n (n + 1) / 2`
invocations in all; these are `3 + 2 + 1 = 6` for `n = 3`. -/
theorem symm_upper_pairs_64 (n : Nat) (hn : n < 2 ^ 63) :
    accepted_64 (.for_bounds 0 n) [.for_symm_upper 0 n] ∧
      (for_constexpr_64 (.for_bounds 0 n) [.for_symm_upper 0 n]).calls.Nodup ∧
      (∀ t, t ∈ (for_constexpr_64 (.for_bounds 0 n) [.for_symm_upper 0 n]).calls ↔
        ∃ i j, t = [i, j] ∧ i ≤ j ∧ j < n) ∧
      (for_constexpr_64 (.for_bounds 0 n) [.for_symm_upper 0 n]).calls.length =
        n * (n + 1) / 2 ∧
      (for_constexpr_64 (.for_bounds 0 3) [.for_symm_upper 0 3]).calls =
        [[0, 0], [0, 1], [0, 2], [1, 1], [1, 2], [2, 2]] := by
  have hfit : fits_64 (.for_bounds 0 n) [.for_symm_upper 0 n] :=
    fits_64_family n hn _ fun b hb => by
      rw [List.mem_singleton.1 hb]; exact Or.inr (Or.inl ⟨0, rfl⟩)
  have hs := (shallow_two (.for_symm_upper 0 n) (.for_bounds 0 0)).1
  have hold := symm_upper_pairs n
  rw [accepted_64_iff _ _ hfit hs, calls_64_eq _ _ hfit hs]
  exact ⟨hold.1, hold.2.1, hold.2.2.1, hold.2.2.2.1, by decide⟩

/-- The amended claim at `n = 4`. -/
theorem symm_upper_pairs_64_witness :
    (4 : Nat) < 2 ^ 63 ∧
      accepted_64 (.for_bounds 0 4) [.for_symm_upper 0 4] ∧
      (for_constexpr_64 (.for_bounds 0 4) [.for_symm_upper 0 4]).calls.length =
        4 * (4 + 1) / 2 :=
  ⟨by decide, (symm_upper_pairs_64 4 (by decide)).1,
    (symm_upper_pairs_64 4 (by decide)).2.2.2.1⟩

end ForConstexpr

namespace ForConstexpr

/-- Claim C13 (the claim as stated fails): for `n = 2^63` the guard of level 0 fails and
`for_bounds<0, n>, for_symm_upper<0, n>, for_symm_upper<0, n>` is rejected. -/
theorem symm_upper_twice_rejects_large_n :
    ¬ accepted_64 (.for_bounds 0 9223372036854775808)
        [.for_symm_upper 0 9223372036854775808, .for_symm_upper 0 9223372036854775808] ∧
      run_64 (.for_bounds 0 9223372036854775808)
        [.for_symm_upper 0 9223372036854775808, .for_symm_upper 0 9223372036854775808] =
          none := by
  decide

/-- Claim C13 (amended): for every `n < 2^63` the configuration
`for_bounds<0,n>, for_symm_upper<0,n>, for_symm_upper<0,n>` is accepted and invokes the
callback exactly once for each triple `(i, j, k)` of `[0,n)^3` with `j ≥ i` and `k ≥ i`, and
for no other argument list; these are 14 invocations for `n = 3`. -/
theorem symm_upper_twice_on_first_64 (n : Nat) (hn : n < 2 ^ 63) :
    accepted_64 (.for_bounds 0 n) [.for_symm_upper 0 n, .for_symm_upper 0 n] ∧
      (for_constexpr_64 (.for_bounds 0 n)
        [.for_symm_upper 0 n, .for_symm_upper 0 n]).calls.Nodup ∧
      (∀ t, t ∈ (for_constexpr_64 (.for_bounds 0 n)
          [.for_symm_upper 0 n, .for_symm_upper 0 n]).calls ↔
        ∃ i j k, t = [i, j, k] ∧ i < n ∧ j < n ∧ k < n ∧ i ≤ j ∧ i ≤ k) ∧
      (for_constexpr_64 (.for_bounds 0 3)
        [.for_symm_upper 0 3, .for_symm_upper 0 3]).calls.length = 14 := by
  have hfit : fits_64 (.for_bounds 0 n) [.for_symm_upper 0 n, .for_symm_upper 0 n] :=
    fits_64_family n hn _ fun b hb => by
      simp only [List.mem_cons, List.mem_singleton, List.not_mem_nil, or_false, or_self]
        at hb
      rw [hb]; exact Or.inr (Or.inl ⟨0, rfl⟩)
  have hs := (shallow_two (.for_symm_upper 0 n) (.for_symm_upper 0 n)).2
  have hold := symm_upper_twice_on_first n
  rw [accepted_64_iff _ _ hfit hs, calls_64_eq _ _ hfit hs]
  exact ⟨hold.1, hold.2.1, hold.2.2.1, by decide⟩

/-- The amended claim at `n = 2`. -/
theorem symm_upper_twice_on_first_64_witness :
    (2 : Nat) < 2 ^ 63 ∧
      accepted_64 (.for_bounds 0 2) [.for_symm_upper 0 2, .for_symm_upper 0 2] ∧
      (for_constexpr_64 (.for_bounds 0 2)
        [.for_symm_upper 0 2, .for_symm_upper 0 2]).calls.Nodup :=
  ⟨by decide, (symm_upper_twice_on_first_64 2 (by decide)).1,
    (symm_upper_twice_on_first_64 2 (by decide)).2.1⟩

/-- Claim C16 (the claim as stated fails): for `n = 2^63` the guard of level 0 fails and the
three-level configuration `for_bounds<0, n>, for_symm_upper<0, n>, for_symm_lower<1, 0, 1>`
is rejected. -/
theorem three_level_rejects_large_n :
    ¬ accepted_64 (.for_bounds 0 9223372036854775808)
        [.for_symm_upper 0 9223372036854775808, .for_symm_lower 1 0 1] ∧
      run_64 (.for_bounds 0 9223372036854775808)
        [.for_symm_upper 0 9223372036854775808, .for_symm_lower 1 0 1] = none := by
  decide

/-- Claim C16 (amended): for every `n < 2^63`, every `B1` among `for_bounds<0,n>`,
`for_symm_upper<0,n>`, `for_symm_lower<0,0,o1>` and every `B2` among `for_bounds<0,n>`,
`for_symm_upper<r,n>`, `for_symm_lower<r,0,o2>` (`r`, `o1`, `o2` in `{0, 1}`), the
configuration `for_bounds<0,n>, B1, B2` is accepted and the callback is invoked exactly once
at each `(i, j, k)` in `[0,n)^3` that satisfies the constraint of `B1` on `j` relative to `i`
and the constraint of `B2` on `k` relative to the level it refers to (`i` for `r = 0`, `j` for
`r = 1`), and at no other argument list. -/
theorem three_level_symmetric_64 (n : Nat) (B1 B2 : Bounds) (r : Nat) (o1 o2 : Int)
    (hn : n < 2 ^ 63)
    (hr : r = 0 ∨ r = 1) (ho1 : o1 = 0 ∨ o1 = 1) (ho2 : o2 = 0 ∨ o2 = 1)
    (h1 : B1 = .for_bounds 0 n ∨ B1 = .for_symm_upper 0 n ∨ B1 = .for_symm_lower 0 0 o1)
    (h2 : B2 = .for_bounds 0 n ∨ B2 = .for_symm_upper r n ∨ B2 = .for_symm_lower r 0 o2) :
    accepted_64 (.for_bounds 0 n) [B1, B2] ∧
      (for_constexpr_64 (.for_bounds 0 n) [B1, B2]).calls.Nodup ∧
      ∀ t, t ∈ (for_constexpr_64 (.for_bounds 0 n) [B1, B2]).calls ↔
        ∃ i j k, t = [i, j, k] ∧ i < n ∧ j < n ∧ k < n ∧ B1.constraint i j ∧
          B2.constraint (if r = 0 then i else j) k := by
  have hfit : fits_64 (.for_bounds 0 n) [B1, B2] :=
    fits_64_family n hn _ fun b hb => by
      simp only [List.mem_cons, List.mem_singleton, List.not_mem_nil, or_false] at hb
      rcases hb with rfl | rfl
      · rcases h1 with h | h | h
        · exact Or.inl h
        · exact Or.inr (Or.inl ⟨0, h⟩)
        · exact Or.inr (Or.inr ⟨0, o1, h, ho1⟩)
      · rcases h2 with h | h | h
        · exact Or.inl h
        · exact Or.inr (Or.inl ⟨r, h⟩)
        · exact Or.inr (Or.inr ⟨r, o2, h, ho2⟩)
  have hs := (shallow_two B1 B2).2
  rw [accepted_64_iff _ _ hfit hs, calls_64_eq _ _ hfit hs]
  exact three_level_symmetric n B1 B2 r o1 o2 hr ho1 ho2 h1 h2

/-- The amended claim at `n = 3`, `B1 = for_symm_upper<0,3>`, `B2 = for_symm_lower<1,0,1>`,
the test `triple_symm_upper_lower`. -/
theorem three_level_symmetric_64_witness :
    (3 : Nat) < 2 ^ 63 ∧
      accepted_64 (.for_bounds 0 3) [.for_symm_upper 0 3, .for_symm_lower 1 0 1] ∧
      (for_constexpr_64 (.for_bounds 0 3)
        [.for_symm_upper 0 3, .for_symm_lower 1 0 1]).calls.Nodup ∧
      ∀ t, t ∈ (for_constexpr_64 (.for_bounds 0 3)
          [.for_symm_upper 0 3, .for_symm_lower 1 0 1]).calls ↔
        ∃ i j k, t = [i, j, k] ∧ i < 3 ∧ j < 3 ∧ k < 3 ∧
          (Bounds.for_symm_upper 0 3).constraint i j ∧
          (Bounds.for_symm_lower 1 0 1).constraint (if 1 = 0 then i else j) k :=
  ⟨by decide,
    three_level_symmetric_64 3 (.for_symm_upper 0 3) (.for_symm_lower 1 0 1) 1 0 1
      (by decide) (Or.inr rfl) (Or.inl rfl) (Or.inr rfl) (Or.inr (Or.inl rfl))
      (Or.inr (Or.inr rfl))⟩

/-- Claim C17 (the claim as stated fails): for `n = 2^63` the guard of level 0 fails and
`for_bounds<0, n>, for_symm_lower<0, 0, 1>, for_symm_lower<1, 0, 1>` is rejected. -/
theorem symm_lower_chain_rejects_large_n :
    ¬ accepted_64 (.for_bounds 0 9223372036854775808)
        [.for_symm_lower 0 0 1, .for_symm_lower 1 0 1] ∧
      run_64 (.for_bounds 0 9223372036854775808)
        [.for_symm_lower 0 0 1, .for_symm_lower 1 0 1] = none := by
  decide

/-- Claim C17 (amended): for every `n < 2^63` the chained configuration
`for_bounds<0,n>, for_symm_lower<0,0,1>, for_symm_lower<1,0,1>` is accepted and invokes the
callback exactly once for each triple with `k ≤ j ≤ i < n` and for no other argument list,
`n (n + 1) (n + 2) / 6` invocations in all; these are 10 for `n = 3`. -/
theorem symm_lower_chain_triples_64 (n : Nat) (hn : n < 2 ^ 63) :
    accepted_64 (.for_bounds 0 n) [.for_symm_lower 0 0 1, .for_symm_lower 1 0 1] ∧
      (for_constexpr_64 (.for_bounds 0 n)
        [.for_symm_lower 0 0 1, .for_symm_lower 1 0 1]).calls.Nodup ∧
      (∀ t, t ∈ (for_constexpr_64 (.for_bounds 0 n)
          [.for_symm_lower 0 0 1, .for_symm_lower 1 0 1]).calls ↔
        ∃ i j k, t = [i, j, k] ∧ k ≤ j ∧ j ≤ i ∧ i < n) ∧
      (for_constexpr_64 (.for_bounds 0 n)
        [.for_symm_lower 0 0 1, .for_symm_lower 1 0 1]).calls.length =
          n * (n + 1) * (n + 2) / 6 ∧
      (for_constexpr_64 (.for_bounds 0 3)
        [.for_symm_lower 0 0 1, .for_symm_lower 1 0 1]).calls.length = 10 := by
  have hfit : fits_64 (.for_bounds 0 n) [.for_symm_lower 0 0 1, .for_symm_lower 1 0 1] :=
    fits_64_family n hn _ fun b hb => by
      simp only [List.mem_cons, List.mem_singleton, List.not_mem_nil, or_false] at hb
      rcases hb with rfl | rfl
      · exact Or.inr (Or.inr ⟨0, 1, rfl, Or.inr rfl⟩)
      · exact Or.inr (Or.inr ⟨1, 1, rfl, Or.inr rfl⟩)
  have hs := (shallow_two (.for_symm_lower 0 0 1) (.for_symm_lower 1 0 1)).2
  have hold := symm_lower_chain_triples n
  rw [accepted_64_iff _ _ hfit hs, calls_64_eq _ _ hfit hs]
  exact ⟨hold.1, hold.2.1, hold.2.2.1, hold.2.2.2.1, by decide⟩

/-- The amended claim at `n = 3`. -/
theorem symm_lower_chain_triples_64_witness :
    (3 : Nat) < 2 ^ 63 ∧
      accepted_64 (.for_bounds 0 3) [.for_symm_lower 0 0 1, .for_symm_lower 1 0 1] ∧
      (for_constexpr_64 (.for_bounds 0 3)
        [.for_symm_lower 0 0 1, .for_symm_lower 1 0 1]).calls.length =
          3 * (3 + 1) * (3 + 2) / 6 :=
  ⟨by decide, (symm_lower_chain_triples_64 3 (by decide)).1,
    (symm_lower_chain_triples_64 3 (by decide)).2.2.2.1⟩

end ForConstexpr

namespace ForConstexpr

/-- Claim C34 (the claim as stated fails): for `n = 2^63` the guard of level 0 fails and
none of the three configurations is accepted, so no pair of the grid is visited by any of
them. -/
theorem partition_rejects_large_n :
    run_64 (.for_bounds 0 9223372036854775808) [.for_symm_lower 0 0 0] = none ∧
      run_64 (.for_bounds 0 9223372036854775808) [.for_symm_upper 0 9223372036854775808] =
        none ∧
      run_64 (.for_bounds 0 9223372036854775808) [.for_bounds 0 9223372036854775808] =
        none := by
  decide

/-- Claim C34 (amended): for every `n < 2^63` the three configurations
`for_bounds<0, n>, for_symm_lower<0, 0>`, `for_bounds<0, n>, for_symm_upper<0, n>` and
`for_bounds<0, n>, for_bounds<0, n>` are accepted; no pair is visited by both symmetric
loops; a pair is visited by the plain double loop exactly when one of the two symmetric loops
visits it; the invocations of the two symmetric loops together are a rearrangement of those
of the plain double loop, each pair once, `n * n` in all. -/
theorem symmetric_loops_partition_grid_64 (n : Nat) (hn : n < 2 ^ 63) :
    accepted_64 (.for_bounds 0 n) [.for_symm_lower 0 0 0] ∧
      accepted_64 (.for_bounds 0 n) [.for_symm_upper 0 n] ∧
      accepted_64 (.for_bounds 0 n) [.for_bounds 0 n] ∧
      (∀ t, t ∈ (for_constexpr_64 (.for_bounds 0 n) [.for_symm_lower 0 0 0]).calls →
        t ∉ (for_constexpr_64 (.for_bounds 0 n) [.for_symm_upper 0 n]).calls) ∧
      (∀ t, t ∈ (for_constexpr_64 (.for_bounds 0 n) [.for_bounds 0 n]).calls ↔
        (t ∈ (for_constexpr_64 (.for_bounds 0 n) [.for_symm_lower 0 0 0]).calls ∨
          t ∈ (for_constexpr_64 (.for_bounds 0 n) [.for_symm_upper 0 n]).calls)) ∧
      ((for_constexpr_64 (.for_bounds 0 n) [.for_symm_lower 0 0 0]).calls ++
          (for_constexpr_64 (.for_bounds 0 n) [.for_symm_upper 0 n]).calls).Perm
        (for_constexpr_64 (.for_bounds 0 n) [.for_bounds 0 n]).calls ∧
      (for_constexpr_64 (.for_bounds 0 n) [.for_symm_lower 0 0 0]).calls.length +
          (for_constexpr_64 (.for_bounds 0 n) [.for_symm_upper 0 n]).calls.length = n * n ∧
      (for_constexpr_64 (.for_bounds 0 n) [.for_bounds 0 n]).calls.length = n * n := by
  have hfl : fits_64 (.for_bounds 0 n) [.for_symm_lower 0 0 0] :=
    fits_64_family n hn _ fun b hb => by
      rw [List.mem_singleton.1 hb]; exact Or.inr (Or.inr ⟨0, 0, rfl, Or.inl rfl⟩)
  have hfu : fits_64 (.for_bounds 0 n) [.for_symm_upper 0 n] :=
    fits_64_family n hn _ fun b hb => by
      rw [List.mem_singleton.1 hb]; exact Or.inr (Or.inl ⟨0, rfl⟩)
  have hfp : fits_64 (.for_bounds 0 n) [.for_bounds 0 n] :=
    fits_64_family n hn _ fun b hb => by
      rw [List.mem_singleton.1 hb]; exact Or.inl rfl
  have hsl := (shallow_two (.for_symm_lower 0 0 0) (.for_bounds 0 0)).1
  have hsu := (shallow_two (.for_symm_upper 0 n) (.for_bounds 0 0)).1
  have hsp := (shallow_two (.for_bounds 0 n) (.for_bounds 0 0)).1
  rw [accepted_64_iff _ _ hfl hsl, accepted_64_iff _ _ hfu hsu, accepted_64_iff _ _ hfp hsp,
    calls_64_eq _ _ hfl hsl, calls_64_eq _ _ hfu hsu, calls_64_eq _ _ hfp hsp]
  exact symmetric_loops_partition_grid n

/-- The amended claim at `n = 3`. -/
theorem symmetric_loops_partition_grid_64_witness :
    (3 : Nat) < 2 ^ 63 ∧
      ((for_constexpr_64 (.for_bounds 0 3) [.for_symm_lower 0 0 0]).calls ++
          (for_constexpr_64 (.for_bounds 0 3) [.for_symm_upper 0 3]).calls).Perm
        (for_constexpr_64 (.for_bounds 0 3) [.for_bounds 0 3]).calls ∧
      (for_constexpr_64 (.for_bounds 0 3) [.for_bounds 0 3]).calls.length = 3 * 3 :=
  ⟨by decide, (symmetric_loops_partition_grid_64 3 (by decide)).2.2.2.2.2.1,
    (symmetric_loops_partition_grid_64 3 (by decide)).2.2.2.2.2.2.2⟩

/-- Claim C29 (the claim as stated fails): for `L = 2^63 - 1 ≤ U = 2^63` neither form is
accepted, the signed subtraction of the guard overflowing; for `L = 0`, `U = 1` and
`c = 2^63 - 1` the single-level form delivers `0` while the general form with
`for_bounds<c, c + 1>` is not accepted. -/
theorem single_level_and_general_reject_large :
    (9223372036854775807 : Nat) ≤ 9223372036854775808 ∧
      run_64 (.for_bounds 9223372036854775807 9223372036854775808) [] = none ∧
      run_64 (.for_bounds 9223372036854775807 9223372036854775808) [.for_bounds 0 1] =
        none ∧
      run_64 (.for_bounds 0 1) [] = some [[0]] ∧
      run_64 (.for_bounds 0 1)
        [.for_bounds 9223372036854775807 (9223372036854775807 + 1)] = none := by
  decide

/-- Claim C29 (amended): for `L ≤ U < 2^63` and `c + 1 < 2^63`, the general form
`for_constexpr<for_bounds<L, U>, for_bounds<c, c + 1>>` is accepted and invokes the callback
with exactly `(i, c)` for `i = L, ..., U - 1`, in this order; the single-level form
`for_constexpr<for_bounds<L, U>>` is accepted and delivers `i = L, ..., U - 1`, which is the
sequence of the first indices of the general form, in the same order. -/
theorem single_level_matches_general_64 (L U c : Nat) (h : L ≤ U) (hU : U < 2 ^ 63)
    (hc : c + 1 < 2 ^ 63) :
    for_constexpr_64 (.for_bounds L U) [.for_bounds c (c + 1)] =
        ⟨[], (List.range (U - L)).map (fun is => [is + L, c])⟩ ∧
      for_constexpr_64 (.for_bounds L U) [] =
        ⟨[], (List.range (U - L)).map (fun is => [is + L])⟩ ∧
      (for_constexpr_64 (.for_bounds L U) [.for_bounds c (c + 1)]).calls.map
          (fun t => t.take 1) =
        (for_constexpr_64 (.for_bounds L U) []).calls ∧
      (run_64 (.for_bounds L U) [.for_bounds c (c + 1)]).map
          (fun calls => calls.map (fun t => t.take 1)) =
        run_64 (.for_bounds L U) [] := by
  have hf1 : fits_64 (.for_bounds L U) [] := fits_64_single L U (by omega) hU
  have hf2 : fits_64 (.for_bounds L U) [.for_bounds c (c + 1)] :=
    fits_64_plain L U [(c, c + 1)] h hU fun r hr => by
      rw [List.mem_singleton.1 hr]; exact ⟨Nat.le_succ c, hc⟩
  have hold := single_level_matches_general L U c h
  refine ⟨?_, ?_, ?_, ?_⟩
  · rw [for_constexpr_64_eq_lift _ _ hf2 trivial, hold.1]; rfl
  · rw [for_constexpr_64_eq_lift _ _ hf1 trivial, hold.2.1]; rfl
  · rw [calls_64_eq _ _ hf1 trivial, calls_64_eq _ _ hf2 trivial]; exact hold.2.2.1
  · rw [run_64_eq _ _ hf1 trivial, run_64_eq _ _ hf2 trivial]; exact hold.2.2.2

/-- The amended claim at `L = 2`, `U = 5`, `c = 7`. -/
theorem single_level_matches_general_64_witness :
    (2 : Nat) ≤ 5 ∧ (5 : Nat) < 2 ^ 63 ∧ (7 : Nat) + 1 < 2 ^ 63 ∧
      for_constexpr_64 (.for_bounds 2 5) [.for_bounds 7 (7 + 1)] =
        ⟨[], (List.range (5 - 2)).map (fun is => [is + 2, 7])⟩ :=
  ⟨by decide, by decide, by decide,
    (single_level_matches_general_64 2 5 7 (by decide) (by decide) (by decide)).1⟩

end ForConstexpr

namespace ForConstexpr

/-- Claim C14 (the claim as stated fails): `for_bounds<0, 1>, for_symm_lower<0, 2^64 - 2, 0>`
is accepted, the lower bound being read as `-2` so that the guard computes
`0 + 0 - (-2) = 2`, and it invokes the callback with `(0, 2^64 - 2)` and `(0, 2^64 - 1)`; the
runtime loops `for i in [0, 1): for (j = 2^64 - 2; j < i + 0; ++j)` do nothing. -/
theorem symm_lower_large_lower_diverges :
    accepted_64 (.for_bounds 0 1) [.for_symm_lower 0 18446744073709551614 0] ∧
      run_64 (.for_bounds 0 1) [.for_symm_lower 0 18446744073709551614 0] =
        some [[0, 18446744073709551614], [0, 18446744073709551615]] ∧
      runtime_symm_lower 2 1 18446744073709551614 0 = some [] := by
  decide

theorem fits_64_symm_lower (Dim param1 : Nat) (param2 : Int) (hDim : Dim < 2 ^ 63)
    (hp1 : param1 < 2 ^ 63) (h1 : -(2 ^ 63) ≤ param2 - (param1 : Int))
    (h2 : (Dim : Int) + param2 ≤ 2 ^ 63) (h3 : param2 < 2 ^ 63) :
    fits_64 (.for_bounds 0 Dim) [.for_symm_lower 0 param1 param2] := by
  refine ⟨by norm_num, hDim, ?_, ⟨hp1, h1, ?_⟩, ?_⟩
  · norm_num at hDim ⊢; omega
  · norm_num at hDim h2 h3 ⊢; omega
  · simp only [Bounds.limit, fits]
    norm_num at hDim hp1 h1 h2 h3 ⊢
    omega

/-- Claim C14 (amended): for `Dim` and `param1` below `2^63` and an offset `param2` with
`param2 - param1 ≥ -2^63`, `Dim + param2 ≤ 2^63` and `param2 < 2^63`, whenever
`for_bounds<0, Dim>, for_symm_lower<0, param1, param2>` is accepted, the sequence of `(i, j)`
it passes to the callback is, element for element and in the same order, the sequence of
`(i, j)` produced by the runtime loops
`for i in [0, Dim): for (j = param1; j < i + param2; ++j)`, which terminate. -/
theorem symm_lower_refines_runtime_loops_64 (Dim param1 : Nat) (param2 : Int)
    (hDim : Dim < 2 ^ 63) (hp1 : param1 < 2 ^ 63) (h1 : -(2 ^ 63) ≤ param2 - (param1 : Int))
    (h2 : (Dim : Int) + param2 ≤ 2 ^ 63) (h3 : param2 < 2 ^ 63)
    (hacc : accepted_64 (.for_bounds 0 Dim) [.for_symm_lower 0 param1 param2]) (fuel : Nat)
    (hfuel : Dim + param2.toNat ≤ fuel) :
    runtime_symm_lower fuel Dim param1 param2 =
      run_64 (.for_bounds 0 Dim) [.for_symm_lower 0 param1 param2] := by
  have hfit := fits_64_symm_lower Dim param1 param2 hDim hp1 h1 h2 h3
  have hs := (shallow_two (.for_symm_lower 0 param1 param2) (.for_bounds 0 0)).1
  rw [accepted_64_iff _ _ hfit hs] at hacc
  rw [run_64_eq _ _ hfit hs]
  exact symm_lower_refines_runtime_loops Dim param1 param2 hacc fuel hfuel

/-- The amended refinement at `Dim = 3`, lower bound 0, offset 1, with fuel 4. -/
theorem symm_lower_refines_runtime_loops_64_witness :
    (3 : Nat) < 2 ^ 63 ∧ (0 : Nat) < 2 ^ 63 ∧ -(2 ^ 63) ≤ (1 : Int) - ((0 : Nat) : Int) ∧
      ((3 : Nat) : Int) + 1 ≤ 2 ^ 63 ∧ (1 : Int) < 2 ^ 63 ∧
      accepted_64 (.for_bounds 0 3) [.for_symm_lower 0 0 1] ∧ 3 + (1 : Int).toNat ≤ 4 ∧
      runtime_symm_lower 4 3 0 1 = run_64 (.for_bounds 0 3) [.for_symm_lower 0 0 1] :=
  ⟨by decide, by decide, by decide, by decide, by decide, by decide, by decide,
    symm_lower_refines_runtime_loops_64 3 0 1 (by decide) (by decide) (by decide) (by decide)
      (by decide) (by decide) 4 (by decide)⟩

/-- Claim C15 (the claim as stated fails): `for_bounds<2^64 - 2, 2^64 - 1>,
for_symm_upper<0, 0>` is accepted, the guards computing `-1 - (-2) = 1` and
`0 - (-2) = 2`, and it invokes the callback with `(2^64 - 2, 2^64 - 2)` and
`(2^64 - 2, 2^64 - 1)`; the runtime loops
`for i in [2^64 - 2, 2^64 - 1): for (j = i; j < 0; ++j)` do nothing. -/
theorem symm_upper_large_lower_diverges :
    accepted_64 (.for_bounds 18446744073709551614 18446744073709551615)
        [.for_symm_upper 0 0] ∧
      run_64 (.for_bounds 18446744073709551614 18446744073709551615) [.for_symm_upper 0 0] =
        some [[18446744073709551614, 18446744073709551614],
          [18446744073709551614, 18446744073709551615]] ∧
      runtime_symm_upper 2 18446744073709551614 18446744073709551615 0 = some [] := by
  decide

theorem fits_64_symm_upper (L0 U0 Upper : Nat) (hL : L0 < 2 ^ 63) (hU : U0 < 2 ^ 63)
    (hUp : Upper < 2 ^ 63) : fits_64 (.for_bounds L0 U0) [.for_symm_upper 0 Upper] := by
  refine ⟨hL, hU, ?_, hUp, ?_⟩
  · norm_num at hL hU ⊢; omega
  · simp only [Bounds.limit, fits]
    norm_num at hL hU hUp ⊢
    omega

/-- Claim C15 (amended): for `L0`, `U0` and `Upper` below `2^63`, whenever
`for_bounds<L0, U0>, for_symm_upper<0, Upper>` is accepted, the sequence of `(i, j)` it
passes to the callback is, element for element and in the same order, the sequence produced
by the runtime loops `for i in [L0, U0): for (j = i; j < Upper; ++j)`, which terminate: the
inner loop runs from the current value of the outer index to `Upper`. -/
theorem symm_upper_refines_runtime_loops_64 (L0 U0 Upper : Nat) (hL : L0 < 2 ^ 63)
    (hU : U0 < 2 ^ 63) (hUp : Upper < 2 ^ 63)
    (hacc : accepted_64 (.for_bounds L0 U0) [.for_symm_upper 0 Upper]) (fuel : Nat)
    (hfuel : U0 + Upper ≤ fuel) :
    runtime_symm_upper fuel L0 U0 Upper =
      run_64 (.for_bounds L0 U0) [.for_symm_upper 0 Upper] := by
  have hfit := fits_64_symm_upper L0 U0 Upper hL hU hUp
  have hs := (shallow_two (.for_symm_upper 0 Upper) (.for_bounds 0 0)).1
  rw [accepted_64_iff _ _ hfit hs] at hacc
  rw [run_64_eq _ _ hfit hs]
  exact symm_upper_refines_runtime_loops L0 U0 Upper hacc fuel hfuel

/-- The amended refinement at the outer range `[1, 3)` and the upper bound 4, with
fuel 7. -/
theorem symm_upper_refines_runtime_loops_64_witness :
    (1 : Nat) < 2 ^ 63 ∧ (3 : Nat) < 2 ^ 63 ∧ (4 : Nat) < 2 ^ 63 ∧
      accepted_64 (.for_bounds 1 3) [.for_symm_upper 0 4] ∧ 3 + 4 ≤ 7 ∧
      runtime_symm_upper 7 1 3 4 = run_64 (.for_bounds 1 3) [.for_symm_upper 0 4] :=
  ⟨by decide, by decide, by decide, by decide, by decide,
    symm_upper_refines_runtime_loops_64 1 3 4 (by decide) (by decide) (by decide) (by decide)
      7 (by decide)⟩

end ForConstexpr

namespace ForConstexpr

/-- Claim C33 (the claim as stated fails): `for_bounds<0, 2^63>, for_symm_lower<0, 0>` is
rejected, 2^63 being read as a negative upper bound, so no row `i ≥ 1` is visited; and in
`for_bounds<2^63 - 2, 2^63 - 1>, for_symm_lower<0, 2^63, 2>` the range derived for the index
`2^63 - 2` is `[2^63, 2^63)`, of width zero, and the configuration is rejected, the sum
`(2^63 - 2) + 2` leaving the range of `ssize_t`. -/
theorem zero_width_rejected_at_large_bounds :
    ¬ accepted_64 (.for_bounds 0 9223372036854775808) [.for_symm_lower 0 0 0] ∧
      run_64 (.for_bounds 0 9223372036854775808) [.for_symm_lower 0 0 0] = none ∧
      (Bounds.for_symm_lower 0 9223372036854775808 2).range [9223372036854775806] =
        some (9223372036854775808, 9223372036854775808) ∧
      ¬ accepted_64 (.for_bounds 9223372036854775806 9223372036854775807)
        [.for_symm_lower 0 9223372036854775808 2] ∧
      run_64 (.for_bounds 9223372036854775806 9223372036854775807)
        [.for_symm_lower 0 9223372036854775808 2] = none := by
  decide

theorem fits_64_zero_width (L U c : Nat) (hL : L < 2 ^ 63) (hU : U < 2 ^ 63)
    (hc : c < 2 ^ 63) : fits_64 (.for_bounds L U) [.for_bounds c c] := by
  refine ⟨hL, hU, ?_, ⟨hc, hc⟩, ?_⟩
  · norm_num at hL hU ⊢; omega
  · simp only [Bounds.limit, fits]
    norm_num at hL hU hc ⊢
    omega

/-- Claim C33 (amended): with every bound and every index below `2^63`, a range of width zero
is accepted and contributes no invocation, and the other outer indices are expanded as
usual.  For a two-level configuration that keeps its arithmetic below `2^63` and whose
level 1 has a well-formed range (`lower ≤ upper`, equality included) for every index of
level 0: the configuration is accepted; no invocation starts with an index `i` for which the
range of level 1 has width zero; the pairs `(i, j)` visited are exactly those with `i` in the
range of level 0 and `j` in the range of level 1 at `i`.  A `for_bounds<L, L>` alone, and a
`for_bounds<c, c>` with `c < 2^63` at level 1, are accepted with no invocation.  For
`for_bounds<0, n>, for_symm_lower<0, 0>` with `n < 2^63` the range at `i = 0` is `[0, 0)`, no
pair starts with 0, and every `(i, j)` with `j < i < n` is visited.  At any depth, in an
accepted configuration that keeps its arithmetic below `2^63`, has no symmetric descriptor
deeper than level 2 and whose descriptors are all passed on, no invocation goes through a
range of width zero. -/
theorem zero_width_range_accepted_64 (L U : Nat) (b : Bounds) (hle : L ≤ U)
    (hplain : ∀ l u, Bounds.for_bounds l u = b → l ≤ u)
    (hg : ∀ i, L ≤ i → i < U → ∃ lo hi, b.range [i] = some (lo, hi) ∧ lo ≤ hi)
    (hfit : fits_64 (.for_bounds L U) [b]) :
    accepted_64 (.for_bounds L U) [b] ∧
      (∀ (i : Nat) (lo : Int), b.range [i] = some (lo, lo) →
        ∀ t ∈ (for_constexpr_64 (.for_bounds L U) [b]).calls, t.take 1 ≠ [i]) ∧
      (∀ i j, [i, j] ∈ (for_constexpr_64 (.for_bounds L U) [b]).calls ↔
        L ≤ i ∧ i < U ∧
          ∃ lo hi, b.range [i] = some (lo, hi) ∧ lo ≤ (j : Int) ∧ (j : Int) < hi) ∧
      (∀ c, c < 2 ^ 63 → for_constexpr_64 (.for_bounds L L) [] = ⟨[], []⟩ ∧
        for_constexpr_64 (.for_bounds L U) [.for_bounds c c] = ⟨[], []⟩) ∧
      (∀ n, n < 2 ^ 63 → accepted_64 (.for_bounds 0 n) [.for_symm_lower 0 0 0] ∧
        (Bounds.for_symm_lower 0 0 0).range [0] = some (0, 0) ∧
        (∀ t ∈ (for_constexpr_64 (.for_bounds 0 n) [.for_symm_lower 0 0 0]).calls,
          t.take 1 ≠ [0]) ∧
        ∀ i j, j < i → i < n →
          [i, j] ∈ (for_constexpr_64 (.for_bounds 0 n) [.for_symm_lower 0 0 0]).calls) ∧
      (∀ (l0 u0 : Nat) (more : List Bounds), fits_64 (.for_bounds l0 u0) more →
        shallow more 0 → forwards_all more →
        accepted_64 (.for_bounds l0 u0) more →
        ∀ t ∈ (for_constexpr_64 (.for_bounds l0 u0) more).calls,
          ∀ (k : Nat) (d : Bounds) (lo : Int),
            (Bounds.for_bounds l0 u0 :: more).get? k = some d →
              d.range (t.take k) ≠ some (lo, lo)) := by
  have hs : shallow [b] 0 := (shallow_two b (.for_bounds 0 0)).1
  have hold := zero_width_range_accepted L U b hle hplain hg
  have hL : L < 2 ^ 63 := hfit.1
  have hU : U < 2 ^ 63 := hfit.2.1
  refine ⟨(accepted_64_iff _ _ hfit hs).2 hold.1, ?_, ?_, fun c hc => ⟨?_, ?_⟩,
    fun n hn => ?_, ?_⟩
  · rw [calls_64_eq _ _ hfit hs]
    exact hold.2.1
  · rw [calls_64_eq _ _ hfit hs]
    exact hold.2.2.1
  · rw [for_constexpr_64_eq_lift _ _ (fits_64_single L L hL hL) trivial,
      (hold.2.2.2.1 c).1]
    rfl
  · rw [for_constexpr_64_eq_lift _ _ (fits_64_zero_width L U c hL hU hc)
        (shallow_two (.for_bounds c c) (.for_bounds 0 0)).1,
      (hold.2.2.2.1 c).2]
    rfl
  · have hfn : fits_64 (.for_bounds 0 n) [.for_symm_lower 0 0 0] :=
      fits_64_family n hn _ fun x hx => by
        rw [List.mem_singleton.1 hx]; exact Or.inr (Or.inr ⟨0, 0, rfl, Or.inl rfl⟩)
    have hsn := (shallow_two (.for_symm_lower 0 0 0) (.for_bounds 0 0)).1
    have h := hold.2.2.2.2.1 n
    rw [accepted_64_iff _ _ hfn hsn, calls_64_eq _ _ hfn hsn]
    exact h
  · intro l0 u0 more hf hsm hfw hacc
    rw [calls_64_eq _ _ hf hsm]
    exact hold.2.2.2.2.2 l0 u0 more hfw ((accepted_64_iff _ _ hf hsm).1 hacc)

/-- The claim at `for_bounds<0, 3>, for_symm_lower<0, 0>`, whose range at `i = 0` has width
zero. -/
theorem zero_width_range_accepted_64_witness :
    (0 : Nat) ≤ 3 ∧
      (∀ l u, Bounds.for_bounds l u = Bounds.for_symm_lower 0 0 0 → l ≤ u) ∧
      (∀ i : Nat, 0 ≤ i → i < 3 →
        ∃ lo hi, (Bounds.for_symm_lower 0 0 0).range [i] = some (lo, hi) ∧ lo ≤ hi) ∧
      fits_64 (.for_bounds 0 3) [.for_symm_lower 0 0 0] ∧
      accepted_64 (.for_bounds 0 3) [.for_symm_lower 0 0 0] ∧
      (∀ t ∈ (for_constexpr_64 (.for_bounds 0 3) [.for_symm_lower 0 0 0]).calls,
        t.take 1 ≠ [0]) ∧
      (for_constexpr_64 (.for_bounds 0 3) [.for_symm_lower 0 0 0]).calls =
        [[1, 0], [2, 0], [2, 1]] :=
  ⟨by decide, (fun _ _ h => by cases h),
    (fun i _ _ => ⟨0, (i : Int), by simp [Bounds.range], by omega⟩),
    by decide,
    (zero_width_range_accepted_64 0 3 (.for_symm_lower 0 0 0) (by decide)
      (fun _ _ h => by cases h)
      (fun i _ _ => ⟨0, (i : Int), by simp [Bounds.range], by omega⟩) (by decide)).1,
    (zero_width_range_accepted_64 0 3 (.for_symm_lower 0 0 0) (by decide)
      (fun _ _ h => by cases h)
      (fun i _ _ => ⟨0, (i : Int), by simp [Bounds.range], by omega⟩) (by decide)).2.1 0 0
      (by simp [Bounds.range]),
    by decide⟩

end ForConstexpr

namespace ForConstexpr

theorem mem_diags_64 (bounds0 : Bounds) (more : List Bounds) (hfit : fits_64 bounds0 more)
    (hs : shallow more 0) (m : Diag) :
    Diag64.diag m ∈ (for_constexpr_64 bounds0 more).diags ↔
      m ∈ (for_constexpr bounds0 more).diags := by
  rw [for_constexpr_64_eq_lift bounds0 more hfit hs]
  simp [Expansion.lift_64]

theorem run_64_eq_none_of_mem_diags (bounds0 : Bounds) (more : List Bounds) (m : Diag64)
    (hm : m ∈ (for_constexpr_64 bounds0 more).diags) : run_64 bounds0 more = none := by
  unfold run_64
  rw [if_neg]
  intro h
  rw [h] at hm
  cases hm

/-- An inverted `for_bounds<L, U>` with `L < 2^63` at level 0 is reported, whatever
follows. -/
theorem inverted_level_zero_64 (L U : Nat) (h : U < L) (hL : L < 2 ^ 63)
    (more : List Bounds) :
    Diag64.diag .upper_smaller_than_lower ∈ (for_constexpr_64 (.for_bounds L U) more).diags := by
  have hn : ¬ L ≤ U := by omega
  simp only [for_constexpr_64, single_loop_guard_64_small L U hL (by omega)]
  simp [hn]

/-- Claim C4 (amended): with every bound and every index below `2^63` and no symmetric
descriptor deeper than level 2, a plain descriptor `for_bounds<L, U>` with `U < L` makes
`for_constexpr` reject the configuration, and nothing runs, when it stands at level 0 (there
`L < 2^63` is enough), at level 1, or at a level `k ≥ 2` below plain levels `0, ..., k - 2`
that enumerate at least one index tuple `t` and a level `k - 1` that is plain or refers to
one of the levels above it.  At levels 0 and 1, and at level `k` when level `k - 1` is plain
as well, the rejection is by the assertion "the upper bound in for_bounds is smaller than the
lower bound". -/
theorem inverted_for_bounds_rejected_64 (L U : Nat) (h : U < L) :
    (∀ more : List Bounds, L < 2 ^ 63 →
        Diag64.diag .upper_smaller_than_lower ∈
            (for_constexpr_64 (.for_bounds L U) more).diags ∧
          run_64 (.for_bounds L U) more = none) ∧
      (∀ (l0 u0 : Nat) (rest : List Bounds),
        fits_64 (.for_bounds l0 u0) (.for_bounds L U :: rest) →
        shallow (.for_bounds L U :: rest) 0 →
        Diag64.diag .upper_smaller_than_lower ∈
            (for_constexpr_64 (.for_bounds l0 u0) (.for_bounds L U :: rest)).diags ∧
          run_64 (.for_bounds l0 u0) (.for_bounds L U :: rest) = none) ∧
      (∀ (l0 u0 : Nat) (ranges : List (Nat × Nat)) (lk uk : Nat) (rest : List Bounds)
          (t : List Nat),
        fits_64 (.for_bounds l0 u0)
          (plain ranges ++ .for_bounds lk uk :: .for_bounds L U :: rest) →
        shallow (plain ranges ++ .for_bounds lk uk :: .for_bounds L U :: rest) 0 →
        t ∈ (for_constexpr_64 (.for_bounds l0 u0) (plain ranges)).calls →
        Diag64.diag .upper_smaller_than_lower ∈
            (for_constexpr_64 (.for_bounds l0 u0)
              (plain ranges ++ .for_bounds lk uk :: .for_bounds L U :: rest)).diags ∧
          run_64 (.for_bounds l0 u0)
            (plain ranges ++ .for_bounds lk uk :: .for_bounds L U :: rest) = none) ∧
      (∀ (l0 u0 : Nat) (ranges : List (Nat × Nat)) (bk1 : Bounds) (rest : List Bounds)
          (t : List Nat),
        fits_64 (.for_bounds l0 u0) (plain ranges ++ bk1 :: .for_bounds L U :: rest) →
        shallow (plain ranges ++ bk1 :: .for_bounds L U :: rest) 0 →
        t ∈ (for_constexpr_64 (.for_bounds l0 u0) (plain ranges)).calls →
        bk1.refers_below t.length →
        run_64 (.for_bounds l0 u0) (plain ranges ++ bk1 :: .for_bounds L U :: rest) =
          none) := by
  have hold := inverted_for_bounds_rejected L U h
  refine ⟨fun more hL => ?_, fun l0 u0 rest hfit hs => ?_,
    fun l0 u0 ranges lk uk rest t hfit hs ht => ?_,
    fun l0 u0 ranges bk1 rest t hfit hs ht hb => ?_⟩
  · have hm := inverted_level_zero_64 L U h hL more
    exact ⟨hm, run_64_eq_none_of_mem_diags _ _ _ hm⟩
  · have hm := (mem_diags_64 _ _ hfit hs _).2 (hold.2.1 l0 u0 rest).1
    exact ⟨hm, run_64_eq_none_of_mem_diags _ _ _ hm⟩
  · rw [calls_64_eq _ _ (fits_64_append_left _ _ _ hfit) (shallow_plain ranges 0)] at ht
    have hm := (mem_diags_64 _ _ hfit hs _).2 (hold.2.2.1 l0 u0 ranges lk uk rest t ht).1
    exact ⟨hm, run_64_eq_none_of_mem_diags _ _ _ hm⟩
  · rw [calls_64_eq _ _ (fits_64_append_left _ _ _ hfit) (shallow_plain ranges 0)] at ht
    rw [run_64_eq _ _ hfit hs]
    exact hold.2.2.2 l0 u0 ranges bk1 rest t ht hb

/-- The rejection at `for_bounds<0,2>, for_bounds<0,2>, for_bounds<0,0>, for_bounds<5,1>`: the
inverted descriptor stands at level 3, below the tuple `(0, 1)` of levels 0 and 1 and the
plain (empty) level 2. -/
theorem inverted_for_bounds_rejected_64_witness :
    (1 : Nat) < 5 ∧
      fits_64 (.for_bounds 0 2)
        (plain [(0, 2)] ++ .for_bounds 0 0 :: .for_bounds 5 1 :: []) ∧
      shallow (plain [(0, 2)] ++ .for_bounds 0 0 :: .for_bounds 5 1 :: []) 0 ∧
      [0, 1] ∈ (for_constexpr_64 (.for_bounds 0 2) (plain [(0, 2)])).calls ∧
      (Diag64.diag .upper_smaller_than_lower ∈
          (for_constexpr_64 (.for_bounds 0 2)
            (plain [(0, 2)] ++ .for_bounds 0 0 :: .for_bounds 5 1 :: [])).diags ∧
        run_64 (.for_bounds 0 2)
          (plain [(0, 2)] ++ .for_bounds 0 0 :: .for_bounds 5 1 :: []) = none) :=
  ⟨by decide, by decide, by decide, by decide,
   (inverted_for_bounds_rejected_64 5 1 (by decide)).2.2.1 0 2 [(0, 2)] 0 0 []
     [0, 1] (by decide) (by decide) (by decide)⟩

/-- Claim C5 (amended): let `for_symm_upper<r, U>` stand at level `k ≤ 2` below the levels
`0, ..., k - 1`, all of them plain but possibly the last, in a configuration that keeps every
bound and every index below `2^63` and has no symmetric descriptor deeper than level 2.  If
one of the index tuples `t = (i_0, ..., i_{k-1})` that these levels enumerate has `U < i_r`,
`for_constexpr` rejects the configuration and nothing runs; the configuration is accepted
only if `i_r ≤ U` in every such tuple. -/
theorem symm_upper_below_index_rejected_64 (l0 u0 : Nat) (ranges : List (Nat × Nat))
    (last : Option Bounds) (r U : Nat) (rest : List Bounds)
    (hfit : fits_64 (.for_bounds l0 u0)
      (plain ranges ++ last.toList ++ .for_symm_upper r U :: rest))
    (hs : shallow (plain ranges ++ last.toList ++ .for_symm_upper r U :: rest) 0) :
    (∀ (t : List Nat) (x : Nat),
        t ∈ (for_constexpr_64 (.for_bounds l0 u0) (plain ranges ++ last.toList)).calls →
        t.get? r = some x → U < x →
        run_64 (.for_bounds l0 u0)
          (plain ranges ++ last.toList ++ .for_symm_upper r U :: rest) = none) ∧
      (accepted_64 (.for_bounds l0 u0)
          (plain ranges ++ last.toList ++ .for_symm_upper r U :: rest) →
        ∀ (t : List Nat) (x : Nat),
          t ∈ (for_constexpr_64 (.for_bounds l0 u0) (plain ranges ++ last.toList)).calls →
          t.get? r = some x → x ≤ U) := by
  have hold := symm_upper_below_index_rejected l0 u0 ranges last r U rest
  rw [calls_64_eq _ _ (fits_64_append_left _ _ _ hfit) (shallow_append_left _ _ _ hs),
    run_64_eq _ _ hfit hs, accepted_64_iff _ _ hfit hs]
  exact hold

/-- The rejection at `for_bounds<0,1>, for_bounds<0,3>, for_symm_upper<1,1>`: level 1 takes the
value 2, above the upper bound 1. -/
theorem symm_upper_below_index_rejected_64_witness :
    fits_64 (.for_bounds 0 1)
        (plain [] ++ (some (Bounds.for_bounds 0 3)).toList ++ .for_symm_upper 1 1 :: []) ∧
      shallow (plain [] ++ (some (Bounds.for_bounds 0 3)).toList ++
        .for_symm_upper 1 1 :: []) 0 ∧
      [0, 2] ∈ (for_constexpr_64 (.for_bounds 0 1)
        (plain [] ++ (some (Bounds.for_bounds 0 3)).toList)).calls ∧
      [0, 2].get? 1 = some 2 ∧ 1 < 2 ∧
      run_64 (.for_bounds 0 1)
        (plain [] ++ (some (Bounds.for_bounds 0 3)).toList ++ .for_symm_upper 1 1 :: []) =
          none :=
  ⟨by decide, by decide, by decide, by decide, by decide,
   (symm_upper_below_index_rejected_64 0 1 [] (some (.for_bounds 0 3)) 1 1 []
     (by decide) (by decide)).1 [0, 2] 2 (by decide) (by decide) (by decide)⟩

/-- Claim C6 (amended): let `for_symm_lower<r, L, off>` stand at level `k ≤ 2` below the
levels `0, ..., k - 1`, all of them plain but possibly the last, in a configuration that
keeps every bound, every index and every sum `i_r + off` within the range of `ssize_t` and
has no symmetric descriptor deeper than level 2.  If one of the index tuples
`t = (i_0, ..., i_{k-1})` that these levels enumerate has `i_r + off < L`, `for_constexpr`
rejects the configuration and nothing runs; the configuration is accepted only if
`L ≤ i_r + off` in every such tuple. -/
theorem symm_lower_above_upper_rejected_64 (l0 u0 : Nat) (ranges : List (Nat × Nat))
    (last : Option Bounds) (r L : Nat) (off : Int) (rest : List Bounds)
    (hfit : fits_64 (.for_bounds l0 u0)
      (plain ranges ++ last.toList ++ .for_symm_lower r L off :: rest))
    (hs : shallow (plain ranges ++ last.toList ++ .for_symm_lower r L off :: rest) 0) :
    (∀ (t : List Nat) (x : Nat),
        t ∈ (for_constexpr_64 (.for_bounds l0 u0) (plain ranges ++ last.toList)).calls →
        t.get? r = some x → (x : Int) + off < (L : Int) →
        run_64 (.for_bounds l0 u0)
          (plain ranges ++ last.toList ++ .for_symm_lower r L off :: rest) = none) ∧
      (accepted_64 (.for_bounds l0 u0)
          (plain ranges ++ last.toList ++ .for_symm_lower r L off :: rest) →
        ∀ (t : List Nat) (x : Nat),
          t ∈ (for_constexpr_64 (.for_bounds l0 u0) (plain ranges ++ last.toList)).calls →
          t.get? r = some x → (L : Int) ≤ (x : Int) + off) := by
  have hold := symm_lower_above_upper_rejected l0 u0 ranges last r L off rest
  rw [calls_64_eq _ _ (fits_64_append_left _ _ _ hfit) (shallow_append_left _ _ _ hs),
    run_64_eq _ _ hfit hs, accepted_64_iff _ _ hfit hs]
  exact hold

/-- The rejection at `for_bounds<0,3>, for_symm_lower<0,2,0>`: level 0 takes the value 1 and
`1 + 0 < 2`. -/
theorem symm_lower_above_upper_rejected_64_witness :
    fits_64 (.for_bounds 0 3)
        (plain [] ++ (none : Option Bounds).toList ++ .for_symm_lower 0 2 0 :: []) ∧
      shallow (plain [] ++ (none : Option Bounds).toList ++ .for_symm_lower 0 2 0 :: []) 0 ∧
      [1] ∈ (for_constexpr_64 (.for_bounds 0 3)
        (plain [] ++ (none : Option Bounds).toList)).calls ∧
      [1].get? 0 = some 1 ∧ ((1 : Nat) : Int) + 0 < ((2 : Nat) : Int) ∧
      run_64 (.for_bounds 0 3)
        (plain [] ++ (none : Option Bounds).toList ++ .for_symm_lower 0 2 0 :: []) = none :=
  ⟨by decide, by decide, by decide, by decide, by decide,
   (symm_lower_above_upper_rejected_64 0 3 [] none 0 2 0 [] (by decide) (by decide)).1 [1] 1
     (by decide) (by decide) (by decide)⟩

end ForConstexpr

namespace ForConstexpr

end ForConstexpr

namespace ForConstexpr

end ForConstexpr

namespace ForConstexpr

end ForConstexpr

namespace ForConstexpr

end ForConstexpr
